import Mathlib

/-!
# go/tools/builders/embed.go

A shallow embedding of the `embed` builder of rules_go: the byte-escaping
writer (`escapeWriter.Write`) and the declaration emitters
(`embedSingleFile`, `embedMultipleFiles`, `embedFileContents`).

Conventions of the embedding.

* A Go `byte` is a natural number below 256; a `[]byte` and a Go `string`
  are lists of such numbers (`GoString`).  Theorems that depend on the range
  carry the hypothesis `isBytes`.
* An `io.Writer` is a state type together with a `write` function returning
  the new state and the error (`none` is Go's `nil`).  The byte count an
  `io.Writer` returns is dropped: `embed.go` discards it at every call site.
* The `for` loop of `escapeWriter.Write` is run with fuel; `Write` supplies
  `len(data)` units, which is proved to be enough.  `none` as a result of a
  function of the embedding means "no result" (fuel exhausted, or a Go
  run-time panic).
* `unicode/utf8.DecodeRune` is transcribed from the Go standard library.
-/

namespace Embed

/-! ## Bytes, strings, writers -/

/-- A Go string or byte slice: a sequence of bytes. -/
abbrev GoString := List Nat

/-- Every element is a byte value. -/
def isBytes (data : List Nat) : Prop := ∀ b ∈ data, b < 256

instance (data : List Nat) : Decidable (isBytes data) := by
  unfold isBytes; infer_instance

/-- The bytes of an ASCII string constant of the source. -/
def lit (s : String) : GoString := s.toList.map Char.toNat

/-- Go's `error`; `Option Err` is an error value that may be `nil`. -/
abbrev Err := String

/-- An `io.Writer`: `write s p` is the effect of `w.Write(p)` in state `s`. -/
structure Writer (σ : Type) where
  write : σ → List Nat → σ × Option Err

/-- A sink that never fails and appends what it is given: its state is
everything written so far. -/
def bufWriter : Writer (List Nat) where
  write s p := (s ++ p, none)

/-! ## unicode/utf8 (Go standard library) -/

/-- `utf8.RuneError`, U+FFFD. -/
def RuneError : Nat := 0xFFFD

/-- The table `first` of unicode/utf8: information about the first byte of
a UTF-8 sequence (`as` = 0xF0, `xx` = 0xF1, `s1` = 0x02, `s2` = 0x13,
`s3` = 0x03, `s4` = 0x23, `s5` = 0x34, `s6` = 0x04, `s7` = 0x44). -/
def first (b : Nat) : Nat :=
  if b < 0x80 then 0xF0        -- 0x00-0x7F: as
  else if b < 0xC2 then 0xF1   -- 0x80-0xC1: xx
  else if b < 0xE0 then 0x02   -- 0xC2-0xDF: s1
  else if b = 0xE0 then 0x13   -- 0xE0: s2
  else if b < 0xED then 0x03   -- 0xE1-0xEC: s3
  else if b = 0xED then 0x23   -- 0xED: s4
  else if b < 0xF0 then 0x03   -- 0xEE-0xEF: s3
  else if b = 0xF0 then 0x34   -- 0xF0: s5
  else if b < 0xF4 then 0x04   -- 0xF1-0xF3: s6
  else if b = 0xF4 then 0x44   -- 0xF4: s7
  else 0xF1                    -- 0xF5-0xFF: xx

/-- The table `acceptRanges` of unicode/utf8: the range `(lo, hi)` allowed
for the second byte of a sequence. -/
def acceptRanges (i : Nat) : Nat × Nat :=
  match i with
  | 0 => (0x80, 0xBF)
  | 1 => (0xA0, 0xBF)
  | 2 => (0x80, 0x9F)
  | 3 => (0x90, 0xBF)
  | 4 => (0x80, 0x8F)
  | _ => (0, 0)

/-- The function `utf8.DecodeRune`: the first rune of `p` and its width in
bytes; `(RuneError, 0)` on empty input and `(RuneError, 1)` on an invalid
encoding.  `x & 7` is `x % 8` and `x >> 4` is `x / 16`; in the one-byte
case the mask `rune(x) << 31 >> 31` is all ones exactly when `x` is odd
(`xx`), so the result is `RuneError` for `xx` and `p[0]` for `as`. -/
def DecodeRune (p : List Nat) : Nat × Nat :=
  let n := p.length
  if n < 1 then (RuneError, 0) else
  let p0 := p.getD 0 0
  let x := first p0
  if x ≥ 0xF0 then
    (if x % 2 = 1 then RuneError else p0, 1)
  else
  let sz := x % 8
  let accept := acceptRanges (x / 16)
  if n < sz then (RuneError, 1) else
  let b1 := p.getD 1 0
  if b1 < accept.1 ∨ accept.2 < b1 then (RuneError, 1) else
  if sz ≤ 2 then
    (((p0 &&& 0x1F) <<< 6) ||| (b1 &&& 0x3F), 2)
  else
  let b2 := p.getD 2 0
  if b2 < 0x80 ∨ 0xBF < b2 then (RuneError, 1) else
  if sz ≤ 3 then
    (((p0 &&& 0x0F) <<< 12) ||| ((b1 &&& 0x3F) <<< 6) ||| (b2 &&& 0x3F), 3)
  else
  let b3 := p.getD 3 0
  if b3 < 0x80 ∨ 0xBF < b3 then (RuneError, 1) else
  (((p0 &&& 0x07) <<< 18) ||| ((b1 &&& 0x3F) <<< 12) ||| ((b2 &&& 0x3F) <<< 6)
    ||| (b3 &&& 0x3F), 4)

/-! ## escapeWriter -/

/-- The constant `byteOrderMark` of `escapeWriter.Write`, U+FEFF. -/
def byteOrderMark : Nat := 0xFEFF

/-- The digit table `ldigits` of package fmt. -/
def ldigits : GoString := lit "0123456789abcdefx"

/-- A lowercase hexadecimal digit as `%x` prints it, `ldigits[d]`. -/
def hexDigit (d : Nat) : Nat := ldigits.getD d 0

/-- The text that the format `\x%02x` produces for a byte `b`: a backslash,
`x`, and the two lowercase hexadecimal digits of `b`. -/
def fmtHex (b : Nat) : List Nat := [92, 120, hexDigit (b / 16), hexDigit (b % 16)]

/-- The variables of the loop of `escapeWriter.Write`: the sink `w.w`, the
unconsumed `data`, and `err`. -/
structure LoopState (σ : Type) where
  sink : σ
  data : List Nat
  err : Option Err

/-- One iteration of the loop body of `escapeWriter.Write` (the `switch` on
`data[0]` and the slicing that follows it). -/
def loopBody {σ : Type} (W : Writer σ) (st : LoopState σ) : LoopState σ :=
  match st.data with
  | [] => st
  | b :: _ =>
    if b = 92 then                      -- case '\\'
      let r := W.write st.sink [92, 92]
      ⟨r.1, st.data.drop 1, r.2⟩
    else if b = 34 then                 -- case '"'
      let r := W.write st.sink [92, 34]
      ⟨r.1, st.data.drop 1, r.2⟩
    else if b = 10 then                 -- case '\n'
      let r := W.write st.sink [92, 110]
      ⟨r.1, st.data.drop 1, r.2⟩
    else if b = 0 then                  -- case '\x00'
      let r := W.write st.sink [92, 120, 48, 48]
      ⟨r.1, st.data.drop 1, r.2⟩
    else                                -- default
      let d := DecodeRune st.data
      if d.1 ≠ RuneError ∧ d.1 ≠ byteOrderMark then
        let r := W.write st.sink (st.data.take d.2)
        ⟨r.1, st.data.drop d.2, r.2⟩   -- continue
      else
        let r := W.write st.sink (fmtHex b)
        ⟨r.1, st.data.drop 1, r.2⟩

/-- The loop `for err == nil && len(data) > 0` of `escapeWriter.Write`, run
for at most `fuel` iterations; `none` when the fuel does not suffice. -/
def loop {σ : Type} (W : Writer σ) : Nat → LoopState σ → Option (LoopState σ)
  | fuel, st =>
    if st.err.isSome ∨ st.data = [] then some st
    else match fuel with
      | 0 => none
      | fuel + 1 => loop W fuel (loopBody W st)

/-- The method `escapeWriter.Write`: the new state of the sink, the count
`n - len(data)` and the error. -/
def escapeWriter.Write {σ : Type} (W : Writer σ) (s : σ) (data : List Nat) :
    Option (σ × Nat × Option Err) :=
  let n := data.length
  (loop W data.length ⟨s, data, none⟩).map
    fun st => (st.sink, n - st.data.length, st.err)

/-- What one call `escapeWriter.Write(data)` emits into a sink that never
fails. -/
def escape (data : List Nat) : List Nat :=
  match escapeWriter.Write bufWriter [] data with
  | some r => r.1
  | none => []

/-- The numbers of bytes by which the successive iterations of the loop of
`escapeWriter.Write` advance, read off `loopBody`. -/
def advances {σ : Type} (W : Writer σ) : Nat → LoopState σ → List Nat
  | 0, _ => []
  | fuel + 1, st =>
    if st.err.isSome ∨ st.data = [] then []
    else (st.data.length - (loopBody W st).data.length) :: advances W fuel (loopBody W st)

/-! ## Auxiliary definitions used in the proofs -/

/-- The second-byte range of a three-byte sequence with lead byte `p0`. -/
def range3 (p0 : Nat) : Nat × Nat :=
  if p0 = 0xE0 then (0xA0, 0xBF) else if p0 = 0xED then (0x80, 0x9F) else (0x80, 0xBF)

/-- The second-byte range of a four-byte sequence with lead byte `p0`. -/
def range4 (p0 : Nat) : Nat × Nat :=
  if p0 = 0xF0 then (0x90, 0xBF) else if p0 = 0xF4 then (0x80, 0x8F) else (0x80, 0xBF)

/-- A closed form of `DecodeRune` by the range of the lead byte, with the
bit operations written arithmetically. -/
def decodeSpec : List Nat → Nat × Nat
  | [] => (RuneError, 0)
  | p0 :: t =>
    if p0 < 0x80 then (p0, 1)
    else if p0 < 0xC2 then (RuneError, 1)
    else if p0 < 0xE0 then
      match t with
      | b1 :: _ =>
        if 0x80 ≤ b1 ∧ b1 ≤ 0xBF then (p0 % 32 * 64 + b1 % 64, 2) else (RuneError, 1)
      | _ => (RuneError, 1)
    else if p0 < 0xF0 then
      match t with
      | b1 :: b2 :: _ =>
        if (range3 p0).1 ≤ b1 ∧ b1 ≤ (range3 p0).2 ∧ 0x80 ≤ b2 ∧ b2 ≤ 0xBF then
          (p0 % 16 * 4096 + b1 % 64 * 64 + b2 % 64, 3)
        else (RuneError, 1)
      | _ => (RuneError, 1)
    else if p0 < 0xF5 then
      match t with
      | b1 :: b2 :: b3 :: _ =>
        if (range4 p0).1 ≤ b1 ∧ b1 ≤ (range4 p0).2 ∧ 0x80 ≤ b2 ∧ b2 ≤ 0xBF
            ∧ 0x80 ≤ b3 ∧ b3 ≤ 0xBF then
          (p0 % 8 * 262144 + b1 % 64 * 4096 + b2 % 64 * 64 + b3 % 64, 4)
        else (RuneError, 1)
      | _ => (RuneError, 1)
    else (RuneError, 1)

/-- What one iteration of the loop writes to the sink and the number of
bytes by which it advances (the `switch` of `loopBody` without the sink). -/
def token (data : List Nat) : List Nat × Nat :=
  match data with
  | [] => ([], 0)
  | b :: _ =>
    if b = 92 then ([92, 92], 1)
    else if b = 34 then ([92, 34], 1)
    else if b = 10 then ([92, 110], 1)
    else if b = 0 then ([92, 120, 48, 48], 1)
    else if (DecodeRune data).1 ≠ RuneError ∧ (DecodeRune data).1 ≠ byteOrderMark then
      (data.take (DecodeRune data).2, (DecodeRune data).2)
    else (fmtHex b, 1)

/-- The output of the loop as a function of the input alone. -/
def escPure : List Nat → List Nat
  | [] => []
  | b :: rest => (token (b :: rest)).1 ++ escPure (rest.drop ((token (b :: rest)).2 - 1))
termination_by data => data.length
decreasing_by simp [List.length_drop]; omega

/-- The bytes `p0 b1` are a well-formed two-byte sequence. -/
def Valid2 (p0 b1 : Nat) : Prop := 0xC2 ≤ p0 ∧ p0 < 0xE0 ∧ 0x80 ≤ b1 ∧ b1 ≤ 0xBF

/-- The bytes `p0 b1 b2` are a well-formed three-byte sequence. -/
def Valid3 (p0 b1 b2 : Nat) : Prop :=
  0xE0 ≤ p0 ∧ p0 < 0xF0 ∧ (range3 p0).1 ≤ b1 ∧ b1 ≤ (range3 p0).2 ∧ 0x80 ≤ b2 ∧ b2 ≤ 0xBF

/-- The bytes `p0 b1 b2 b3` are a well-formed four-byte sequence. -/
def Valid4 (p0 b1 b2 b3 : Nat) : Prop :=
  0xF0 ≤ p0 ∧ p0 < 0xF5 ∧ (range4 p0).1 ≤ b1 ∧ b1 ≤ (range4 p0).2 ∧ 0x80 ≤ b2 ∧ b2 ≤ 0xBF
    ∧ 0x80 ≤ b3 ∧ b3 ≤ 0xBF

/-- The rune of a two-byte sequence. -/
def val2 (p0 b1 : Nat) : Nat := p0 % 32 * 64 + b1 % 64

/-- The rune of a three-byte sequence. -/
def val3 (p0 b1 b2 : Nat) : Nat := p0 % 16 * 4096 + b1 % 64 * 64 + b2 % 64

/-- The rune of a four-byte sequence. -/
def val4 (p0 b1 b2 b3 : Nat) : Nat :=
  p0 % 8 * 262144 + b1 % 64 * 4096 + b2 % 64 * 64 + b3 % 64

/-- The head of `q`, if any, is not a UTF-8 continuation byte (0x80-0xBF). -/
def noContinuationHead (q : List Nat) : Prop :=
  match q with
  | [] => True
  | y :: _ => y < 0x80 ∨ 0xBF < y

/-- The replacement of one ASCII byte: backslash, double quote, newline
and NUL are escaped, every other byte is copied. -/
def asciiRule (b : Nat) : List Nat :=
  if b = 92 then lit "\\\\"
  else if b = 34 then lit "\\\""
  else if b = 10 then lit "\\n"
  else if b = 0 then lit "\\x00"
  else [b]

instance (p0 b1 : Nat) : Decidable (Valid2 p0 b1) := by
  unfold Valid2; infer_instance

instance (p0 b1 b2 : Nat) : Decidable (Valid3 p0 b1 b2) := by
  unfold Valid3; infer_instance

instance (p0 b1 b2 b3 : Nat) : Decidable (Valid4 p0 b1 b2 b3) := by
  unfold Valid4; infer_instance

/-! ## UTF-8 as the standard defines it -/

/-- A Unicode scalar value: a code point that has a UTF-8 encoding (at most
U+10FFFF and not a surrogate). -/
def isScalar (c : Nat) : Prop := c < 0xD800 ∨ (0xDFFF < c ∧ c ≤ 0x10FFFF)

instance (c : Nat) : Decidable (isScalar c) := by
  unfold isScalar; infer_instance

/-- The UTF-8 encoding of a scalar value (RFC 3629, section 3). -/
def utf8Enc (c : Nat) : List Nat :=
  if c < 0x80 then [c]
  else if c < 0x800 then [0xC0 + c / 64, 0x80 + c % 64]
  else if c < 0x10000 then [0xE0 + c / 4096, 0x80 + c / 64 % 64, 0x80 + c % 64]
  else [0xF0 + c / 262144, 0x80 + c / 4096 % 64, 0x80 + c / 64 % 64, 0x80 + c % 64]

/-- The input starts with the UTF-8 encoding of some scalar value. -/
def startsValid (data : List Nat) : Prop :=
  ∃ c rest, isScalar c ∧ data = utf8Enc c ++ rest

/-! ## The shape of the output and the Go string literal that reads it back -/

/-- A lowercase hexadecimal digit character, `0`-`9` or `a`-`f`. -/
def isHexLower (h : Nat) : Prop := (48 ≤ h ∧ h ≤ 57) ∨ (97 ≤ h ∧ h ≤ 102)

/-- One of the four escapes: `\\`, `\"`, `\n`, or `\x` and two lowercase
hexadecimal digits. -/
def isEscapeToken (t : List Nat) : Prop :=
  t = lit "\\\\" ∨ t = lit "\\\"" ∨ t = lit "\\n" ∨
    ∃ h l, isHexLower h ∧ isHexLower l ∧ t = lit "\\x" ++ [h, l]

/-- The bytes of a passed-through code point that is none of backslash,
double quote and newline. -/
def isPassToken (t : List Nat) : Prop :=
  ∃ c, isScalar c ∧ c ≠ 92 ∧ c ≠ 34 ∧ c ≠ 10 ∧ t = utf8Enc c

/-- The value of a hexadecimal digit character. -/
def unhex (h : Nat) : Option Nat :=
  if 48 ≤ h ∧ h ≤ 57 then some (h - 48)
  else if 97 ≤ h ∧ h ≤ 102 then some (h - 87)
  else if 65 ≤ h ∧ h ≤ 70 then some (h - 55)
  else none

/-- The value of the body of a Go interpreted string literal, restricted to
the escapes `\\`, `\"`, `\n` and `\xHH`: these stand for a backslash, a
double quote, the byte 0x0A and the byte HH; any other code point stands for
its own UTF-8 bytes.  The body is rejected (`none`) where Go rejects it: a
bare double quote or newline, any other escape, a `\x` without two
hexadecimal digits, a byte sequence that is not valid UTF-8, a NUL or a
byte-order mark.  `fuel` bounds the number of characters read. -/
def unquoteFuel : Nat → List Nat → Option (List Nat)
  | _, [] => some []
  | 0, _ :: _ => none
  | fuel + 1, b :: rest =>
    if b = 92 then
      match rest with
      | [] => none
      | e :: rest1 =>
        if e = 92 then (unquoteFuel fuel rest1).map (92 :: ·)
        else if e = 34 then (unquoteFuel fuel rest1).map (34 :: ·)
        else if e = 110 then (unquoteFuel fuel rest1).map (10 :: ·)
        else if e = 120 then
          match rest1 with
          | h :: l :: rest2 =>
            match unhex h, unhex l with
            | some hi, some lo => (unquoteFuel fuel rest2).map ((16 * hi + lo) :: ·)
            | _, _ => none
          | _ => none
        else none
    else if b = 34 ∨ b = 10 then none
    else
      let d := DecodeRune (b :: rest)
      if d = (RuneError, 1) ∨ d.1 = 0 ∨ d.1 = byteOrderMark then none
      else (unquoteFuel fuel ((b :: rest).drop d.2)).map ((b :: rest).take d.2 ++ ·)

/-- The value of a literal body, read with as much fuel as it has bytes. -/
def unquote (body : List Nat) : Option (List Nat) := unquoteFuel body.length body

/-! ## The declaration emitters -/

/-- The struct `configuration`. -/
structure configuration where
  Label : GoString
  Package : GoString
  Var : GoString
  Multi : Bool
  Sources : List GoString
  out : GoString
  workspace : GoString
  flatten : Bool
  strData : Bool

/-- What reading an opened file through `io.Copy` yields: the byte slices
that `io.Copy` hands to `Write`, one per call and in order (their
concatenation is the content read), and the error of the read that ended
the copy (`none` at end of file).  Where the slices are cut is decided by
the buffers of `bufio` and `io`, not by `embed.go`. -/
structure FileRead where
  chunks : List (List Nat)
  readErr : Option Err

/-- The files: `os.Open` fails with an error or gives a file to read. -/
abbrev FileSystem := GoString → Except Err FileRead

/-- The call `io.Copy(&escapeWriter{w}, r)`: one `escapeWriter.Write` per
chunk; the first write error ends the copy and is returned, otherwise the
read error is.  (`io.Copy` also fails on a short write without error;
`escapeWriter.Write` returns `len(data)` whenever it returns no error.) -/
def ioCopy {σ : Type} (W : Writer σ) (s : σ) :
    List (List Nat) → Option Err → Option (σ × Option Err)
  | [], readErr => some (s, readErr)
  | c :: cs, readErr =>
    match escapeWriter.Write W s c with
    | none => none
    | some r => if r.2.2.isSome then some (r.1, r.2.2) else ioCopy W r.1 cs readErr

/-- The function `embedFileContents`. -/
def embedFileContents {σ : Type} (W : Writer σ) (fs : FileSystem) (s : σ)
    (filename : GoString) : Option (σ × Option Err) :=
  match fs filename with
  | .error e => some (s, some e)
  | .ok f => ioCopy W s f.chunks f.readErr

/-- The variable `dataBegin` of the emitters. -/
def dataBegin (c : configuration) : GoString :=
  if !c.strData then lit "[]byte(\"" else lit "\""

/-- The variable `dataEnd` of the emitters. -/
def dataEnd (c : configuration) : GoString :=
  if !c.strData then lit "\")\n" else lit "\"\n"

/-- The text of the verb `%d` for a non-negative integer. -/
def fmtInt (i : Nat) : GoString := lit (toString i)

/-- The function `embedSingleFile`: the sink afterwards and the error
returned; `none` when `c.Sources[0]` panics (no source). -/
def embedSingleFile {σ : Type} (W : Writer σ) (fs : FileSystem) (c : configuration) (s : σ) :
    Option (σ × Option Err) :=
  let r1 := W.write s (lit "var " ++ c.Var ++ lit " = " ++ dataBegin c)
  if r1.2.isSome then some r1 else
  match c.Sources with
  | [] => none
  | src :: _ =>
    match embedFileContents W fs r1.1 src with
    | none => none
    | some r2 =>
      if r2.2.isSome then some r2 else some (W.write r2.1 (dataEnd c))

/-- The loop `for i, filename := range c.Sources` of `embedMultipleFiles`,
from index `i` on. -/
def embedRange {σ : Type} (W : Writer σ) (fs : FileSystem) (c : configuration) :
    Nat → List GoString → σ → Option (σ × Option Err)
  | _, [], s => some (s, none)
  | i, filename :: rest, s =>
    let r1 := W.write s (lit "\t" ++ c.Var ++ lit "_" ++ fmtInt i ++ lit " = " ++ dataBegin c)
    if r1.2.isSome then some r1 else
    match embedFileContents W fs r1.1 filename with
    | none => none
    | some r2 =>
      if r2.2.isSome then some r2 else
      let r3 := W.write r2.1 (dataEnd c)
      if r3.2.isSome then some r3 else embedRange W fs c (i + 1) rest r3.1

/-- The function `embedMultipleFiles`. -/
def embedMultipleFiles {σ : Type} (W : Writer σ) (fs : FileSystem) (c : configuration)
    (s : σ) : Option (σ × Option Err) :=
  if c.Sources.length = 0 then some (s, none) else
  let r0 := W.write s (lit "var (\n")
  if r0.2.isSome then some r0 else
  match embedRange W fs c 0 c.Sources r0.1 with
  | none => none
  | some r =>
    if r.2.isSome then some r else some (W.write r.1 (lit ")\n"))

/-! ## Auxiliary definitions for the statements about chunks and files -/

/-- Every cut between consecutive chunks is a position that the loop of one
`Write` on the rest of the stream reaches: after some number of iterations
on `c ++ rest` exactly `rest` is left. -/
def chunksAligned : List (List Nat) → Prop
  | [] => True
  | c :: cs =>
    (∃ k, ((loopBody bufWriter)^[k] ⟨[], c ++ cs.flatten, none⟩).data = cs.flatten)
      ∧ chunksAligned cs

/-- What `embedFileContents` emits for a file into a sink that never fails:
the outputs of the `Write` calls, one per chunk. -/
def payload (fs : FileSystem) (filename : GoString) : List Nat :=
  match fs filename with
  | .error _ => []
  | .ok f => (f.chunks.map escape).flatten

/-- The file can be opened and read to its end without error. -/
def readable (fs : FileSystem) (filename : GoString) : Prop :=
  ∃ chunks, fs filename = .ok ⟨chunks, none⟩

/-- A file of 4097 bytes, 4095 times `A` and then U+00E9 (`C3 A9`), read
through a buffer of 4096 bytes: the cut falls inside the code point. -/
def splitFile : FileSystem :=
  fun _ => .ok ⟨[List.replicate 4095 65 ++ [0xC3], [0xA9]], none⟩

/-- A configuration with the given mode, value kind and sources. -/
def sampleConfig (multi strData : Bool) (srcs : List GoString) : configuration :=
  ⟨lit "//l", lit "p", lit "v", multi, srcs, lit "o", lit "w", false, strData⟩

/-! ## Library functions used by `configuration.Key` (Go standard library) -/

/-- What the standard library takes from the host: the path separator of
package filepath (`/` is 47) and, for runes above U+00FF, the printable
tables of package strconv (`isPrint16`, `isNotPrint16`, `isPrint32`,
`isNotPrint32`) as a predicate. -/
structure Host where
  separator : Nat
  printable : Nat → Bool

/-- The function `strings.HasPrefix`:
`len(s) >= len(prefix) && s[0:len(prefix)] == prefix`. -/
def HasPrefix (s pre : GoString) : Bool :=
  decide (pre.length ≤ s.length) && (s.take pre.length == pre)

/-- The function `strings.TrimPrefix`. -/
def TrimPrefix (s pre : GoString) : GoString :=
  if HasPrefix s pre then s.drop pre.length else s

/-- The function `filepath.FromSlash`: the path itself where the separator
is `/`, otherwise the path with every `/` replaced by the separator. -/
def FromSlash (h : Host) (path : GoString) : GoString :=
  if h.separator = 47 then path else path.map fun b => if b = 47 then h.separator else b

/-- The function `path.Base`: `.` for the empty path; otherwise the trailing
slashes are stripped (`rdropWhile`), the text after the last slash is taken
(`rtakeWhile`; the whole text when there is no slash), and `/` is returned
when nothing is left. -/
def Base (path : GoString) : GoString :=
  if path = [] then lit "."
  else
    let p := path.rdropWhile (· == 47)
    let q := p.rtakeWhile (· != 47)
    if q = [] then lit "/" else q

/-- The function `strconv.IsPrint`: decided by range up to U+00FF, by the
tables above that. -/
def IsPrint (h : Host) (r : Nat) : Bool :=
  if r ≤ 0xFF then
    if 0x20 ≤ r ∧ r ≤ 0x7E then true
    else if 0xA1 ≤ r then r != 0xAD
    else false
  else h.printable r

/-- The digit table `lowerhex` of package strconv. -/
def lowerhex : GoString := lit "0123456789abcdef"

/-- The function `utf8.AppendRune` on an empty buffer: the encoding of a
valid rune, and that of U+FFFD for any other value. -/
def AppendRune (r : Nat) : GoString :=
  if isScalar r then utf8Enc r else utf8Enc RuneError

/-- The function `appendEscapedRune` of package strconv with `quote` the
double quote, `ASCIIonly` and `graphicOnly` false. -/
def appendEscapedRune (h : Host) (r : Nat) : GoString :=
  if r = 34 ∨ r = 92 then [92, r]
  else if IsPrint h r then AppendRune r
  else if r = 7 then lit "\\a"
  else if r = 8 then lit "\\b"
  else if r = 12 then lit "\\f"
  else if r = 10 then lit "\\n"
  else if r = 13 then lit "\\r"
  else if r = 9 then lit "\\t"
  else if r = 11 then lit "\\v"
  else if r < 32 ∨ r = 0x7F then
    lit "\\x" ++ [lowerhex.getD (r / 16) 0, lowerhex.getD (r % 16) 0]
  else
    let r := if isScalar r then r else 0xFFFD
    if r < 0x10000 then
      lit "\\u" ++ [lowerhex.getD (r / 4096 % 16) 0, lowerhex.getD (r / 256 % 16) 0,
        lowerhex.getD (r / 16 % 16) 0, lowerhex.getD (r % 16) 0]
    else
      lit "\\U" ++ [lowerhex.getD (r / 268435456 % 16) 0, lowerhex.getD (r / 16777216 % 16) 0,
        lowerhex.getD (r / 1048576 % 16) 0, lowerhex.getD (r / 65536 % 16) 0,
        lowerhex.getD (r / 4096 % 16) 0, lowerhex.getD (r / 256 % 16) 0,
        lowerhex.getD (r / 16 % 16) 0, lowerhex.getD (r % 16) 0]

/-- The loop of `appendQuotedWith` of package strconv, one rune per
iteration; every iteration consumes at least one byte, so `len(s)` units of
fuel are enough. -/
def quoteLoop (h : Host) : Nat → GoString → GoString
  | _, [] => []
  | 0, _ :: _ => []
  | fuel + 1, b :: rest =>
    let d := if b ≥ 0x80 then DecodeRune (b :: rest) else (b, 1)
    if d.2 = 1 ∧ d.1 = RuneError then
      lit "\\x" ++ [lowerhex.getD (b / 16) 0, lowerhex.getD (b % 16) 0]
        ++ quoteLoop h fuel rest
    else
      appendEscapedRune h d.1 ++ quoteLoop h fuel ((b :: rest).drop d.2)

/-- The function `strconv.Quote`: a double-quoted Go string literal. -/
def Quote (h : Host) (s : GoString) : GoString :=
  [34] ++ quoteLoop h s.length s ++ [34]

/-! ## configuration, header and driver -/

/-- The method `configuration.Type`. -/
def configuration.TypeName (c : configuration) : GoString :=
  if c.strData then lit "string" else lit "[]byte"

/-- The method `configuration.Key`. -/
def configuration.Key (h : Host) (c : configuration) (filename : GoString) : GoString :=
  let workspacePrefix := lit "external/" ++ c.workspace ++ lit "/"
  let key := FromSlash h (TrimPrefix filename workspacePrefix)
  let key := if c.flatten then Base filename else key
  Quote h key

/-- The call `flags.Parse(args[1:])` of `newConfiguration`, taken from
package flag: the configuration with the eight options filled in (and no
sources) together with `flags.Args()`; `none` when parsing fails, where the
flag set (`flag.ExitOnError`) ends the process. -/
abbrev FlagParser := List GoString → Option (configuration × List GoString)

/-- The function `newConfiguration`; `none` when flag parsing ends the
process. -/
def newConfiguration (parse : FlagParser) (args : List GoString) :
    Option (Except Err configuration) :=
  match parse (args.drop 1) with
  | none => none
  | some (c, rest) =>
    if c.Label = [] then some (.error "error: -label option not provided")
    else if c.Package = [] then some (.error "error: -package option not provided")
    else if c.Var = [] then some (.error "error: -var option not provided")
    else if c.out = [] then some (.error "error: -out option not provided")
    else if c.workspace = [] then some (.error "error: -workspace option not provided")
    else
      let c := { c with Sources := rest }
      if !c.Multi && c.Sources.length != 1 then
        some (.error ("error: -multi flag not given, so want exactly one source; got "
          ++ toString c.Sources.length))
      else some (.ok c)

/-- Writes issued in order until one fails: the sink afterwards, the number
of writes issued, and the error of the last one. -/
def writeAll {σ : Type} (W : Writer σ) : σ → List (List Nat) → σ × Nat × Option Err
  | s, [] => (s, 0, none)
  | s, p :: ps =>
    let r := W.write s p
    if r.2.isSome then (r.1, 1, r.2)
    else
      let q := writeAll W r.1 ps
      (q.1, q.2.1 + 1, q.2.2)

/-- The template `headerTpl` applied to a configuration: the texts that
`Execute` writes, one per text node and per action, in order.  A `{{-`
removes the white space before it. -/
def headerTpl (h : Host) (c : configuration) : List GoString :=
  [lit "// Generated by go_embed_data for ", c.Label, lit ". DO NOT EDIT.\n\npackage ",
    c.Package, lit "\n\n"]
  ++ (if c.Multi then
        [lit "\nvar ", c.Var, lit " = map[string]", c.TypeName, lit "\x7b"]
        ++ (c.Sources.enum.flatMap fun p =>
              [lit "\n\t", c.Key h p.2, lit ": ", c.Var, lit "_", fmtInt p.1, lit ","])
        ++ [lit "\n\x7d\n"]
      else [])
  ++ [lit "\n\n"]

/-- What `run` leaves behind: the output file, if `os.Create` was reached
and succeeded, with the final state of the sink, and the error returned. -/
structure RunResult (σ : Type) where
  created : Option (GoString × σ)
  err : Option Err

/-- The function `run`.  `create` is `os.Create`: an error, or the initial
state of the sink `w` for the new file. -/
def run {σ : Type} (h : Host) (parse : FlagParser) (create : GoString → Except Err σ)
    (W : Writer σ) (fs : FileSystem) (args : List GoString) : Option (RunResult σ) :=
  match newConfiguration parse args with
  | none => none
  | some (.error e) => some ⟨none, some e⟩
  | some (.ok c) =>
    match create c.out with
    | .error e => some ⟨none, some e⟩
    | .ok s0 =>
      let r := writeAll W s0 (headerTpl h c)
      if r.2.2.isSome then some ⟨some (c.out, r.1), r.2.2⟩
      else
        (if c.Multi then embedMultipleFiles W fs c r.1 else embedSingleFile W fs c r.1).map
          fun q => ⟨some (c.out, q.1), q.2⟩

/-- A byte that `strconv.Quote` copies unchanged: printable ASCII other than
the double quote and the backslash. -/
def plainByte (b : Nat) : Prop := 0x20 ≤ b ∧ b ≤ 0x7E ∧ b ≠ 34 ∧ b ≠ 92

instance (b : Nat) : Decidable (plainByte b) := by
  unfold plainByte; infer_instance

/-- A host with `/` as the path separator. -/
def slashHost : Host := ⟨47, fun _ => false⟩

/-- A multi-mode configuration with workspace `ws` and the given flatten
option and sources. -/
def wsConfig (flatten : Bool) (srcs : List GoString) : configuration :=
  ⟨lit "//l", lit "p", lit "v", true, srcs, lit "o", lit "ws", flatten, true⟩

/-- The five required options are all given. -/
def requiredGiven (c : configuration) : Prop :=
  c.Label ≠ [] ∧ c.Package ≠ [] ∧ c.Var ≠ [] ∧ c.out ≠ [] ∧ c.workspace ≠ []

instance (c : configuration) : Decidable (requiredGiven c) := by
  unfold requiredGiven; infer_instance

/-- The error of the source-count check of `newConfiguration`. -/
def countError (n : Nat) : Err :=
  "error: -multi flag not given, so want exactly one source; got " ++ toString n

/-- A flag parser that yields the given options and positional arguments
whatever the command line. -/
def fixedParser (c : configuration) (rest : List GoString) : FlagParser :=
  fun _ => some (c, rest)

/-- A single-mode configuration without a label. -/
def noLabelConfig : configuration :=
  { sampleConfig false true [] with Label := [] }

/-- A single-mode configuration with a label and without a package. -/
def noPackageConfig : configuration :=
  { sampleConfig false true [] with Package := [] }

/-- The number that a run of decimal digit bytes stands for. -/
def decValue (bs : List Nat) : Nat := bs.foldl (fun acc b => 10 * acc + (b - 48)) 0

/-! ## Auxiliary definitions for the statements about failing sinks -/

/-- The steps of the loop of `escapeWriter.Write` on an input: for each
iteration what it writes and the number of bytes by which it advances. -/
def stepsOf : List Nat → List (List Nat × Nat)
  | [] => []
  | b :: rest => token (b :: rest) :: stepsOf (rest.drop ((token (b :: rest)).2 - 1))
termination_by data => data.length
decreasing_by simp [List.length_drop]; omega

/-- A sink that records every write it receives, the failed ones included,
and whose answer to a write is an arbitrary function `fail` of the record
(`none`: the write succeeds). -/
def logWriter (fail : List (List Nat) → Option Err) : Writer (List (List Nat)) where
  write log p := (log ++ [p], fail (log ++ [p]))

/-- Of the writes `ps`, issued in order to `logWriter fail` with record
`log`, exactly the first `j` are issued and the result is `e`: no write
before the `j`-th fails, and either the `j`-th is the first to fail, with
error `e`, or none fails, `j` is the number of writes and `e` is `nil`. -/
def stopsAt (fail : List (List Nat) → Option Err) (log ps : List (List Nat)) (j : Nat)
    (e : Option Err) : Prop :=
  j ≤ ps.length ∧
  (∀ i, 1 ≤ i → i < j → fail (log ++ ps.take i) = none) ∧
  ((e = none ∧ j = ps.length ∧ (1 ≤ j → fail (log ++ ps) = none)) ∨
    (∃ err, e = some err ∧ 1 ≤ j ∧ fail (log ++ ps.take j) = some err))

/-- The writes that `embedFileContents` issues for a file when none fails:
the steps of one `Write` per chunk. -/
def fileWrites (fs : FileSystem) (filename : GoString) : List (List Nat) :=
  match fs filename with
  | .error _ => []
  | .ok f => f.chunks.flatMap fun ch => (stepsOf ch).map Prod.fst

/-- The writes that `embedSingleFile` issues when none fails. -/
def singleWrites (fs : FileSystem) (c : configuration) (filename : GoString) :
    List (List Nat) :=
  [lit "var " ++ c.Var ++ lit " = " ++ dataBegin c] ++ fileWrites fs filename ++ [dataEnd c]

/-- The writes that `embedMultipleFiles` issues for at least one source
when none fails. -/
def multiWrites (fs : FileSystem) (c : configuration) : List (List Nat) :=
  [lit "var (\n"]
  ++ (c.Sources.enum.flatMap fun p =>
        [lit "\t" ++ c.Var ++ lit "_" ++ fmtInt p.1 ++ lit " = " ++ dataBegin c]
          ++ fileWrites fs p.2 ++ [dataEnd c])
  ++ [lit ")\n"]

/-- A sink record function that fails the write which makes the record
`n` entries long. -/
def failAt (n : Nat) : List (List Nat) → Option Err :=
  fun log => if log.length = n then some "disk full" else none

/-- The sink and the error of `writeAll`, without the count. -/
def writeSeq {σ : Type} (W : Writer σ) (s : σ) (ps : List (List Nat)) : σ × Option Err :=
  ((writeAll W s ps).1, (writeAll W s ps).2.2)

/-! ## Auxiliary definitions for the statements about the shape of the text -/

/-- The code points that `escapeWriter.Write` never copies: backslash,
double quote, newline, NUL, U+FEFF and U+FFFD. -/
def neverCopied : List Nat := [92, 34, 10, 0, 0xFEFF, 0xFFFD]

/-- Valid UTF-8 that holds none of the code points in `neverCopied`: the
concatenation of the encodings of scalar values outside that list. -/
def plainText (data : List Nat) : Prop :=
  ∃ cs : List Nat, (∀ c ∈ cs, isScalar c ∧ c ∉ neverCopied) ∧ data = cs.flatMap utf8Enc

/-- A token of the output as a piece of source text over the input `data`:
either ASCII bytes other than NUL, or the encoding of a scalar value from
U+0080 up, other than U+FEFF, that stands in `data` as it stands in the
token. -/
def sourceToken (data t : List Nat) : Prop :=
  (∀ x ∈ t, 0 < x ∧ x < 0x80) ∨
  (∃ c pre post, isScalar c ∧ 0x80 ≤ c ∧ c ≠ 0xFEFF ∧ t = utf8Enc c ∧ data = pre ++ t ++ post)

/-! ## Lemmas -/

theorem and31 (x : Nat) : x &&& 0x1F = x % 32 := Nat.and_pow_two_sub_one_eq_mod x 5

theorem and63 (x : Nat) : x &&& 0x3F = x % 64 := Nat.and_pow_two_sub_one_eq_mod x 6

theorem and15 (x : Nat) : x &&& 0x0F = x % 16 := Nat.and_pow_two_sub_one_eq_mod x 4

theorem and7 (x : Nat) : x &&& 0x07 = x % 8 := Nat.and_pow_two_sub_one_eq_mod x 3

theorem bits2 (a b : Nat) :
    ((a &&& 0x1F) <<< 6) ||| (b &&& 0x3F) = a % 32 * 64 + b % 64 := by
  rw [and31, and63, Nat.shiftLeft_eq]
  have h := @Nat.mul_add_lt_is_or 6 (b % 64) (by omega) (a % 32)
  rw [Nat.mul_comm (a % 32) (2 ^ 6), ← h]

theorem bits3 (a b c : Nat) :
    ((a &&& 0x0F) <<< 12) ||| ((b &&& 0x3F) <<< 6) ||| (c &&& 0x3F)
      = a % 16 * 4096 + b % 64 * 64 + c % 64 := by
  rw [and15, and63, and63, Nat.shiftLeft_eq, Nat.shiftLeft_eq]
  have h1 := @Nat.mul_add_lt_is_or 12 (b % 64 * 2 ^ 6) (by omega) (a % 16)
  rw [Nat.mul_comm (a % 16) (2 ^ 12), ← h1]
  have h2 := @Nat.mul_add_lt_is_or 6 (c % 64) (by omega) (a % 16 * 64 + b % 64)
  have e : 2 ^ 12 * (a % 16) + b % 64 * 2 ^ 6 = 2 ^ 6 * (a % 16 * 64 + b % 64) := by omega
  rw [e, ← h2]
  omega

theorem bits4 (a b c d : Nat) :
    ((a &&& 0x07) <<< 18) ||| ((b &&& 0x3F) <<< 12) ||| ((c &&& 0x3F) <<< 6) ||| (d &&& 0x3F)
      = a % 8 * 262144 + b % 64 * 4096 + c % 64 * 64 + d % 64 := by
  rw [and7, and63, and63, and63, Nat.shiftLeft_eq, Nat.shiftLeft_eq, Nat.shiftLeft_eq]
  have h1 := @Nat.mul_add_lt_is_or 18 (b % 64 * 2 ^ 12) (by omega) (a % 8)
  rw [Nat.mul_comm (a % 8) (2 ^ 18), ← h1]
  have h2 := @Nat.mul_add_lt_is_or 12 (c % 64 * 2 ^ 6) (by omega) (a % 8 * 64 + b % 64)
  have e : 2 ^ 18 * (a % 8) + b % 64 * 2 ^ 12 = 2 ^ 12 * (a % 8 * 64 + b % 64) := by omega
  rw [e, ← h2]
  have h3 := @Nat.mul_add_lt_is_or 6 (d % 64) (by omega)
    (a % 8 * 4096 + b % 64 * 64 + c % 64)
  have e2 : 2 ^ 12 * (a % 8 * 64 + b % 64) + c % 64 * 2 ^ 6
      = 2 ^ 6 * (a % 8 * 4096 + b % 64 * 64 + c % 64) := by omega
  rw [e2, ← h3]
  omega

theorem first_ascii {b : Nat} (h : b < 0x80) : first b = 0xF0 := by
  unfold first; rw [if_pos h]

theorem first_low {b : Nat} (h1 : ¬ b < 0x80) (h2 : b < 0xC2) : first b = 0xF1 := by
  unfold first; rw [if_neg h1, if_pos h2]

theorem first_high {b : Nat} (h : ¬ b < 0xF5) : first b = 0xF1 := by
  unfold first
  rw [if_neg (show ¬ b < 0x80 by omega), if_neg (show ¬ b < 0xC2 by omega),
    if_neg (show ¬ b < 0xE0 by omega), if_neg (show ¬ b = 0xE0 by omega),
    if_neg (show ¬ b < 0xED by omega), if_neg (show ¬ b = 0xED by omega),
    if_neg (show ¬ b < 0xF0 by omega), if_neg (show ¬ b = 0xF0 by omega),
    if_neg (show ¬ b < 0xF4 by omega), if_neg (show ¬ b = 0xF4 by omega)]

theorem first_two {b : Nat} (h1 : ¬ b < 0xC2) (h2 : b < 0xE0) : first b = 0x02 := by
  unfold first
  rw [if_neg (show ¬ b < 0x80 by omega), if_neg h1, if_pos h2]

theorem first_three {b : Nat} (h1 : ¬ b < 0xE0) (h2 : b < 0xF0) :
    first b % 8 = 3 ∧ first b < 0xF0 ∧ acceptRanges (first b / 16) = range3 b := by
  have h3 : 0xE0 ≤ b := by omega
  interval_cases b <;> decide

theorem first_four {b : Nat} (h1 : ¬ b < 0xF0) (h2 : b < 0xF5) :
    first b % 8 = 4 ∧ first b < 0xF0 ∧ acceptRanges (first b / 16) = range4 b := by
  have h3 : 0xF0 ≤ b := by omega
  interval_cases b <;> decide

theorem DecodeRune_eq_spec (p : List Nat) : DecodeRune p = decodeSpec p := by
  match p with
  | [] => rfl
  | p0 :: t =>
    unfold DecodeRune decodeSpec
    simp only [List.length_cons, List.getD_cons_zero]
    by_cases h1 : p0 < 0x80
    · simp [first_ascii h1, h1]
    by_cases h2 : p0 < 0xC2
    · simp [first_low h1 h2, h1, h2]
    by_cases h3 : p0 < 0xE0
    · simp only [first_two h2 h3, h1, h2, h3]
      match t with
      | [] => simp
      | b1 :: _ =>
        simp [acceptRanges, bits2]
        split_ifs <;> first | rfl | omega
    by_cases h4 : p0 < 0xF0
    · obtain ⟨e1, e2, e3⟩ := first_three h3 h4
      simp only [e1, e3, h1, h2, h3, h4, ge_iff_le, Nat.not_le.mpr e2]
      match t with
      | [] => simp
      | [b1] => simp
      | b1 :: b2 :: _ =>
        simp [bits3]
        split_ifs <;> first | rfl | omega
    by_cases h5 : p0 < 0xF5
    · obtain ⟨e1, e2, e3⟩ := first_four h4 h5
      simp only [e1, e3, h1, h2, h3, h4, h5, ge_iff_le, Nat.not_le.mpr e2]
      match t with
      | [] => simp
      | [b1] => simp
      | [b1, b2] => simp
      | b1 :: b2 :: b3 :: _ =>
        simp [bits4]
        split_ifs <;> first | rfl | omega
    · simp [first_high h5, h1, h2, h3, h4, h5]

theorem loopBody_eq {σ : Type} (W : Writer σ) (s : σ) (b : Nat) (t : List Nat)
    (e : Option Err) :
    loopBody W ⟨s, b :: t, e⟩ =
      ⟨(W.write s (token (b :: t)).1).1, (b :: t).drop (token (b :: t)).2,
        (W.write s (token (b :: t)).1).2⟩ := by
  simp only [loopBody, token]
  split_ifs <;> rfl

theorem DecodeRune_size (p0 : Nat) (t : List Nat) :
    1 ≤ (DecodeRune (p0 :: t)).2 ∧ (DecodeRune (p0 :: t)).2 ≤ t.length + 1 := by
  rw [DecodeRune_eq_spec]
  simp only [decodeSpec]
  split_ifs
  · simp
  · simp
  · split
    · split_ifs <;> simp
    · simp
  · split
    · split_ifs <;> simp
    · simp
  · split
    · split_ifs <;> simp
    · simp
  · simp

theorem token_adv (b : Nat) (t : List Nat) :
    1 ≤ (token (b :: t)).2 ∧ (token (b :: t)).2 ≤ t.length + 1 := by
  have h := DecodeRune_size b t
  simp only [token]
  split_ifs <;> first | exact h | simp

theorem drop_token (b : Nat) (t : List Nat) :
    (b :: t).drop (token (b :: t)).2 = t.drop ((token (b :: t)).2 - 1) := by
  have h := (token_adv b t).1
  obtain ⟨k, hk⟩ : ∃ k, (token (b :: t)).2 = k + 1 := ⟨(token (b :: t)).2 - 1, by omega⟩
  rw [hk]; simp

theorem bufWriter_write (s p : List Nat) : bufWriter.write s p = (s ++ p, none) := rfl

theorem loop_buf (fuel : Nat) : ∀ (data s : List Nat), data.length ≤ fuel →
    loop bufWriter fuel ⟨s, data, none⟩ = some ⟨s ++ escPure data, [], none⟩ := by
  induction fuel with
  | zero =>
    intro data s h
    have : data = [] := List.length_eq_zero.mp (by omega)
    subst this
    simp [loop, escPure]
  | succ f ih =>
    intro data s h
    match data with
    | [] => simp [loop, escPure]
    | b :: t =>
      rw [loop]
      simp only [Option.isSome_none, Bool.false_eq_true, false_or, reduceCtorEq, if_false]
      rw [loopBody_eq, drop_token]
      simp only [bufWriter_write]
      rw [ih, escPure, List.append_assoc]
      have := token_adv b t
      simp only [List.length_drop, List.length_cons] at h ⊢
      omega

theorem Write_buf (s data : List Nat) :
    escapeWriter.Write bufWriter s data = some (s ++ escPure data, data.length, none) := by
  simp [escapeWriter.Write, loop_buf data.length data s (Nat.le_refl _)]

theorem escape_eq (data : List Nat) : escape data = escPure data := by
  simp [escape, Write_buf]

theorem escape_nil : escape [] = [] := by
  rw [escape_eq, escPure]

theorem escape_cons (b : Nat) (t : List Nat) :
    escape (b :: t) = (token (b :: t)).1 ++ escape ((b :: t).drop (token (b :: t)).2) := by
  rw [escape_eq, escape_eq, escPure, drop_token]

theorem range3_sub (p0 : Nat) : 0x80 ≤ (range3 p0).1 ∧ (range3 p0).2 ≤ 0xBF := by
  unfold range3; split_ifs <;> simp

theorem range4_sub (p0 : Nat) : 0x80 ≤ (range4 p0).1 ∧ (range4 p0).2 ≤ 0xBF := by
  unfold range4; split_ifs <;> simp

theorem decode_one {p0 : Nat} (t : List Nat) (h : p0 < 0x80) :
    DecodeRune (p0 :: t) = (p0, 1) := by
  rw [DecodeRune_eq_spec]; simp only [decodeSpec]; rw [if_pos h]

theorem decode_two {p0 b1 : Nat} (t : List Nat) (h : Valid2 p0 b1) :
    DecodeRune (p0 :: b1 :: t) = (val2 p0 b1, 2) := by
  obtain ⟨h1, h2, h3, h4⟩ := h
  rw [DecodeRune_eq_spec]; simp only [decodeSpec]
  rw [if_neg (by omega), if_neg (by omega), if_pos h2, if_pos ⟨h3, h4⟩]; rfl

theorem decode_three {p0 b1 b2 : Nat} (t : List Nat) (h : Valid3 p0 b1 b2) :
    DecodeRune (p0 :: b1 :: b2 :: t) = (val3 p0 b1 b2, 3) := by
  obtain ⟨h1, h2, h3, h4, h5, h6⟩ := h
  rw [DecodeRune_eq_spec]; simp only [decodeSpec]
  rw [if_neg (by omega), if_neg (by omega), if_neg (by omega), if_pos h2,
    if_pos ⟨h3, h4, h5, h6⟩]; rfl

theorem decode_four {p0 b1 b2 b3 : Nat} (t : List Nat) (h : Valid4 p0 b1 b2 b3) :
    DecodeRune (p0 :: b1 :: b2 :: b3 :: t) = (val4 p0 b1 b2 b3, 4) := by
  obtain ⟨h1, h2, h3, h4, h5, h6, h7, h8⟩ := h
  rw [DecodeRune_eq_spec]; simp only [decodeSpec]
  rw [if_neg (by omega), if_neg (by omega), if_neg (by omega), if_neg (by omega),
    if_pos h2, if_pos ⟨h3, h4, h5, h6, h7, h8⟩]; rfl

/-- The five outcomes of `DecodeRune` on a non-empty input. -/
theorem decode_cases (p0 : Nat) (t : List Nat) :
    (p0 < 0x80 ∧ DecodeRune (p0 :: t) = (p0, 1)) ∨
    (∃ b1 t', t = b1 :: t' ∧ Valid2 p0 b1 ∧ DecodeRune (p0 :: t) = (val2 p0 b1, 2)) ∨
    (∃ b1 b2 t', t = b1 :: b2 :: t' ∧ Valid3 p0 b1 b2
      ∧ DecodeRune (p0 :: t) = (val3 p0 b1 b2, 3)) ∨
    (∃ b1 b2 b3 t', t = b1 :: b2 :: b3 :: t' ∧ Valid4 p0 b1 b2 b3
      ∧ DecodeRune (p0 :: t) = (val4 p0 b1 b2 b3, 4)) ∨
    (0x80 ≤ p0 ∧ DecodeRune (p0 :: t) = (RuneError, 1)) := by
  by_cases h1 : p0 < 0x80
  · exact Or.inl ⟨h1, decode_one t h1⟩
  have fail : ∀ {P Q R : Prop}, DecodeRune (p0 :: t) = (RuneError, 1) →
      P ∨ Q ∨ R ∨ (0x80 ≤ p0 ∧ DecodeRune (p0 :: t) = (RuneError, 1)) :=
    fun h => Or.inr (Or.inr (Or.inr ⟨by omega, h⟩))
  right
  by_cases h2 : p0 < 0xC2
  · apply fail; rw [DecodeRune_eq_spec]; simp only [decodeSpec]; rw [if_neg h1, if_pos h2]
  by_cases h3 : p0 < 0xE0
  · match t with
    | [] =>
      apply fail; rw [DecodeRune_eq_spec]; simp only [decodeSpec]
      rw [if_neg h1, if_neg h2, if_pos h3]
    | b1 :: t' =>
      by_cases hb : 0x80 ≤ b1 ∧ b1 ≤ 0xBF
      · have v : Valid2 p0 b1 := ⟨by omega, h3, hb.1, hb.2⟩
        exact Or.inl ⟨b1, t', rfl, v, decode_two t' v⟩
      · apply fail; rw [DecodeRune_eq_spec]; simp only [decodeSpec]
        rw [if_neg h1, if_neg h2, if_pos h3, if_neg hb]
  by_cases h4 : p0 < 0xF0
  · match t with
    | [] =>
      apply fail; rw [DecodeRune_eq_spec]; simp only [decodeSpec]
      rw [if_neg h1, if_neg h2, if_neg h3, if_pos h4]
    | [_] =>
      apply fail; rw [DecodeRune_eq_spec]; simp only [decodeSpec]
      rw [if_neg h1, if_neg h2, if_neg h3, if_pos h4]
    | b1 :: b2 :: t' =>
      by_cases hb : (range3 p0).1 ≤ b1 ∧ b1 ≤ (range3 p0).2 ∧ 0x80 ≤ b2 ∧ b2 ≤ 0xBF
      · have v : Valid3 p0 b1 b2 := ⟨by omega, h4, hb⟩
        exact Or.inr (Or.inl ⟨b1, b2, t', rfl, v, decode_three t' v⟩)
      · apply fail; rw [DecodeRune_eq_spec]; simp only [decodeSpec]
        rw [if_neg h1, if_neg h2, if_neg h3, if_pos h4, if_neg hb]
  by_cases h5 : p0 < 0xF5
  · match t with
    | [] =>
      apply fail; rw [DecodeRune_eq_spec]; simp only [decodeSpec]
      rw [if_neg h1, if_neg h2, if_neg h3, if_neg h4, if_pos h5]
    | [_] =>
      apply fail; rw [DecodeRune_eq_spec]; simp only [decodeSpec]
      rw [if_neg h1, if_neg h2, if_neg h3, if_neg h4, if_pos h5]
    | [_, _] =>
      apply fail; rw [DecodeRune_eq_spec]; simp only [decodeSpec]
      rw [if_neg h1, if_neg h2, if_neg h3, if_neg h4, if_pos h5]
    | b1 :: b2 :: b3 :: t' =>
      by_cases hb : (range4 p0).1 ≤ b1 ∧ b1 ≤ (range4 p0).2 ∧ 0x80 ≤ b2 ∧ b2 ≤ 0xBF
          ∧ 0x80 ≤ b3 ∧ b3 ≤ 0xBF
      · have v : Valid4 p0 b1 b2 b3 := ⟨by omega, h5, hb⟩
        exact Or.inr (Or.inr (Or.inl ⟨b1, b2, b3, t', rfl, v, decode_four t' v⟩))
      · apply fail; rw [DecodeRune_eq_spec]; simp only [decodeSpec]
        rw [if_neg h1, if_neg h2, if_neg h3, if_neg h4, if_pos h5, if_neg hb]
  · apply fail; rw [DecodeRune_eq_spec]; simp only [decodeSpec]
    rw [if_neg h1, if_neg h2, if_neg h3, if_neg h4, if_neg h5]

theorem DecodeRune_take (p q : List Nat) (h : (DecodeRune p).1 ≠ RuneError) :
    DecodeRune (p.take (DecodeRune p).2 ++ q) = DecodeRune p := by
  match p with
  | [] => exact absurd rfl h
  | p0 :: t =>
    rcases decode_cases p0 t with ⟨h1, e⟩ | ⟨b1, t', rfl, v, e⟩ | ⟨b1, b2, t', rfl, v, e⟩ |
      ⟨b1, b2, b3, t', rfl, v, e⟩ | ⟨_, e⟩
    · rw [e]; exact decode_one _ h1
    · rw [e]; exact decode_two _ v
    · rw [e]; exact decode_three _ v
    · rw [e]; exact decode_four _ v
    · rw [e] at h; exact absurd rfl h

theorem DecodeRune_append (p0 : Nat) (t q : List Nat) (hq : noContinuationHead q) :
    DecodeRune (p0 :: (t ++ q)) = DecodeRune (p0 :: t) := by
  rcases decode_cases p0 t with ⟨h1, e⟩ | ⟨b1, t', rfl, v, e⟩ | ⟨b1, b2, t', rfl, v, e⟩ |
    ⟨b1, b2, b3, t', rfl, v, e⟩ | ⟨h0, e⟩
  · rw [e]; exact decode_one _ h1
  · rw [e]; exact decode_two _ v
  · rw [e]; exact decode_three _ v
  · rw [e]; exact decode_four _ v
  · rw [e]
    rcases decode_cases p0 (t ++ q) with ⟨h1, _⟩ | ⟨b1, t', s, v, _⟩ |
      ⟨b1, b2, t', s, v, _⟩ | ⟨b1, b2, b3, t', s, v, _⟩ | ⟨_, e'⟩
    · omega
    · exfalso
      match t, s, e with
      | [], s, _ =>
        simp only [List.nil_append] at s; subst s
        have := v.2.2; simp only [noContinuationHead] at hq; omega
      | c :: t1, s, e =>
        simp only [List.cons_append, List.cons.injEq] at s
        obtain ⟨rfl, _⟩ := s
        rw [decode_two t1 v] at e; simp at e
    · exfalso
      have r3 := range3_sub p0
      match t, s, e with
      | [], s, _ =>
        simp only [List.nil_append] at s; subst s
        have := v.2.2; simp only [noContinuationHead] at hq; omega
      | [c], s, _ =>
        simp only [List.cons_append, List.nil_append, List.cons.injEq] at s
        obtain ⟨rfl, rfl⟩ := s
        have := v.2.2; simp only [noContinuationHead] at hq; omega
      | c :: d :: t1, s, e =>
        simp only [List.cons_append, List.cons.injEq] at s
        obtain ⟨rfl, rfl, _⟩ := s
        rw [decode_three t1 v] at e; simp at e
    · exfalso
      have r4 := range4_sub p0
      match t, s, e with
      | [], s, _ =>
        simp only [List.nil_append] at s; subst s
        have := v.2.2; simp only [noContinuationHead] at hq; omega
      | [c], s, _ =>
        simp only [List.cons_append, List.nil_append, List.cons.injEq] at s
        obtain ⟨rfl, rfl⟩ := s
        have := v.2.2; simp only [noContinuationHead] at hq; omega
      | [c, d], s, _ =>
        simp only [List.cons_append, List.nil_append, List.cons.injEq] at s
        obtain ⟨rfl, rfl, rfl⟩ := s
        have := v.2.2; simp only [noContinuationHead] at hq; omega
      | c :: d :: f :: t1, s, e =>
        simp only [List.cons_append, List.cons.injEq] at s
        obtain ⟨rfl, rfl, rfl, _⟩ := s
        rw [decode_four t1 v] at e; simp at e
    · exact e'

theorem token_append (b : Nat) (t q : List Nat) (hq : noContinuationHead q) :
    (token (b :: (t ++ q))).2 = (token (b :: t)).2 ∧
    (token (b :: (t ++ q))).1 = (token (b :: t)).1 := by
  have hd := DecodeRune_append b t q hq
  have hs := (DecodeRune_size b t).2
  simp only [token, hd]
  split_ifs
  all_goals first
    | exact ⟨rfl, rfl⟩
    | (refine ⟨rfl, ?_⟩
       show List.take _ ((b :: t) ++ q) = _
       rw [List.take_append_of_le_length (by simpa using hs)])

theorem escape_append_aux (q : List Nat) (hq : noContinuationHead q) (n : Nat) :
    ∀ a : List Nat, a.length ≤ n → escape (a ++ q) = escape a ++ escape q := by
  induction n with
  | zero =>
    intro a h
    have : a = [] := List.length_eq_zero.mp (by omega)
    subst this; simp [escape_nil]
  | succ n ih =>
    intro a h
    match a with
    | [] => simp [escape_nil]
    | b :: t =>
      have ha := token_adv b t
      obtain ⟨e2, e1⟩ := token_append b t q hq
      rw [List.cons_append, escape_cons, escape_cons b t, e1, e2, List.append_assoc]
      congr 1
      have : (b :: (t ++ q)).drop (token (b :: t)).2
          = (b :: t).drop (token (b :: t)).2 ++ q := by
        show ((b :: t) ++ q).drop _ = _
        rw [List.drop_append_of_le_length (by simpa using ha.2)]
      rw [this]
      apply ih
      simp only [List.length_drop, List.length_cons] at h ⊢
      omega

theorem escape_append_of_noContinuation (a q : List Nat) (hq : noContinuationHead q) :
    escape (a ++ q) = escape a ++ escape q :=
  escape_append_aux q hq a.length a (Nat.le_refl _)

theorem token_pass {b : Nat} {t : List Nat} (h1 : b ≠ 92) (h2 : b ≠ 34) (h3 : b ≠ 10)
    (h4 : b ≠ 0) (hr : (DecodeRune (b :: t)).1 ≠ RuneError)
    (hb : (DecodeRune (b :: t)).1 ≠ byteOrderMark) :
    token (b :: t) = ((b :: t).take (DecodeRune (b :: t)).2, (DecodeRune (b :: t)).2) := by
  simp only [token]
  rw [if_neg h1, if_neg h2, if_neg h3, if_neg h4, if_pos ⟨hr, hb⟩]

theorem token_hex {b : Nat} {t : List Nat} (h1 : b ≠ 92) (h2 : b ≠ 34) (h3 : b ≠ 10)
    (h4 : b ≠ 0)
    (hr : (DecodeRune (b :: t)).1 = RuneError ∨ (DecodeRune (b :: t)).1 = byteOrderMark) :
    token (b :: t) = (fmtHex b, 1) := by
  simp only [token]
  rw [if_neg h1, if_neg h2, if_neg h3, if_neg h4, if_neg (by tauto)]

theorem token_ascii {b : Nat} (t : List Nat) (h : b < 0x80) :
    token (b :: t) = (asciiRule b, 1) := by
  by_cases h1 : b = 92
  · subst h1; rfl
  by_cases h2 : b = 34
  · subst h2; rfl
  by_cases h3 : b = 10
  · subst h3; rfl
  by_cases h4 : b = 0
  · subst h4; rfl
  have e := decode_one t h
  rw [token_pass h1 h2 h3 h4 (by rw [e]; simp only [RuneError]; omega)
    (by rw [e]; simp only [byteOrderMark]; omega), e]
  simp only [asciiRule]
  rw [if_neg h1, if_neg h2, if_neg h3, if_neg h4]
  rfl

theorem escape_ascii_cons {b : Nat} (t : List Nat) (h : b < 0x80) :
    escape (b :: t) = asciiRule b ++ escape t := by
  rw [escape_cons, token_ascii t h]; rfl

theorem loop_total {σ : Type} (W : Writer σ) (hW : ∀ s p, (W.write s p).2 = none)
    (fuel : Nat) : ∀ (data : List Nat) (s : σ), data.length ≤ fuel →
    (∃ s', loop W fuel ⟨s, data, none⟩ = some ⟨s', [], none⟩) ∧
    (∀ k ∈ advances W fuel ⟨s, data, none⟩, 1 ≤ k) ∧
    (advances W fuel ⟨s, data, none⟩).sum = data.length := by
  induction fuel with
  | zero =>
    intro data s h
    have : data = [] := List.length_eq_zero.mp (by omega)
    subst this
    simp [loop, advances]
  | succ f ih =>
    intro data s h
    match data with
    | [] => simp [loop, advances]
    | b :: t =>
      have ha := token_adv b t
      have hl : ((b :: t).drop (token (b :: t)).2).length ≤ f := by
        simp only [List.length_drop, List.length_cons] at h ⊢; omega
      obtain ⟨⟨s', e⟩, h1, h2⟩ := ih _ (W.write s (token (b :: t)).1).1 hl
      rw [loop, advances]
      simp only [Option.isSome_none, Bool.false_eq_true, false_or, reduceCtorEq, if_false]
      rw [loopBody_eq, hW]
      refine ⟨⟨s', e⟩, ?_, ?_⟩
      · intro k hk
        rcases List.mem_cons.mp hk with rfl | hk
        · simp only [List.length_drop, List.length_cons]; omega
        · exact h1 k hk
      · rw [List.sum_cons, h2]
        simp only [List.length_drop, List.length_cons]; omega

theorem decode_invalid_lead {p0 : Nat} (t : List Nat)
    (h : (0x80 ≤ p0 ∧ p0 < 0xC2) ∨ 0xF5 ≤ p0) : DecodeRune (p0 :: t) = (RuneError, 1) := by
  rcases decode_cases p0 t with ⟨h1, _⟩ | ⟨_, _, _, v, _⟩ | ⟨_, _, _, _, v, _⟩ |
    ⟨_, _, _, _, _, v, _⟩ | ⟨_, e⟩
  · omega
  · have := v.1; have := v.2.1; omega
  · have := v.1; have := v.2.1; omega
  · have := v.1; have := v.2.1; omega
  · exact e

theorem escape_invalid_lead {p0 : Nat} (t : List Nat)
    (h : (0x80 ≤ p0 ∧ p0 < 0xC2) ∨ 0xF5 ≤ p0) : escape (p0 :: t) = fmtHex p0 ++ escape t := by
  rw [escape_cons, token_hex (by omega) (by omega) (by omega) (by omega)
    (Or.inl (by rw [decode_invalid_lead t h]))]
  rfl

theorem token_bom (b : List Nat) : token (0xEF :: 0xBB :: 0xBF :: b) = (fmtHex 0xEF, 1) :=
  token_hex (by decide) (by decide) (by decide) (by decide)
    (Or.inr (by rw [decode_three b (by decide)]; rfl))

theorem enc_decode (c : Nat) (rest : List Nat) (h : isScalar c) :
    DecodeRune (utf8Enc c ++ rest) = (c, (utf8Enc c).length) := by
  unfold isScalar at h
  unfold utf8Enc
  by_cases h1 : c < 0x80
  · rw [if_pos h1]; exact decode_one rest h1
  rw [if_neg h1]
  by_cases h2 : c < 0x800
  · rw [if_pos h2]
    have v : Valid2 (0xC0 + c / 64) (0x80 + c % 64) := by
      unfold Valid2; omega
    have e : val2 (0xC0 + c / 64) (0x80 + c % 64) = c := by unfold val2; omega
    show DecodeRune (_ :: _ :: rest) = _
    rw [decode_two rest v, e]; rfl
  rw [if_neg h2]
  by_cases h3 : c < 0x10000
  · rw [if_pos h3]
    have v : Valid3 (0xE0 + c / 4096) (0x80 + c / 64 % 64) (0x80 + c % 64) := by
      unfold Valid3 range3
      split_ifs <;> simp only [] <;> omega
    have e : val3 (0xE0 + c / 4096) (0x80 + c / 64 % 64) (0x80 + c % 64) = c := by
      unfold val3; omega
    show DecodeRune (_ :: _ :: _ :: rest) = _
    rw [decode_three rest v, e]; rfl
  · rw [if_neg h3]
    have v : Valid4 (0xF0 + c / 262144) (0x80 + c / 4096 % 64) (0x80 + c / 64 % 64)
        (0x80 + c % 64) := by
      unfold Valid4 range4
      split_ifs <;> simp only [] <;> omega
    have e : val4 (0xF0 + c / 262144) (0x80 + c / 4096 % 64) (0x80 + c / 64 % 64)
        (0x80 + c % 64) = c := by
      unfold val4; omega
    show DecodeRune (_ :: _ :: _ :: _ :: rest) = _
    rw [decode_four rest v, e]; rfl

theorem decode_enc (p0 : Nat) (t : List Nat) (h : DecodeRune (p0 :: t) ≠ (RuneError, 1)) :
    isScalar (DecodeRune (p0 :: t)).1 ∧
    ∃ rest, p0 :: t = utf8Enc (DecodeRune (p0 :: t)).1 ++ rest := by
  rcases decode_cases p0 t with ⟨h1, e⟩ | ⟨b1, t', rfl, v, e⟩ | ⟨b1, b2, t', rfl, v, e⟩ |
    ⟨b1, b2, b3, t', rfl, v, e⟩ | ⟨_, e⟩
  · rw [e]
    refine ⟨Or.inl (by show p0 < 0xD800; omega), t, ?_⟩
    show _ = utf8Enc p0 ++ t
    unfold utf8Enc; rw [if_pos h1]; rfl
  · rw [e]
    unfold Valid2 at v
    have hr : 0x80 ≤ val2 p0 b1 ∧ val2 p0 b1 < 0x800 := by unfold val2; omega
    refine ⟨Or.inl (by omega), t', ?_⟩
    show _ = utf8Enc (val2 p0 b1) ++ t'
    unfold utf8Enc; rw [if_neg (by omega), if_pos hr.2]
    have e1 : 0xC0 + val2 p0 b1 / 64 = p0 := by unfold val2; omega
    have e2 : 0x80 + val2 p0 b1 % 64 = b1 := by unfold val2; omega
    rw [e1, e2]; rfl
  · rw [e]
    unfold Valid3 at v
    have hv : (p0 = 0xE0 → 0xA0 ≤ b1) ∧ (p0 = 0xED → b1 ≤ 0x9F) ∧ 0x80 ≤ b1 ∧ b1 ≤ 0xBF := by
      obtain ⟨_, _, v3, v4, _⟩ := v
      unfold range3 at v3 v4
      split_ifs at v3 v4 <;> simp only [] at v3 v4 <;> omega
    have hr : 0x800 ≤ val3 p0 b1 b2 ∧ val3 p0 b1 b2 < 0x10000 ∧ isScalar (val3 p0 b1 b2) := by
      unfold val3 isScalar; omega
    refine ⟨hr.2.2, t', ?_⟩
    show _ = utf8Enc (val3 p0 b1 b2) ++ t'
    unfold utf8Enc; rw [if_neg (by omega), if_neg (by omega), if_pos hr.2.1]
    have e1 : 0xE0 + val3 p0 b1 b2 / 4096 = p0 := by unfold val3; omega
    have e2 : 0x80 + val3 p0 b1 b2 / 64 % 64 = b1 := by unfold val3; omega
    have e3 : 0x80 + val3 p0 b1 b2 % 64 = b2 := by unfold val3; omega
    rw [e1, e2, e3]; rfl
  · rw [e]
    unfold Valid4 at v
    have hv : (p0 = 0xF0 → 0x90 ≤ b1) ∧ (p0 = 0xF4 → b1 ≤ 0x8F) ∧ 0x80 ≤ b1 ∧ b1 ≤ 0xBF := by
      obtain ⟨_, _, v3, v4, _⟩ := v
      unfold range4 at v3 v4
      split_ifs at v3 v4 <;> simp only [] at v3 v4 <;> omega
    have hr : 0x10000 ≤ val4 p0 b1 b2 b3 ∧ val4 p0 b1 b2 b3 ≤ 0x10FFFF := by
      unfold val4; omega
    refine ⟨Or.inr (by omega), t', ?_⟩
    show _ = utf8Enc (val4 p0 b1 b2 b3) ++ t'
    unfold utf8Enc; rw [if_neg (by omega), if_neg (by omega), if_neg (by omega)]
    have e1 : 0xF0 + val4 p0 b1 b2 b3 / 262144 = p0 := by unfold val4; omega
    have e2 : 0x80 + val4 p0 b1 b2 b3 / 4096 % 64 = b1 := by unfold val4; omega
    have e3 : 0x80 + val4 p0 b1 b2 b3 / 64 % 64 = b2 := by unfold val4; omega
    have e4 : 0x80 + val4 p0 b1 b2 b3 % 64 = b3 := by unfold val4; omega
    rw [e1, e2, e3, e4]; rfl
  · exact absurd e h

theorem startsValid_ascii {b : Nat} (t : List Nat) (h : b < 0x80) : startsValid (b :: t) :=
  ⟨b, t, Or.inl (by omega), by unfold utf8Enc; rw [if_pos h]; rfl⟩

theorem utf8Enc_head (c : Nat) :
    ∃ p0 t, utf8Enc c = p0 :: t ∧ (c < 0x80 → p0 = c) ∧ (0x80 ≤ c → 0x80 ≤ p0) := by
  unfold utf8Enc
  split_ifs
  · exact ⟨_, _, rfl, fun _ => rfl, fun _ => by omega⟩
  · exact ⟨_, _, rfl, fun _ => by omega, fun _ => by omega⟩
  · exact ⟨_, _, rfl, fun _ => by omega, fun _ => by omega⟩
  · exact ⟨_, _, rfl, fun _ => by omega, fun _ => by omega⟩

theorem not_startsValid_of_decode {b : Nat} {t : List Nat}
    (h : DecodeRune (b :: t) = (RuneError, 1)) : ¬ startsValid (b :: t) := by
  rintro ⟨c, rest, hs, e⟩
  have hd := enc_decode c rest hs
  rw [← e, h] at hd
  have hc : c = RuneError := (Prod.mk.inj hd).1.symm
  have hl : 1 = (utf8Enc c).length := (Prod.mk.inj hd).2
  subst hc
  exact absurd hl (by decide)

theorem utf8Enc_mem {c x : Nat} (h : x ∈ utf8Enc c) : x = c ∨ 0x80 ≤ x := by
  unfold utf8Enc at h
  split_ifs at h <;> simp only [List.mem_cons, List.mem_singleton, List.not_mem_nil,
    or_false] at h <;> omega

theorem hexDigit_lower {d : Nat} (h : d < 16) : isHexLower (hexDigit d) := by
  unfold isHexLower; interval_cases d <;> decide

theorem unhex_hexDigit {d : Nat} (h : d < 16) : unhex (hexDigit d) = some d := by
  interval_cases d <;> decide

/-- The bytes consumed by a successful decoding are the encoding of the
decoded rune. -/
theorem pass_token_enc {b : Nat} {t : List Nat} {r sz : Nat}
    (hD : DecodeRune (b :: t) = (r, sz)) (hr : r ≠ RuneError) :
    isScalar r ∧ (b :: t).take sz = utf8Enc r ∧ (r < 0x80 → r = b) := by
  have hne : DecodeRune (b :: t) ≠ (RuneError, 1) := by
    rw [hD]; intro e; exact hr (Prod.mk.inj e).1
  have h := decode_enc b t hne
  rw [hD] at h
  obtain ⟨hs, rest, e⟩ := h
  simp only [] at hs e
  have hd := enc_decode r rest hs
  rw [← e, hD] at hd
  have h2 : sz = (utf8Enc r).length := (Prod.mk.inj hd).2
  refine ⟨hs, ?_, ?_⟩
  · rw [e, h2, List.take_left']
    rfl
  · intro hlt
    obtain ⟨p0, t', e1, f1, _⟩ := utf8Enc_head r
    rw [e1] at e
    have : b = p0 := (List.cons.inj e).1
    rw [this, f1 hlt]

theorem pass_token_proj {b : Nat} {t : List Nat} (hr : (DecodeRune (b :: t)).1 ≠ RuneError) :
    isScalar (DecodeRune (b :: t)).1 ∧
    (b :: t).take (DecodeRune (b :: t)).2 = utf8Enc (DecodeRune (b :: t)).1 ∧
    ((DecodeRune (b :: t)).1 < 0x80 → (DecodeRune (b :: t)).1 = b) :=
  pass_token_enc
    (show DecodeRune (b :: t) = ((DecodeRune (b :: t)).1, (DecodeRune (b :: t)).2) from rfl) hr

theorem token_shape (b : Nat) (t : List Nat) (hb : b < 256) :
    isEscapeToken (token (b :: t)).1 ∨ isPassToken (token (b :: t)).1 := by
  by_cases h1 : b = 92
  · subst h1; exact Or.inl (Or.inl rfl)
  by_cases h2 : b = 34
  · subst h2; exact Or.inl (Or.inr (Or.inl rfl))
  by_cases h3 : b = 10
  · subst h3; exact Or.inl (Or.inr (Or.inr (Or.inl rfl)))
  by_cases h4 : b = 0
  · subst h4; exact Or.inl (Or.inr (Or.inr (Or.inr ⟨48, 48, by unfold isHexLower; omega,
      by unfold isHexLower; omega, rfl⟩)))
  by_cases hp : (DecodeRune (b :: t)).1 ≠ RuneError ∧ (DecodeRune (b :: t)).1 ≠ byteOrderMark
  · right
    rw [token_pass h1 h2 h3 h4 hp.1 hp.2]
    obtain ⟨hs, e, f⟩ := pass_token_proj hp.1
    refine ⟨_, hs, ?_, ?_, ?_, e⟩
    · intro hc; exact h1 (by rw [← f (by omega), hc])
    · intro hc; exact h2 (by rw [← f (by omega), hc])
    · intro hc; exact h3 (by rw [← f (by omega), hc])
  · left
    rw [token_hex h1 h2 h3 h4 (by tauto)]
    exact Or.inr (Or.inr (Or.inr ⟨_, _, hexDigit_lower (by omega), hexDigit_lower (by omega),
      rfl⟩))

theorem isBytes_drop {data : List Nat} (h : isBytes data) (k : Nat) : isBytes (data.drop k) :=
  fun b hb => h b (List.mem_of_mem_drop hb)

theorem escape_tokens (n : Nat) : ∀ data : List Nat, data.length ≤ n → isBytes data →
    ∃ toks : List (List Nat), escape data = toks.flatten ∧
      ∀ t ∈ toks, isEscapeToken t ∨ isPassToken t := by
  induction n with
  | zero =>
    intro data h _
    have : data = [] := List.length_eq_zero.mp (by omega)
    subst this
    exact ⟨[], by rw [escape_nil]; rfl, by simp⟩
  | succ n ih =>
    intro data h hb
    match data with
    | [] => exact ⟨[], by rw [escape_nil]; rfl, by simp⟩
    | b :: t =>
      have ha := token_adv b t
      obtain ⟨toks, e, ht⟩ := ih ((b :: t).drop (token (b :: t)).2)
        (by simp only [List.length_drop, List.length_cons] at h ⊢; omega) (isBytes_drop hb _)
      refine ⟨(token (b :: t)).1 :: toks, by rw [escape_cons, e]; rfl, ?_⟩
      intro x hx
      rcases List.mem_cons.mp hx with rfl | hx
      · exact token_shape b t (hb b (List.mem_cons_self _ _))
      · exact ht x hx

theorem isHexLower_ne {h : Nat} (hh : isHexLower h) : h ≠ 10 ∧ h ≠ 34 ∧ h ≠ 92 := by
  unfold isHexLower at hh; omega

theorem escapeToken_bytes {t : List Nat} (h : isEscapeToken t) :
    10 ∉ t ∧ (34 ∈ t → t = lit "\\\"") := by
  rcases h with rfl | rfl | rfl | ⟨h, l, hh, hl, rfl⟩
  · decide
  · decide
  · decide
  · have := isHexLower_ne hh; have := isHexLower_ne hl
    have e : lit "\\x" ++ [h, l] = [92, 120, h, l] := rfl
    rw [e]
    simp only [List.mem_cons, List.mem_singleton, List.not_mem_nil, or_false]
    constructor
    · omega
    · intro h'; omega

theorem passToken_bytes {t : List Nat} (h : isPassToken t) : 10 ∉ t ∧ 34 ∉ t ∧ 92 ∉ t := by
  obtain ⟨c, _, c1, c2, c3, rfl⟩ := h
  refine ⟨fun hm => ?_, fun hm => ?_, fun hm => ?_⟩ <;>
    · have := utf8Enc_mem hm; omega

theorem unquote_backslash (fuel : Nat) (r : List Nat) :
    unquoteFuel (fuel + 1) (92 :: 92 :: r) = (unquoteFuel fuel r).map (92 :: ·) := by
  simp [unquoteFuel]

theorem unquote_quote (fuel : Nat) (r : List Nat) :
    unquoteFuel (fuel + 1) (92 :: 34 :: r) = (unquoteFuel fuel r).map (34 :: ·) := by
  simp [unquoteFuel]

theorem unquote_newline (fuel : Nat) (r : List Nat) :
    unquoteFuel (fuel + 1) (92 :: 110 :: r) = (unquoteFuel fuel r).map (10 :: ·) := by
  simp [unquoteFuel]

theorem unquote_hex (fuel b : Nat) (r : List Nat) (hb : b < 256) :
    unquoteFuel (fuel + 1) (fmtHex b ++ r) = (unquoteFuel fuel r).map (b :: ·) := by
  have e : fmtHex b ++ r = 92 :: 120 :: hexDigit (b / 16) :: hexDigit (b % 16) :: r := rfl
  rw [e]
  have : 16 * (b / 16) + b % 16 = b := by omega
  simp [unquoteFuel, unhex_hexDigit (show b / 16 < 16 by omega),
    unhex_hexDigit (show b % 16 < 16 by omega), this]

theorem unquote_pass (fuel b : Nat) (r : List Nat) (h1 : b ≠ 92) (h2 : b ≠ 34) (h3 : b ≠ 10)
    (hd : DecodeRune (b :: r) ≠ (RuneError, 1)) (h0 : (DecodeRune (b :: r)).1 ≠ 0)
    (hm : (DecodeRune (b :: r)).1 ≠ byteOrderMark) :
    unquoteFuel (fuel + 1) (b :: r) =
      (unquoteFuel fuel ((b :: r).drop (DecodeRune (b :: r)).2)).map
        ((b :: r).take (DecodeRune (b :: r)).2 ++ ·) := by
  simp only [unquoteFuel]
  rw [if_neg h1, if_neg (by omega), if_neg (by tauto)]

theorem unquote_escape_aux (n : Nat) : ∀ data : List Nat, data.length ≤ n → isBytes data →
    ∀ fuel, (escape data).length ≤ fuel → unquoteFuel fuel (escape data) = some data := by
  induction n with
  | zero =>
    intro data h _ fuel _
    have : data = [] := List.length_eq_zero.mp (by omega)
    subst this
    rw [escape_nil]; cases fuel <;> rfl
  | succ n ih =>
    intro data h hb fuel hf
    match data with
    | [] => rw [escape_nil]; cases fuel <;> rfl
    | b :: t =>
      have hb0 : b < 256 := hb b (List.mem_cons_self _ _)
      have hbt : isBytes t := fun x hx => hb x (List.mem_cons_of_mem _ hx)
      have hlt : t.length ≤ n := by simp only [List.length_cons] at h; omega
      -- the steps that advance by one byte and emit an escape
      have one : ∀ tok : List Nat, token (b :: t) = (tok, 1) → 0 < tok.length →
          (∀ f, unquoteFuel (f + 1) (tok ++ escape t) = (unquoteFuel f (escape t)).map (b :: ·)) →
          unquoteFuel fuel (escape (b :: t)) = some (b :: t) := by
        intro tok ht hl hu
        have e : escape (b :: t) = tok ++ escape t := by rw [escape_cons, ht]; rfl
        rw [e] at hf ⊢
        rw [List.length_append] at hf
        obtain ⟨f, rfl⟩ : ∃ f, fuel = f + 1 := ⟨fuel - 1, by omega⟩
        rw [hu f, ih t hlt hbt f (by omega)]; rfl
      by_cases h1 : b = 92
      · subst h1; exact one (lit "\\\\") rfl (by decide) (fun f => unquote_backslash f _)
      by_cases h2 : b = 34
      · subst h2; exact one (lit "\\\"") rfl (by decide) (fun f => unquote_quote f _)
      by_cases h3 : b = 10
      · subst h3; exact one (lit "\\n") rfl (by decide) (fun f => unquote_newline f _)
      by_cases h4 : b = 0
      · subst h4; exact one (fmtHex 0) rfl (by decide) (fun f => unquote_hex f 0 _ hb0)
      by_cases hp : (DecodeRune (b :: t)).1 ≠ RuneError ∧ (DecodeRune (b :: t)).1 ≠ byteOrderMark
      · have ht := token_pass h1 h2 h3 h4 hp.1 hp.2
        have hs := DecodeRune_size b t
        obtain ⟨_, _, f0⟩ := pass_token_proj hp.1
        have hz : (DecodeRune (b :: t)).1 ≠ 0 := fun hc =>
          h4 (by rw [← f0 (by rw [hc]; decide), hc])
        -- the token as a list starting with `b`
        obtain ⟨k, hk⟩ : ∃ k, (DecodeRune (b :: t)).2 = k + 1 :=
          ⟨(DecodeRune (b :: t)).2 - 1, by omega⟩
        have etok : (b :: t).take (DecodeRune (b :: t)).2 = b :: t.take k := by rw [hk]; rfl
        have elen : (t.take k).length = k := by
          rw [List.length_take]; omega
        have e : escape (b :: t) = b :: (t.take k ++ escape (t.drop k)) := by
          rw [escape_cons, ht]; simp only [etok, hk]; rfl
        have hdec : DecodeRune (b :: (t.take k ++ escape (t.drop k))) = DecodeRune (b :: t) := by
          have := DecodeRune_take (b :: t) (escape (t.drop k)) hp.1
          rw [etok] at this; exact this
        rw [e] at hf ⊢
        simp only [List.length_cons, List.length_append, elen] at hf
        obtain ⟨f, rfl⟩ : ∃ f, fuel = f + 1 := ⟨fuel - 1, by omega⟩
        rw [unquote_pass f b _ h1 h2 h3 (by rw [hdec]; intro hc; exact hp.1 (by rw [hc]))
          (by rw [hdec]; exact hz) (by rw [hdec]; exact hp.2), hdec, hk]
        have e1 : (b :: (t.take k ++ escape (t.drop k))).drop (k + 1) = escape (t.drop k) := by
          show (t.take k ++ escape (t.drop k)).drop k = _
          rw [List.drop_left']; exact elen
        have e2 : (b :: (t.take k ++ escape (t.drop k))).take (k + 1) = b :: t.take k := by
          show b :: (t.take k ++ escape (t.drop k)).take k = _
          rw [List.take_left']; exact elen
        rw [e1, e2, ih (t.drop k) (by rw [List.length_drop]; omega) (isBytes_drop hbt k) f
          (by omega)]
        simp
      · exact one (fmtHex b) (token_hex h1 h2 h3 h4 (by tauto)) (by simp [fmtHex])
          (fun f => unquote_hex f b _ hb0)

theorem loopBody_buf (s d : List Nat) :
    loopBody bufWriter ⟨s, d, none⟩ = ⟨s ++ (token d).1, d.drop (token d).2, none⟩ := by
  match d with
  | [] => simp [loopBody, token]
  | b :: t => rw [loopBody_eq]; rfl

theorem iterate_buf (k : Nat) : ∀ s d : List Nat, ∃ s' d',
    (loopBody bufWriter)^[k] ⟨s, d, none⟩ = ⟨s', d', none⟩ ∧ d'.length ≤ d.length := by
  induction k with
  | zero => intro s d; exact ⟨s, d, rfl, Nat.le_refl _⟩
  | succ k ih =>
    intro s d
    rw [Function.iterate_succ_apply, loopBody_buf]
    obtain ⟨s', d', e, hl⟩ := ih (s ++ (token d).1) (d.drop (token d).2)
    exact ⟨s', d', e, by rw [List.length_drop] at hl; omega⟩

theorem decode_extend (a b : List Nat) (h : (DecodeRune a).1 ≠ RuneError) :
    DecodeRune (a ++ b) = DecodeRune a := by
  have := DecodeRune_take a (a.drop (DecodeRune a).2 ++ b) h
  rwa [← List.append_assoc, List.take_append_drop] at this

theorem decode_restrict (a b : List Nat) (h : (DecodeRune (a ++ b)).1 ≠ RuneError)
    (hl : (DecodeRune (a ++ b)).2 ≤ a.length) : DecodeRune a = DecodeRune (a ++ b) := by
  have := DecodeRune_take (a ++ b) (a.drop (DecodeRune (a ++ b)).2) h
  rwa [List.take_append_of_le_length hl, List.take_append_drop] at this

theorem hex_branch {r : Nat} (h : ¬ (r ≠ RuneError ∧ r ≠ byteOrderMark)) :
    r = RuneError ∨ r = byteOrderMark := by
  by_cases h1 : r = RuneError
  · exact Or.inl h1
  · by_cases h2 : r = byteOrderMark
    · exact Or.inr h2
    · exact absurd ⟨h1, h2⟩ h

theorem token_restrict (x : Nat) (a b : List Nat)
    (hl : (token (x :: (a ++ b))).2 ≤ a.length + 1) :
    token (x :: a) = token (x :: (a ++ b)) := by
  by_cases hx : x < 0x80
  · rw [token_ascii a hx, token_ascii (a ++ b) hx]
  have h1 : x ≠ 92 := by omega
  have h2 : x ≠ 34 := by omega
  have h3 : x ≠ 10 := by omega
  have h4 : x ≠ 0 := by omega
  by_cases hp : (DecodeRune (x :: (a ++ b))).1 ≠ RuneError ∧
      (DecodeRune (x :: (a ++ b))).1 ≠ byteOrderMark
  · have ht := token_pass h1 h2 h3 h4 hp.1 hp.2
    rw [ht] at hl ⊢
    have e : DecodeRune (x :: a) = DecodeRune (x :: (a ++ b)) :=
      decode_restrict (x :: a) b hp.1 (by simpa using hl)
    rw [token_pass h1 h2 h3 h4 (by rw [e]; exact hp.1) (by rw [e]; exact hp.2), e]
    congr 1
    show _ = List.take _ ((x :: a) ++ b)
    rw [List.take_append_of_le_length (by simpa using hl)]
  · rw [token_hex h1 h2 h3 h4 (hex_branch hp)]
    by_cases hq : (DecodeRune (x :: a)).1 ≠ RuneError ∧ (DecodeRune (x :: a)).1 ≠ byteOrderMark
    · exfalso
      have e : DecodeRune (x :: (a ++ b)) = DecodeRune (x :: a) := decode_extend (x :: a) b hq.1
      rw [e] at hp; exact hp hq
    · rw [token_hex h1 h2 h3 h4 (hex_branch hq)]

theorem escape_append_of_boundary (b : List Nat) (k : Nat) : ∀ a s : List Nat,
    ((loopBody bufWriter)^[k] ⟨s, a ++ b, none⟩).data = b →
    escape (a ++ b) = escape a ++ escape b := by
  induction k with
  | zero =>
    intro a s h
    have hl : (a ++ b).length = b.length := congrArg List.length h
    have : a = [] := List.length_eq_zero.mp (by rw [List.length_append] at hl; omega)
    subst this; simp [escape_nil]
  | succ k ih =>
    intro a s h
    match a with
    | [] => simp [escape_nil]
    | x :: a' =>
      rw [List.cons_append, Function.iterate_succ_apply, loopBody_buf] at h
      have ha := token_adv x (a' ++ b)
      obtain ⟨s', d', e, hl⟩ := iterate_buf k (s ++ (token (x :: (a' ++ b))).1)
        ((x :: (a' ++ b)).drop (token (x :: (a' ++ b))).2)
      have hb : d' = b := by rw [e] at h; exact h
      subst hb
      simp only [List.length_drop, List.length_cons, List.length_append] at hl ha
      have hadv : (token (x :: (a' ++ d'))).2 ≤ a'.length + 1 := by omega
      have ht := token_restrict x a' d' hadv
      have hd : (x :: (a' ++ d')).drop (token (x :: (a' ++ d'))).2
          = (x :: a').drop (token (x :: (a' ++ d'))).2 ++ d' := by
        show ((x :: a') ++ d').drop _ = _
        rw [List.drop_append_of_le_length (by simpa using hadv)]
      have key := ih ((x :: a').drop (token (x :: (a' ++ d'))).2)
        (s ++ (token (x :: (a' ++ d'))).1) (by rw [← hd]; exact h)
      rw [List.cons_append, escape_cons, hd, key, escape_cons x a', ht, List.append_assoc]

theorem Write_escape (s c : List Nat) :
    escapeWriter.Write bufWriter s c = some (s ++ escape c, c.length, none) := by
  rw [Write_buf, escape_eq]

theorem ioCopy_buf (e : Option Err) : ∀ (chunks : List (List Nat)) (s : List Nat),
    ioCopy bufWriter s chunks e = some (s ++ (chunks.map escape).flatten, e) := by
  intro chunks
  induction chunks with
  | nil => intro s; simp [ioCopy]
  | cons c cs ih =>
    intro s
    simp only [ioCopy, Write_escape, Option.isSome_none, Bool.false_eq_true, if_false]
    rw [ih]
    simp [List.append_assoc]

theorem embedFileContents_buf (fs : FileSystem) (s : List Nat) (f : GoString)
    (h : readable fs f) :
    embedFileContents bufWriter fs s f = some (s ++ payload fs f, none) := by
  obtain ⟨chunks, e⟩ := h
  simp only [embedFileContents, payload, e, ioCopy_buf]

theorem embedSingleFile_buf (fs : FileSystem) (c : configuration) (s : List Nat)
    (f : GoString) (rest : List GoString) (hsrc : c.Sources = f :: rest)
    (h : readable fs f) :
    embedSingleFile bufWriter fs c s =
      some (s ++ (lit "var " ++ c.Var ++ lit " = " ++ dataBegin c ++ payload fs f ++ dataEnd c),
        none) := by
  simp only [embedSingleFile, bufWriter_write, hsrc, embedFileContents_buf fs _ f h,
    Option.isSome_none, Bool.false_eq_true, if_false]
  simp [List.append_assoc]

theorem embedRange_buf (fs : FileSystem) (c : configuration) :
    ∀ (srcs : List GoString) (i : Nat) (s : List Nat), (∀ f ∈ srcs, readable fs f) →
    embedRange bufWriter fs c i srcs s =
      some (s ++ ((srcs.enumFrom i).map fun p =>
        lit "\t" ++ c.Var ++ lit "_" ++ fmtInt p.1 ++ lit " = " ++ dataBegin c
          ++ payload fs p.2 ++ dataEnd c).flatten, none) := by
  intro srcs
  induction srcs with
  | nil => intro i s _; simp [embedRange]
  | cons f rest ih =>
    intro i s h
    simp only [embedRange, bufWriter_write,
      embedFileContents_buf fs _ f (h f (List.mem_cons_self _ _)),
      Option.isSome_none, Bool.false_eq_true, if_false]
    rw [ih (i + 1) _ (fun g hg => h g (List.mem_cons_of_mem _ hg))]
    simp [List.enumFrom_cons, List.append_assoc]

theorem embedMultipleFiles_buf (fs : FileSystem) (c : configuration) (s : List Nat)
    (hne : c.Sources ≠ []) (h : ∀ f ∈ c.Sources, readable fs f) :
    embedMultipleFiles bufWriter fs c s =
      some (s ++ (lit "var (\n" ++ (c.Sources.enum.map fun p =>
        lit "\t" ++ c.Var ++ lit "_" ++ fmtInt p.1 ++ lit " = " ++ dataBegin c
          ++ payload fs p.2 ++ dataEnd c).flatten ++ lit ")\n"), none) := by
  have hl : ¬ c.Sources.length = 0 := fun e => hne (List.length_eq_zero.mp e)
  simp only [embedMultipleFiles, hl, if_false, bufWriter_write, Option.isSome_none,
    Bool.false_eq_true, embedRange_buf fs c c.Sources 0 _ h]
  simp [List.enum, List.append_assoc]

theorem escape_chunks : ∀ chunks : List (List Nat), chunksAligned chunks →
    (chunks.map escape).flatten = escape chunks.flatten := by
  intro chunks
  induction chunks with
  | nil => intro _; simp [escape_nil]
  | cons c cs ih =>
    intro h
    obtain ⟨⟨k, hk⟩, hcs⟩ := h
    rw [List.map_cons, List.flatten_cons, List.flatten_cons, ih hcs,
      escape_append_of_boundary cs.flatten k c [] hk]

theorem escape_replicate_ascii (n : Nat) (rest : List Nat) :
    escape (List.replicate n 65 ++ rest) = List.replicate n 65 ++ escape rest := by
  induction n with
  | zero => rfl
  | succ n ih =>
    rw [List.replicate_succ, List.cons_append, escape_ascii_cons _ (by decide), ih]
    rfl

theorem dataBegin_eq (c : configuration) :
    dataBegin c = if c.strData then lit "\"" else lit "[]byte(\"" := by
  unfold dataBegin; cases c.strData <;> rfl

theorem dataEnd_eq (c : configuration) :
    dataEnd c = if c.strData then lit "\"\n" else lit "\")\n" := by
  unfold dataEnd; cases c.strData <;> rfl

theorem payload_split : payload splitFile (lit "f")
    = List.replicate 4095 65 ++ lit "\\xc3\\xa9" := by
  show ([List.replicate 4095 65 ++ [0xC3], [0xA9]].map escape).flatten = _
  simp only [List.map_cons, List.map_nil, List.flatten_cons, List.flatten_nil,
    escape_replicate_ascii]
  have e1 : escape [0xC3] = lit "\\xc3" := by decide
  have e2 : escape [0xA9] = lit "\\xa9" := by decide
  rw [e1, e2]
  simp only [List.append_nil, List.append_assoc]
  rfl

theorem escape_whole_split : escape (List.replicate 4095 65 ++ [0xC3, 0xA9])
    = List.replicate 4095 65 ++ [0xC3, 0xA9] := by
  rw [escape_replicate_ascii]
  have e : escape [0xC3, 0xA9] = [0xC3, 0xA9] := by decide
  rw [e]

theorem iterate_data_indep (k : Nat) : ∀ s s' d : List Nat,
    ((loopBody bufWriter)^[k] ⟨s, d, none⟩).data = ((loopBody bufWriter)^[k] ⟨s', d, none⟩).data := by
  induction k with
  | zero => intro s s' d; rfl
  | succ k ih =>
    intro s s' d
    rw [Function.iterate_succ_apply, Function.iterate_succ_apply, loopBody_buf, loopBody_buf]
    exact ih _ _ _

theorem token_wide {x : Nat} {t : List Nat} (h : 2 ≤ (token (x :: t)).2) :
    x ≠ 92 ∧ ((DecodeRune (x :: t)).1 ≠ RuneError ∧ (DecodeRune (x :: t)).1 ≠ byteOrderMark) ∧
    token (x :: t) = ((x :: t).take (DecodeRune (x :: t)).2, (DecodeRune (x :: t)).2) := by
  by_cases hx : x < 0x80
  · rw [token_ascii t hx] at h; simp at h
  have h1 : x ≠ 92 := by omega
  have h2 : x ≠ 34 := by omega
  have h3 : x ≠ 10 := by omega
  have h4 : x ≠ 0 := by omega
  by_cases hp : (DecodeRune (x :: t)).1 ≠ RuneError ∧ (DecodeRune (x :: t)).1 ≠ byteOrderMark
  · exact ⟨h1, hp, token_pass h1 h2 h3 h4 hp.1 hp.2⟩
  · rw [token_hex h1 h2 h3 h4 (hex_branch hp)] at h; simp at h

theorem escape_append_ne (b : List Nat) (n : Nat) : ∀ a : List Nat, a.length ≤ n →
    (∀ s k, ((loopBody bufWriter)^[k] ⟨s, a ++ b, none⟩).data ≠ b) →
    escape a ++ escape b ≠ escape (a ++ b) := by
  induction n with
  | zero =>
    intro a h hn
    have : a = [] := List.length_eq_zero.mp (by omega)
    subst this
    exact absurd rfl (hn [] 0)
  | succ n ih =>
    intro a h hn
    match a with
    | [] => exact absurd rfl (hn [] 0)
    | x :: a' =>
      have ha := token_adv x (a' ++ b)
      rw [List.cons_append, escape_cons x (a' ++ b)]
      by_cases hadv : (token (x :: (a' ++ b))).2 ≤ a'.length + 1
      · have ht := token_restrict x a' b hadv
        have hd : (x :: (a' ++ b)).drop (token (x :: (a' ++ b))).2
            = (x :: a').drop (token (x :: (a' ++ b))).2 ++ b := by
          show ((x :: a') ++ b).drop _ = _
          rw [List.drop_append_of_le_length (by simpa using hadv)]
        rw [escape_cons x a', ht, hd, List.append_assoc]
        intro e
        refine ih ((x :: a').drop (token (x :: (a' ++ b))).2) ?_ ?_ (List.append_cancel_left e)
        · simp only [List.length_drop, List.length_cons] at h ⊢; omega
        · intro s k hk
          apply hn [] (k + 1)
          rw [List.cons_append, Function.iterate_succ_apply, loopBody_buf, hd,
            iterate_data_indep k _ s]
          exact hk
      · have hw : 2 ≤ (token (x :: (a' ++ b))).2 := by omega
        obtain ⟨hx, hp, ht⟩ := token_wide hw
        -- the step on the whole stream starts with the byte `x` itself
        have hs := (DecodeRune_size x (a' ++ b)).1
        obtain ⟨k, hk⟩ : ∃ k, (DecodeRune (x :: (a' ++ b))).2 = k + 1 :=
          ⟨(DecodeRune (x :: (a' ++ b))).2 - 1, by omega⟩
        have hhead : (token (x :: (a' ++ b))).1 = x :: (a' ++ b).take k := by
          rw [ht, hk]; rfl
        -- the step on the first chunk alone is a hex escape
        have hq : ¬ ((DecodeRune (x :: a')).1 ≠ RuneError ∧
            (DecodeRune (x :: a')).1 ≠ byteOrderMark) := by
          intro hq
          have e := decode_extend (x :: a') b hq.1
          rw [List.cons_append] at e
          have hsz := (DecodeRune_size x a').2
          rw [ht, e] at hadv
          exact hadv hsz
        have hge : x ≥ 0x80 := by
          by_contra hlt
          rw [token_ascii (a' ++ b) (by omega)] at hw; simp at hw
        have hta : token (x :: a') = (fmtHex x, 1) :=
          token_hex hx (by omega) (by omega) (by omega) (hex_branch hq)
        rw [escape_cons x a', hta, hhead]
        intro e
        have : (92 : Nat) = x := by
          have := congrArg List.head? e
          simpa [fmtHex] using this
        exact hx this.symm

theorem escape_replacement (rest : List Nat) :
    escape (utf8Enc 0xFFFD ++ rest) = lit "\\xef\\xbf\\xbd" ++ escape rest := by
  have e0 : utf8Enc 0xFFFD ++ rest = 0xEF :: 0xBF :: 0xBD :: rest := rfl
  have t1 : token (0xEF :: 0xBF :: 0xBD :: rest) = (fmtHex 0xEF, 1) :=
    token_hex (by decide) (by decide) (by decide) (by decide)
      (Or.inl (by rw [decode_three rest (by decide)]; rfl))
  rw [e0, escape_cons, t1]
  show fmtHex 0xEF ++ escape (0xBF :: 0xBD :: rest) = _
  rw [escape_invalid_lead _ (Or.inl (by decide)), escape_invalid_lead _ (Or.inl (by decide))]
  have e : lit "\\xef\\xbf\\xbd" = fmtHex 0xEF ++ (fmtHex 0xBF ++ fmtHex 0xBD) := by decide
  rw [e]; simp only [List.append_assoc]

theorem HasPrefix_iff (s pre : GoString) : HasPrefix s pre = true ↔ ∃ rest, s = pre ++ rest := by
  unfold HasPrefix
  simp only [Bool.and_eq_true, decide_eq_true_eq, beq_iff_eq]
  constructor
  · rintro ⟨_, h2⟩
    have e := List.take_append_drop pre.length s
    rw [h2] at e
    exact ⟨s.drop pre.length, e.symm⟩
  · rintro ⟨rest, rfl⟩
    simp

theorem TrimPrefix_append (pre rest : GoString) : TrimPrefix (pre ++ rest) pre = rest := by
  unfold TrimPrefix
  rw [if_pos ((HasPrefix_iff _ _).mpr ⟨rest, rfl⟩)]
  simp

theorem TrimPrefix_of_not {s pre : GoString} (h : ¬ ∃ rest, s = pre ++ rest) :
    TrimPrefix s pre = s := by
  unfold TrimPrefix
  rw [if_neg (fun hp => h ((HasPrefix_iff _ _).mp hp))]

theorem FromSlash_slash {h : Host} (hs : h.separator = 47) (path : GoString) :
    FromSlash h path = path := by
  unfold FromSlash; rw [if_pos hs]

theorem appendEscapedRune_plain (h : Host) {b : Nat} (hb : plainByte b) :
    appendEscapedRune h b = [b] := by
  obtain ⟨h1, h2, h3, h4⟩ := hb
  unfold appendEscapedRune
  rw [if_neg (by omega)]
  have hp : IsPrint h b = true := by
    unfold IsPrint
    rw [if_pos (by omega), if_pos ⟨h1, h2⟩]
  rw [if_pos hp]
  unfold AppendRune
  rw [if_pos (show isScalar b from Or.inl (by omega))]
  unfold utf8Enc
  rw [if_pos (by omega)]

theorem quoteLoop_plain (h : Host) : ∀ (s : GoString) (fuel : Nat), s.length ≤ fuel →
    (∀ b ∈ s, plainByte b) → quoteLoop h fuel s = s := by
  intro s
  induction s with
  | nil => intro fuel _ _; cases fuel <;> rfl
  | cons b t ih =>
    intro fuel hl hp
    obtain ⟨f, rfl⟩ : ∃ f, fuel = f + 1 := ⟨fuel - 1, by simp at hl; omega⟩
    have hb := hp b (List.mem_cons_self _ _)
    have hlt : ¬ b ≥ 0x80 := by have := hb.2.1; omega
    simp only [quoteLoop, if_neg hlt]
    rw [if_neg (by rintro ⟨_, e⟩; have := hb.2.1; simp only [RuneError] at e; omega),
      appendEscapedRune_plain h hb]
    simp only [List.drop_succ_cons, List.drop_zero, List.singleton_append, List.cons.injEq,
      true_and]
    exact ih f (by simp at hl; omega) (fun x hx => hp x (List.mem_cons_of_mem _ hx))

theorem Quote_plain (h : Host) (s : GoString) (hp : ∀ b ∈ s, plainByte b) :
    Quote h s = [34] ++ s ++ [34] := by
  unfold Quote; rw [quoteLoop_plain h s s.length (Nat.le_refl _) hp]

theorem Key_flatten_off (h : Host) (c : configuration) (f : GoString)
    (hs : h.separator = 47) (hf : c.flatten = false) :
    c.Key h f = Quote h (TrimPrefix f (lit "external/" ++ c.workspace ++ lit "/")) := by
  simp only [configuration.Key, hf, FromSlash_slash hs, Bool.false_eq_true, if_false]

theorem Key_flatten_on (h : Host) (c : configuration) (f : GoString) (hf : c.flatten = true) :
    c.Key h f = Quote h (Base f) := by
  simp only [configuration.Key, hf, if_true]

theorem Base_eq (path : GoString) (hne : path ≠ []) :
    Base path =
      if (path.reverse.dropWhile (· == 47)).takeWhile (· != 47) = [] then lit "/"
      else ((path.reverse.dropWhile (· == 47)).takeWhile (· != 47)).reverse := by
  unfold Base
  rw [if_neg hne]
  simp only [List.rdropWhile, List.rtakeWhile, List.reverse_reverse, List.reverse_eq_nil_iff]

theorem dropWhile_append_of_mem (R P : List Nat) (h : ∃ b ∈ R, b ≠ 47) :
    (R ++ P).dropWhile (· == 47) = R.dropWhile (· == 47) ++ P ∧
    R.dropWhile (· == 47) ≠ [] := by
  induction R with
  | nil => obtain ⟨b, hb, _⟩ := h; simp at hb
  | cons x R ih =>
    by_cases hx : x = 47
    · subst hx
      obtain ⟨b, hb, hne⟩ := h
      have hb' : b ∈ R := by
        rcases List.mem_cons.mp hb with rfl | hm
        · exact absurd rfl hne
        · exact hm
      simpa using ih ⟨b, hb', hne⟩
    · simp [List.dropWhile_cons, hx]

theorem takeWhile_append_stop (D P : List Nat) :
    (D ++ 47 :: P).takeWhile (· != 47) = D.takeWhile (· != 47) := by
  induction D with
  | nil => simp
  | cons x D ih =>
    by_cases hx : x = 47
    · subst hx; simp
    · simp [List.takeWhile_cons, hx, ih]

theorem Base_append_slash (p r : GoString) (h : ∃ b ∈ r, b ≠ 47) :
    Base (p ++ [47] ++ r) = Base r := by
  have hr : r ≠ [] := by rintro rfl; obtain ⟨b, hb, _⟩ := h; simp at hb
  have hR : ∃ b ∈ r.reverse, b ≠ 47 := by
    obtain ⟨b, hb, hne⟩ := h; exact ⟨b, List.mem_reverse.mpr hb, hne⟩
  rw [Base_eq _ (by simp), Base_eq r hr]
  have e : (p ++ [47] ++ r).reverse = r.reverse ++ 47 :: p.reverse := by simp
  rw [e, (dropWhile_append_of_mem _ _ hR).1, takeWhile_append_stop]

theorem newConfiguration_label {parse : FlagParser} {args : List GoString}
    {c : configuration} {rest : List GoString} (hp : parse (args.drop 1) = some (c, rest))
    (h1 : c.Label = []) :
    newConfiguration parse args = some (.error "error: -label option not provided") := by
  simp only [newConfiguration, hp, h1, if_true]

theorem newConfiguration_package {parse : FlagParser} {args : List GoString}
    {c : configuration} {rest : List GoString} (hp : parse (args.drop 1) = some (c, rest))
    (h1 : c.Label ≠ []) (h2 : c.Package = []) :
    newConfiguration parse args = some (.error "error: -package option not provided") := by
  simp only [newConfiguration, hp, h1, h2, if_true, if_false]

theorem newConfiguration_var {parse : FlagParser} {args : List GoString}
    {c : configuration} {rest : List GoString} (hp : parse (args.drop 1) = some (c, rest))
    (h1 : c.Label ≠ []) (h2 : c.Package ≠ []) (h3 : c.Var = []) :
    newConfiguration parse args = some (.error "error: -var option not provided") := by
  simp only [newConfiguration, hp, h1, h2, h3, if_true, if_false]

theorem newConfiguration_out {parse : FlagParser} {args : List GoString}
    {c : configuration} {rest : List GoString} (hp : parse (args.drop 1) = some (c, rest))
    (h1 : c.Label ≠ []) (h2 : c.Package ≠ []) (h3 : c.Var ≠ []) (h4 : c.out = []) :
    newConfiguration parse args = some (.error "error: -out option not provided") := by
  simp only [newConfiguration, hp, h1, h2, h3, h4, if_true, if_false]

theorem newConfiguration_workspace {parse : FlagParser} {args : List GoString}
    {c : configuration} {rest : List GoString} (hp : parse (args.drop 1) = some (c, rest))
    (h1 : c.Label ≠ []) (h2 : c.Package ≠ []) (h3 : c.Var ≠ []) (h4 : c.out ≠ [])
    (h5 : c.workspace = []) :
    newConfiguration parse args = some (.error "error: -workspace option not provided") := by
  simp only [newConfiguration, hp, h1, h2, h3, h4, h5, if_true, if_false]

theorem newConfiguration_count {parse : FlagParser} {args : List GoString}
    {c : configuration} {rest : List GoString} (hp : parse (args.drop 1) = some (c, rest))
    (hr : requiredGiven c) (hm : c.Multi = false) (hn : rest.length ≠ 1) :
    newConfiguration parse args = some (.error (countError rest.length)) := by
  obtain ⟨h1, h2, h3, h4, h5⟩ := hr
  simp only [newConfiguration, hp, h1, h2, h3, h4, h5, hm, if_false, countError]
  simp [hn]

theorem newConfiguration_ok {parse : FlagParser} {args : List GoString}
    {c : configuration} {rest : List GoString} (hp : parse (args.drop 1) = some (c, rest))
    (hr : requiredGiven c) (hm : c.Multi = true ∨ rest.length = 1) :
    newConfiguration parse args = some (.ok { c with Sources := rest }) := by
  obtain ⟨h1, h2, h3, h4, h5⟩ := hr
  simp only [newConfiguration, hp, h1, h2, h3, h4, h5, if_false]
  rcases hm with hm | hm <;> simp [hm]

theorem newConfiguration_error_of_count {parse : FlagParser} {args : List GoString}
    {c : configuration} {rest : List GoString} (hp : parse (args.drop 1) = some (c, rest))
    (hm : c.Multi = false) (hn : rest.length ≠ 1) :
    ∃ e, newConfiguration parse args = some (.error e) ∧
      (requiredGiven c → e = countError rest.length) := by
  by_cases h1 : c.Label = []
  · exact ⟨_, newConfiguration_label hp h1, fun hr => absurd h1 hr.1⟩
  by_cases h2 : c.Package = []
  · exact ⟨_, newConfiguration_package hp h1 h2, fun hr => absurd h2 hr.2.1⟩
  by_cases h3 : c.Var = []
  · exact ⟨_, newConfiguration_var hp h1 h2 h3, fun hr => absurd h3 hr.2.2.1⟩
  by_cases h4 : c.out = []
  · exact ⟨_, newConfiguration_out hp h1 h2 h3 h4, fun hr => absurd h4 hr.2.2.2.1⟩
  by_cases h5 : c.workspace = []
  · exact ⟨_, newConfiguration_workspace hp h1 h2 h3 h4 h5, fun hr => absurd h5 hr.2.2.2.2⟩
  · exact ⟨_, newConfiguration_count hp ⟨h1, h2, h3, h4, h5⟩ hm hn, fun _ => rfl⟩

theorem run_of_config_error {σ : Type} (h : Host) (parse : FlagParser)
    (create : GoString → Except Err σ) (W : Writer σ) (fs : FileSystem)
    (args : List GoString) (e : Err)
    (he : newConfiguration parse args = some (.error e)) :
    run h parse create W fs args = some ⟨none, some e⟩ := by
  simp only [run, he]

theorem digitChar_toNat {k : Nat} (h : k < 10) : (Nat.digitChar k).toNat - 48 = k := by
  interval_cases k <;> rfl

theorem toDigitsCore_append (fuel : Nat) : ∀ (n : Nat) (ds : List Char),
    Nat.toDigitsCore 10 fuel n ds = Nat.toDigitsCore 10 fuel n [] ++ ds := by
  induction fuel with
  | zero => intro n ds; simp [Nat.toDigitsCore]
  | succ f ih =>
    intro n ds
    simp only [Nat.toDigitsCore]
    split_ifs
    · simp
    · rw [ih (n / 10) (Nat.digitChar (n % 10) :: ds), ih (n / 10) [Nat.digitChar (n % 10)]]
      simp

theorem decValue_toDigitsCore (fuel : Nat) : ∀ n : Nat, n < fuel →
    decValue ((Nat.toDigitsCore 10 fuel n []).map Char.toNat) = n := by
  induction fuel with
  | zero => intro n h; omega
  | succ f ih =>
    intro n h
    simp only [Nat.toDigitsCore]
    split_ifs with h0
    · simp only [List.map_cons, List.map_nil, decValue, List.foldl_cons, List.foldl_nil]
      rw [digitChar_toNat (by omega)]; omega
    · rw [toDigitsCore_append]
      simp only [List.map_append, List.map_cons, List.map_nil, decValue, List.foldl_append,
        List.foldl_cons, List.foldl_nil]
      have := ih (n / 10) (by omega)
      simp only [decValue] at this
      rw [this, digitChar_toNat (by omega)]; omega

theorem decValue_fmtInt (i : Nat) : decValue (fmtInt i) = i := by
  have e : fmtInt i = (Nat.toDigitsCore 10 (i + 1) i []).map Char.toNat := rfl
  rw [e, decValue_toDigitsCore (i + 1) i (by omega)]

theorem fmtInt_injective : Function.Injective fmtInt := by
  intro a b h
  have := congrArg decValue h
  rwa [decValue_fmtInt, decValue_fmtInt] at this

theorem bindingNames_nodup (v : GoString) (srcs : List GoString) :
    (srcs.enum.map fun p => v ++ lit "_" ++ fmtInt p.1).Nodup := by
  have e : (srcs.enum.map fun p => v ++ lit "_" ++ fmtInt p.1)
      = (List.range srcs.length).map fun i => v ++ lit "_" ++ fmtInt i := by
    rw [← List.enum_map_fst srcs, List.map_map]; rfl
  rw [e]
  refine List.Nodup.map ?_ (List.nodup_range _)
  intro a b h
  simp only [] at h
  exact fmtInt_injective (List.append_cancel_left h)

theorem headerEntries_flatten (h : Host) (c : configuration) (l : List (Nat × GoString)) :
    (l.flatMap fun p =>
        [lit "\n\t", c.Key h p.2, lit ": ", c.Var, lit "_", fmtInt p.1, lit ","]).flatten
      = (l.map fun p =>
          lit "\n\t" ++ c.Key h p.2 ++ lit ": " ++ (c.Var ++ lit "_" ++ fmtInt p.1)
            ++ lit ",").flatten := by
  induction l with
  | nil => rfl
  | cons p l ih =>
    simp only [List.flatMap_cons, List.map_cons, List.flatten_cons, List.flatten_append,
      List.flatten_nil, List.append_nil, List.append_assoc, List.cons_append,
      List.nil_append, ih]

theorem headerTpl_multi (h : Host) (c : configuration) (hm : c.Multi = true) :
    (headerTpl h c).flatten =
      lit "// Generated by go_embed_data for " ++ c.Label
        ++ lit ". DO NOT EDIT.\n\npackage " ++ c.Package ++ lit "\n\n"
        ++ (lit "\nvar " ++ c.Var ++ lit " = map[string]" ++ c.TypeName ++ lit "\x7b"
          ++ (c.Sources.enum.map fun p =>
                lit "\n\t" ++ c.Key h p.2 ++ lit ": " ++ (c.Var ++ lit "_" ++ fmtInt p.1)
                  ++ lit ",").flatten
          ++ lit "\n\x7d\n")
        ++ lit "\n\n" := by
  simp only [headerTpl, hm, if_true]
  simp only [List.flatten_append, List.flatten_cons, List.flatten_nil, List.append_nil,
    List.append_assoc, List.cons_append, List.nil_append, headerEntries_flatten]

theorem embedMultipleFiles_nil {σ : Type} (W : Writer σ) (fs : FileSystem) (c : configuration)
    (s : σ) (hs : c.Sources = []) : embedMultipleFiles W fs c s = some (s, none) := by
  simp [embedMultipleFiles, hs]

theorem stepsOf_nil : stepsOf [] = [] := by rw [stepsOf]

theorem stepsOf_cons (b : Nat) (t : List Nat) :
    stepsOf (b :: t) = token (b :: t) :: stepsOf ((b :: t).drop (token (b :: t)).2) := by
  rw [stepsOf, drop_token]

theorem stepsOf_sum (n : Nat) : ∀ data : List Nat, data.length ≤ n →
    ((stepsOf data).map Prod.snd).sum = data.length := by
  induction n with
  | zero =>
    intro data h
    have : data = [] := List.length_eq_zero.mp (by omega)
    subst this; rw [stepsOf_nil]; rfl
  | succ n ih =>
    intro data h
    match data with
    | [] => rw [stepsOf_nil]; rfl
    | b :: t =>
      have ha := token_adv b t
      rw [stepsOf_cons, List.map_cons, List.sum_cons,
        ih _ (by simp only [List.length_drop, List.length_cons] at h ⊢; omega)]
      simp only [List.length_drop, List.length_cons]; omega

theorem sum_take_le (l : List Nat) (j : Nat) : (l.take j).sum ≤ l.sum := by
  induction l generalizing j with
  | nil => simp
  | cons x l ih =>
    cases j with
    | zero => simp
    | succ j => simp only [List.take_succ_cons, List.sum_cons]; have := ih j; omega

theorem consumed_le (data : List Nat) (j : Nat) :
    (((stepsOf data).take j).map Prod.snd).sum ≤ data.length := by
  rw [List.map_take]
  have := sum_take_le ((stepsOf data).map Prod.snd) j
  rw [stepsOf_sum data.length data (Nat.le_refl _)] at this
  exact this

theorem loop_writeAll {σ : Type} (W : Writer σ) (fuel : Nat) : ∀ (data : List Nat) (s : σ),
    data.length ≤ fuel →
    loop W fuel ⟨s, data, none⟩ =
      some ⟨(writeAll W s ((stepsOf data).map Prod.fst)).1,
        data.drop (((stepsOf data).take
          (writeAll W s ((stepsOf data).map Prod.fst)).2.1).map Prod.snd).sum,
        (writeAll W s ((stepsOf data).map Prod.fst)).2.2⟩ := by
  induction fuel with
  | zero =>
    intro data s h
    have : data = [] := List.length_eq_zero.mp (by omega)
    subst this
    simp [loop, stepsOf_nil, writeAll]
  | succ f ih =>
    intro data s h
    match data with
    | [] => simp [loop, stepsOf_nil, writeAll]
    | b :: t =>
      have ha := token_adv b t
      rw [loop]
      simp only [Option.isSome_none, Bool.false_eq_true, false_or, reduceCtorEq, if_false]
      rw [loopBody_eq, stepsOf_cons]
      simp only [List.map_cons, writeAll]
      cases hw : (W.write s (token (b :: t)).1).2 with
      | some e =>
        simp only [Option.isSome_some, if_true]
        cases f <;> simp [loop]
      | none =>
        simp only [Option.isSome_none, Bool.false_eq_true, if_false]
        rw [ih _ _ (by simp only [List.length_drop, List.length_cons] at h ⊢; omega)]
        simp only [List.take_succ_cons, List.map_cons, List.sum_cons, List.drop_drop]

theorem Write_writeAll {σ : Type} (W : Writer σ) (s : σ) (data : List Nat) :
    escapeWriter.Write W s data =
      some ((writeAll W s ((stepsOf data).map Prod.fst)).1,
        (((stepsOf data).take (writeAll W s ((stepsOf data).map Prod.fst)).2.1).map
          Prod.snd).sum,
        (writeAll W s ((stepsOf data).map Prod.fst)).2.2) := by
  have hc := consumed_le data (writeAll W s ((stepsOf data).map Prod.fst)).2.1
  simp only [escapeWriter.Write, loop_writeAll W data.length data s (Nat.le_refl _),
    Option.map_some', List.length_drop]
  congr 3
  omega

theorem writeAll_err_none {σ : Type} (W : Writer σ) : ∀ (ps : List (List Nat)) (s : σ),
    (writeAll W s ps).2.2.isSome = false → (writeAll W s ps).2.2 = none := by
  intro ps s h
  cases hq : (writeAll W s ps).2.2 with
  | none => rfl
  | some e => rw [hq] at h; simp at h

theorem writeAll_append {σ : Type} (W : Writer σ) : ∀ (ps qs : List (List Nat)) (s : σ),
    writeAll W s (ps ++ qs) =
      if (writeAll W s ps).2.2.isSome then writeAll W s ps
      else ((writeAll W (writeAll W s ps).1 qs).1,
        (writeAll W s ps).2.1 + (writeAll W (writeAll W s ps).1 qs).2.1,
        (writeAll W (writeAll W s ps).1 qs).2.2) := by
  intro ps
  induction ps with
  | nil => intro qs s; simp [writeAll]
  | cons p ps ih =>
    intro qs s
    simp only [List.cons_append, writeAll, List.append_eq]
    cases hw : (W.write s p).2 with
    | some e => simp
    | none =>
      simp only [Option.isSome_none, Bool.false_eq_true, if_false]
      rw [ih]
      split_ifs
      · rfl
      · simp only [Prod.mk.injEq, true_and, and_true]
        omega

theorem writeSeq_nil {σ : Type} (W : Writer σ) (s : σ) : writeSeq W s [] = (s, none) := rfl

theorem writeSeq_append {σ : Type} (W : Writer σ) (ps qs : List (List Nat)) (s : σ) :
    writeSeq W s (ps ++ qs) =
      if (writeSeq W s ps).2.isSome then writeSeq W s ps
      else writeSeq W (writeSeq W s ps).1 qs := by
  simp only [writeSeq, writeAll_append]
  split_ifs <;> rfl

theorem writeSeq_single {σ : Type} (W : Writer σ) (p : List Nat) (s : σ) :
    writeSeq W s [p] = W.write s p := by
  rcases hw : W.write s p with ⟨s1, _ | e⟩ <;> simp [writeSeq, writeAll, hw]

theorem ioCopy_writeSeq {σ : Type} (W : Writer σ) : ∀ (chunks : List (List Nat)) (s : σ),
    ioCopy W s chunks none =
      some (writeSeq W s (chunks.flatMap fun ch => (stepsOf ch).map Prod.fst)) := by
  intro chunks
  induction chunks with
  | nil => intro s; rfl
  | cons c cs ih =>
    intro s
    simp only [ioCopy, Write_writeAll, List.flatMap_cons]
    rw [writeSeq_append]
    simp only [writeSeq]
    split_ifs with h
    · rfl
    · rw [ih]; rfl

theorem embedFileContents_writeSeq {σ : Type} (W : Writer σ) (fs : FileSystem) (s : σ)
    (f : GoString) (h : readable fs f) :
    embedFileContents W fs s f = some (writeSeq W s (fileWrites fs f)) := by
  obtain ⟨chunks, e⟩ := h
  simp only [embedFileContents, fileWrites, e, ioCopy_writeSeq]

theorem embedSingleFile_writeSeq {σ : Type} (W : Writer σ) (fs : FileSystem)
    (c : configuration) (s : σ) (f : GoString) (rest : List GoString)
    (hsrc : c.Sources = f :: rest) (h : readable fs f) :
    embedSingleFile W fs c s = some (writeSeq W s (singleWrites fs c f)) := by
  simp only [embedSingleFile, hsrc, embedFileContents_writeSeq W fs _ f h, singleWrites,
    writeSeq_append, writeSeq_single]
  split_ifs <;> rfl

theorem embedRange_writeSeq {σ : Type} (W : Writer σ) (fs : FileSystem) (c : configuration) :
    ∀ (srcs : List GoString) (i : Nat) (s : σ), (∀ f ∈ srcs, readable fs f) →
    embedRange W fs c i srcs s =
      some (writeSeq W s ((srcs.enumFrom i).flatMap fun p =>
        [lit "\t" ++ c.Var ++ lit "_" ++ fmtInt p.1 ++ lit " = " ++ dataBegin c]
          ++ fileWrites fs p.2 ++ [dataEnd c])) := by
  intro srcs
  induction srcs with
  | nil => intro i s _; rfl
  | cons f rest ih =>
    intro i s h
    have hrest : ∀ g ∈ rest, readable fs g := fun g hg => h g (List.mem_cons_of_mem _ hg)
    simp only [embedRange, embedFileContents_writeSeq W fs _ f (h f (List.mem_cons_self _ _)),
      List.enumFrom_cons, List.flatMap_cons, writeSeq_append, writeSeq_single, ih _ _ hrest]
    split_ifs <;> rfl

theorem embedMultipleFiles_writeSeq {σ : Type} (W : Writer σ) (fs : FileSystem)
    (c : configuration) (s : σ) (hne : c.Sources ≠ []) (h : ∀ f ∈ c.Sources, readable fs f) :
    embedMultipleFiles W fs c s = some (writeSeq W s (multiWrites fs c)) := by
  have hl : ¬ c.Sources.length = 0 := fun e => hne (List.length_eq_zero.mp e)
  simp only [embedMultipleFiles, hl, if_false, embedRange_writeSeq W fs c c.Sources 0 _ h,
    multiWrites, writeSeq_append, writeSeq_single, List.enum]
  split_ifs <;> rfl

theorem writeAll_log (fail : List (List Nat) → Option Err) :
    ∀ (ps log : List (List Nat)), ∃ j e, stopsAt fail log ps j e ∧
      writeAll (logWriter fail) log ps = (log ++ ps.take j, j, e) := by
  intro ps
  induction ps with
  | nil =>
    intro log
    exact ⟨0, none, ⟨Nat.le_refl _, fun i h1 h2 => by omega,
      Or.inl ⟨rfl, rfl, fun h => by omega⟩⟩, by simp [writeAll]⟩
  | cons p ps ih =>
    intro log
    cases hw : fail (log ++ [p]) with
    | some err =>
      refine ⟨1, some err, ⟨by simp, fun i h1 h2 => by omega,
        Or.inr ⟨err, rfl, Nat.le_refl _, by simpa using hw⟩⟩, ?_⟩
      simp [writeAll, logWriter, hw]
    | none =>
      obtain ⟨j, e, ⟨h1, h2, h3⟩, hq⟩ := ih (log ++ [p])
      refine ⟨j + 1, e, ⟨by simpa using h1, ?_, ?_⟩, ?_⟩
      · intro i hi1 hi2
        obtain ⟨k, rfl⟩ : ∃ k, i = k + 1 := ⟨i - 1, by omega⟩
        by_cases hk : k = 0
        · subst hk; simpa using hw
        · have := h2 k (by omega) (by omega)
          simpa using this
      · rcases h3 with ⟨he, hj, hf⟩ | ⟨err, he, hj, hf⟩
        · refine Or.inl ⟨he, by simp [hj], fun _ => ?_⟩
          by_cases hj0 : j = 0
          · have : ps = [] := List.length_eq_zero.mp (by omega)
            subst this; exact hw
          · have := hf (by omega)
            simpa using this
        · exact Or.inr ⟨err, he, by omega, by simpa using hf⟩
      · have hw' : ((logWriter fail).write log p) = (log ++ [p], none) := by
          simp [logWriter, hw]
        simp only [writeAll, hw', Option.isSome_none, Bool.false_eq_true, if_false, hq]
        simp

theorem writeSeq_log (fail : List (List Nat) → Option Err) (ps log : List (List Nat)) :
    ∃ j e, stopsAt fail log ps j e ∧ writeSeq (logWriter fail) log ps = (log ++ ps.take j, e) := by
  obtain ⟨j, e, h, hq⟩ := writeAll_log fail ps log
  exact ⟨j, e, h, by simp [writeSeq, hq]⟩

theorem stepsOf_flatten_aux (n : Nat) : ∀ data : List Nat, data.length ≤ n →
    ((stepsOf data).map Prod.fst).flatten = escape data := by
  induction n with
  | zero =>
    intro data h
    have : data = [] := List.length_eq_zero.mp (by omega)
    subst this; rw [stepsOf_nil, escape_nil]; rfl
  | succ n ih =>
    intro data h
    match data with
    | [] => rw [stepsOf_nil, escape_nil]; rfl
    | b :: t =>
      have ha := token_adv b t
      rw [stepsOf_cons, escape_cons, List.map_cons, List.flatten_cons,
        ih _ (by simp only [List.length_drop, List.length_cons] at h ⊢; omega)]

theorem stepsOf_flatten (data : List Nat) :
    ((stepsOf data).map Prod.fst).flatten = escape data :=
  stepsOf_flatten_aux data.length data (Nat.le_refl _)

theorem utf8Enc_length (c : Nat) : 1 ≤ (utf8Enc c).length ∧ (utf8Enc c).length ≤ 4 := by
  unfold utf8Enc; split_ifs <;> simp

/-- The two kinds of step: a code point copied, or one byte escaped. -/
theorem token_class (b : Nat) (t : List Nat) :
    (∃ r, isScalar r ∧ r ∉ neverCopied ∧ token (b :: t) = (utf8Enc r, (utf8Enc r).length) ∧
      b :: t = utf8Enc r ++ (b :: t).drop (utf8Enc r).length ∧ (r < 0x80 → r = b)) ∨
    ((token (b :: t)).2 = 1 ∧
      (token (b :: t)).1 ∈ [lit "\\\\", lit "\\\"", lit "\\n", fmtHex b]) := by
  by_cases h1 : b = 92
  · subst h1; exact Or.inr ⟨rfl, List.mem_cons_self _ _⟩
  by_cases h2 : b = 34
  · subst h2; exact Or.inr ⟨rfl, List.mem_cons_of_mem _ (List.mem_cons_self _ _)⟩
  by_cases h3 : b = 10
  · subst h3
    exact Or.inr ⟨rfl, List.mem_cons_of_mem _ (List.mem_cons_of_mem _ (List.mem_cons_self _ _))⟩
  by_cases h4 : b = 0
  · subst h4
    exact Or.inr ⟨rfl, List.mem_cons_of_mem _ (List.mem_cons_of_mem _
      (List.mem_cons_of_mem _ (List.mem_cons_self _ _)))⟩
  by_cases hp : (DecodeRune (b :: t)).1 ≠ RuneError ∧ (DecodeRune (b :: t)).1 ≠ byteOrderMark
  · left
    obtain ⟨hs, e, f⟩ := pass_token_proj hp.1
    have hsz := (DecodeRune_size b t).2
    have hlen : (DecodeRune (b :: t)).2 = (utf8Enc (DecodeRune (b :: t)).1).length := by
      have := congrArg List.length e
      rw [List.length_take] at this
      simp only [List.length_cons] at this
      omega
    refine ⟨(DecodeRune (b :: t)).1, hs, ?_, ?_, ?_, f⟩
    · simp only [neverCopied, List.mem_cons, List.mem_singleton, List.not_mem_nil, or_false,
        not_or]
      refine ⟨?_, ?_, ?_, ?_, hp.2, hp.1⟩
      · intro hc; exact h1 (by rw [← f (by rw [hc]; decide), hc])
      · intro hc; exact h2 (by rw [← f (by rw [hc]; decide), hc])
      · intro hc; exact h3 (by rw [← f (by rw [hc]; decide), hc])
      · intro hc; exact h4 (by rw [← f (by rw [hc]; decide), hc])
    · rw [token_pass h1 h2 h3 h4 hp.1 hp.2, e, hlen]
    · rw [← hlen, ← e]
      exact (List.take_append_drop _ _).symm
  · right
    rw [token_hex h1 h2 h3 h4 (hex_branch hp)]
    exact ⟨rfl, by simp⟩

theorem token_length (b : Nat) (t : List Nat) :
    (token (b :: t)).2 ≤ (token (b :: t)).1.length ∧
    (token (b :: t)).1.length ≤ 4 * (token (b :: t)).2 := by
  rcases token_class b t with ⟨r, _, _, e, _⟩ | ⟨e, hm⟩
  · rw [e]; simp only []; omega
  · rw [e]
    simp only [List.mem_cons, List.mem_singleton, List.not_mem_nil, or_false] at hm
    rcases hm with h | h | h | h <;> rw [h] <;> simp [lit, fmtHex]

theorem escape_length (n : Nat) : ∀ data : List Nat, data.length ≤ n →
    data.length ≤ (escape data).length ∧ (escape data).length ≤ 4 * data.length := by
  induction n with
  | zero =>
    intro data h
    have : data = [] := List.length_eq_zero.mp (by omega)
    subst this; rw [escape_nil]; simp
  | succ n ih =>
    intro data h
    match data with
    | [] => rw [escape_nil]; simp
    | b :: t =>
      have ha := token_adv b t
      have hl := token_length b t
      have := ih ((b :: t).drop (token (b :: t)).2)
        (by simp only [List.length_drop, List.length_cons] at h ⊢; omega)
      rw [escape_cons, List.length_append]
      simp only [List.length_drop, List.length_cons] at this ⊢
      omega

theorem escape_enc_copied (c : Nat) (rest : List Nat) (hs : isScalar c)
    (h : c ∉ neverCopied) : escape (utf8Enc c ++ rest) = utf8Enc c ++ escape rest := by
  simp only [neverCopied, List.mem_cons, List.mem_singleton, not_or, List.not_mem_nil,
    not_false_eq_true, and_true] at h
  obtain ⟨c1, c2, c3, c4, c5, c6⟩ := h
  have hd := enc_decode c rest hs
  obtain ⟨p0, t, e1, f1, f2⟩ := utf8Enc_head c
  have hp : p0 ≠ 92 ∧ p0 ≠ 34 ∧ p0 ≠ 10 ∧ p0 ≠ 0 := by
    by_cases hc : c < 0x80
    · rw [f1 hc]; exact ⟨c1, c2, c3, c4⟩
    · have := f2 (by omega); omega
  have ht : token (utf8Enc c ++ rest) = (utf8Enc c, (utf8Enc c).length) := by
    rw [e1] at hd ⊢
    rw [List.cons_append] at hd ⊢
    rw [token_pass hp.1 hp.2.1 hp.2.2.1 hp.2.2.2 (by rw [hd]; exact c6) (by rw [hd]; exact c5),
      hd]
    simp only [Prod.mk.injEq, and_true]
    show List.take _ ((p0 :: t) ++ rest) = _
    rw [List.take_left']
    rfl
  have e2 : utf8Enc c ++ rest = p0 :: (t ++ rest) := by rw [e1]; rfl
  rw [e2, escape_cons, ← e2, ht]
  simp only [List.drop_left]

theorem escape_plain {data : List Nat} (h : plainText data) : escape data = data := by
  obtain ⟨cs, hcs, rfl⟩ := h
  induction cs with
  | nil => exact escape_nil
  | cons c cs ih =>
    rw [List.flatMap_cons, escape_enc_copied c _ (hcs c (List.mem_cons_self _ _)).1
      (hcs c (List.mem_cons_self _ _)).2, ih (fun x hx => hcs x (List.mem_cons_of_mem _ hx))]

theorem escape_longer (n : Nat) : ∀ data : List Nat, data.length ≤ n → ¬ plainText data →
    data.length < (escape data).length := by
  induction n with
  | zero =>
    intro data h hn
    have : data = [] := List.length_eq_zero.mp (by omega)
    subst this
    exact absurd ⟨[], by simp, rfl⟩ hn
  | succ n ih =>
    intro data h hn
    match data with
    | [] => exact absurd ⟨[], by simp, rfl⟩ hn
    | b :: t =>
      have ha := token_adv b t
      have hrest : ((b :: t).drop (token (b :: t)).2).length ≤ n := by
        simp only [List.length_drop, List.length_cons] at h ⊢; omega
      have hge := (escape_length n _ hrest).1
      rw [escape_cons, List.length_append]
      rcases token_class b t with ⟨r, hs, hr, e, hd, _⟩ | ⟨e, hm⟩
      · have hnp : ¬ plainText ((b :: t).drop (token (b :: t)).2) := by
          rintro ⟨cs, hcs, ecs⟩
          apply hn
          refine ⟨r :: cs, ?_, ?_⟩
          · intro x hx
            rcases List.mem_cons.mp hx with rfl | hx
            · exact ⟨hs, hr⟩
            · exact hcs x hx
          · rw [List.flatMap_cons, ← ecs, e]; exact hd
        have := ih _ hrest hnp
        rw [e] at this ⊢
        simp only [List.length_drop, List.length_cons] at this ⊢
        have := utf8Enc_length r
        omega
      · have hl : 2 ≤ (token (b :: t)).1.length := by
          simp only [List.mem_cons, List.mem_singleton, List.not_mem_nil, or_false] at hm
          rcases hm with h | h | h | h <;> rw [h] <;> simp [lit, fmtHex]
        rw [e] at hge ⊢
        simp only [List.length_drop, List.length_cons] at hge ⊢
        omega

theorem unquote_escape_append (tail y : List Nat) (m : Nat)
    (ht : ∀ fuel, m ≤ fuel → unquoteFuel fuel tail = some y) (n : Nat) :
    ∀ data : List Nat, data.length ≤ n → isBytes data →
    ∀ fuel, m + (escape data).length ≤ fuel →
      unquoteFuel fuel (escape data ++ tail) = some (data ++ y) := by
  induction n with
  | zero =>
    intro data h _ fuel hf
    have : data = [] := List.length_eq_zero.mp (by omega)
    subst this
    rw [escape_nil] at hf ⊢
    exact ht fuel (by simpa using hf)
  | succ n ih =>
    intro data h hb fuel hf
    match data with
    | [] =>
      rw [escape_nil] at hf ⊢
      exact ht fuel (by simpa using hf)
    | b :: t =>
      have hb0 : b < 256 := hb b (List.mem_cons_self _ _)
      have hbt : isBytes t := fun x hx => hb x (List.mem_cons_of_mem _ hx)
      have hlt : t.length ≤ n := by simp only [List.length_cons] at h; omega
      have one : ∀ tok : List Nat, token (b :: t) = (tok, 1) → 0 < tok.length →
          (∀ f r, unquoteFuel (f + 1) (tok ++ r) = (unquoteFuel f r).map (b :: ·)) →
          unquoteFuel fuel (escape (b :: t) ++ tail) = some (b :: t ++ y) := by
        intro tok htk hl hu
        have e : escape (b :: t) = tok ++ escape t := by rw [escape_cons, htk]; rfl
        rw [e] at hf ⊢
        rw [List.length_append] at hf
        obtain ⟨f, rfl⟩ : ∃ f, fuel = f + 1 := ⟨fuel - 1, by omega⟩
        rw [List.append_assoc, hu f, ih t hlt hbt f (by omega)]; rfl
      by_cases h1 : b = 92
      · subst h1; exact one (lit "\\\\") rfl (by decide) (fun f r => unquote_backslash f r)
      by_cases h2 : b = 34
      · subst h2; exact one (lit "\\\"") rfl (by decide) (fun f r => unquote_quote f r)
      by_cases h3 : b = 10
      · subst h3; exact one (lit "\\n") rfl (by decide) (fun f r => unquote_newline f r)
      by_cases h4 : b = 0
      · subst h4; exact one (fmtHex 0) rfl (by decide) (fun f r => unquote_hex f 0 r hb0)
      by_cases hp : (DecodeRune (b :: t)).1 ≠ RuneError ∧ (DecodeRune (b :: t)).1 ≠ byteOrderMark
      · have htk := token_pass h1 h2 h3 h4 hp.1 hp.2
        have hs := DecodeRune_size b t
        obtain ⟨_, _, f0⟩ := pass_token_proj hp.1
        have hz : (DecodeRune (b :: t)).1 ≠ 0 := fun hc =>
          h4 (by rw [← f0 (by rw [hc]; decide), hc])
        obtain ⟨k, hk⟩ : ∃ k, (DecodeRune (b :: t)).2 = k + 1 :=
          ⟨(DecodeRune (b :: t)).2 - 1, by omega⟩
        have etok : (b :: t).take (DecodeRune (b :: t)).2 = b :: t.take k := by rw [hk]; rfl
        have elen : (t.take k).length = k := by
          rw [List.length_take]; omega
        have e : escape (b :: t) ++ tail = b :: (t.take k ++ (escape (t.drop k) ++ tail)) := by
          rw [escape_cons, htk]
          simp only []
          rw [etok, hk]
          simp only [List.drop_succ_cons, List.cons_append, List.append_assoc]
        have el : (escape (b :: t)).length = k + 1 + (escape (t.drop k)).length := by
          rw [escape_cons, htk]
          simp only []
          rw [etok, hk]
          simp only [List.drop_succ_cons, List.length_append, List.length_cons, elen]
        have hdec : DecodeRune (b :: (t.take k ++ (escape (t.drop k) ++ tail)))
            = DecodeRune (b :: t) := by
          have := DecodeRune_take (b :: t) (escape (t.drop k) ++ tail) hp.1
          rw [etok] at this; exact this
        rw [e]
        rw [el] at hf
        obtain ⟨f, rfl⟩ : ∃ f, fuel = f + 1 := ⟨fuel - 1, by omega⟩
        rw [unquote_pass f b _ h1 h2 h3 (by rw [hdec]; intro hc; exact hp.1 (by rw [hc]))
          (by rw [hdec]; exact hz) (by rw [hdec]; exact hp.2), hdec, hk]
        have e1 : (b :: (t.take k ++ (escape (t.drop k) ++ tail))).drop (k + 1)
            = escape (t.drop k) ++ tail := by
          show (t.take k ++ (escape (t.drop k) ++ tail)).drop k = _
          rw [List.drop_left']; exact elen
        have e2 : (b :: (t.take k ++ (escape (t.drop k) ++ tail))).take (k + 1)
            = b :: t.take k := by
          show b :: (t.take k ++ (escape (t.drop k) ++ tail)).take k = _
          rw [List.take_left']; exact elen
        rw [e1, e2, ih (t.drop k) (by rw [List.length_drop]; omega) (isBytes_drop hbt k) f
          (by omega)]
        simp only [Option.map_some', List.cons_append, Option.some.injEq, List.cons.injEq,
          true_and]
        rw [← List.append_assoc, List.take_append_drop]
      · exact one (fmtHex b) (token_hex h1 h2 h3 h4 (hex_branch hp)) (by simp [fmtHex])
          (fun f r => unquote_hex f b r hb0)

theorem unquote_chunks : ∀ chunks : List (List Nat), (∀ c ∈ chunks, isBytes c) →
    ∀ fuel, ((chunks.map escape).flatten).length ≤ fuel →
      unquoteFuel fuel ((chunks.map escape).flatten) = some chunks.flatten := by
  intro chunks
  induction chunks with
  | nil => intro _ fuel _; cases fuel <;> rfl
  | cons c cs ih =>
    intro h fuel hf
    simp only [List.map_cons, List.flatten_cons, List.length_append] at hf ⊢
    exact unquote_escape_append _ _ ((cs.map escape).flatten).length
      (fun f hfl => ih (fun x hx => h x (List.mem_cons_of_mem _ hx)) f hfl) c.length c
      (Nat.le_refl _) (h c (List.mem_cons_self _ _)) fuel (by omega)

theorem escaped_ascii {b : Nat} (hb : b < 256) {tok : List Nat}
    (hm : tok ∈ [lit "\\\\", lit "\\\"", lit "\\n", fmtHex b]) :
    ∀ x ∈ tok, 0 < x ∧ x < 0x80 := by
  simp only [List.mem_cons, List.mem_singleton, List.not_mem_nil, or_false] at hm
  rcases hm with h | h | h | h
  · subst h; decide
  · subst h; decide
  · subst h; decide
  · subst h
    have h1 := hexDigit_lower (show b / 16 < 16 by omega)
    have h2 := hexDigit_lower (show b % 16 < 16 by omega)
    unfold isHexLower at h1 h2
    intro x hx
    simp only [fmtHex, List.mem_cons, List.mem_singleton, List.not_mem_nil, or_false] at hx
    rcases hx with rfl | rfl | rfl | rfl <;> omega

theorem escape_sourceTokens (n : Nat) : ∀ (cur pre : List Nat), cur.length ≤ n →
    isBytes cur → ∃ toks : List (List Nat), escape cur = toks.flatten ∧
      ∀ t ∈ toks, sourceToken (pre ++ cur) t := by
  induction n with
  | zero =>
    intro cur pre h _
    have : cur = [] := List.length_eq_zero.mp (by omega)
    subst this
    exact ⟨[], by rw [escape_nil]; rfl, by simp⟩
  | succ n ih =>
    intro cur pre h hb
    match cur with
    | [] => exact ⟨[], by rw [escape_nil]; rfl, by simp⟩
    | b :: t =>
      have ha := token_adv b t
      have hsplit : pre ++ (b :: t)
          = (pre ++ (b :: t).take (token (b :: t)).2) ++ (b :: t).drop (token (b :: t)).2 := by
        rw [List.append_assoc, List.take_append_drop]
      obtain ⟨toks, e, ht⟩ := ih ((b :: t).drop (token (b :: t)).2)
        (pre ++ (b :: t).take (token (b :: t)).2)
        (by simp only [List.length_drop, List.length_cons] at h ⊢; omega) (isBytes_drop hb _)
      rw [← hsplit] at ht
      refine ⟨(token (b :: t)).1 :: toks, by rw [escape_cons, e]; rfl, ?_⟩
      intro x hx
      rcases List.mem_cons.mp hx with rfl | hx
      · rcases token_class b t with ⟨r, hs, hr, e1, hd, hlt⟩ | ⟨_, hm⟩
        · rw [e1]
          simp only [neverCopied, List.mem_cons, List.mem_singleton, List.not_mem_nil,
            or_false, not_or] at hr
          by_cases hr0 : r < 0x80
          · left
            have : utf8Enc r = [r] := by unfold utf8Enc; rw [if_pos hr0]
            rw [this]
            intro y hy
            rw [List.mem_singleton.mp hy]
            omega
          · right
            refine ⟨r, pre, (b :: t).drop (utf8Enc r).length, hs, by omega, hr.2.2.2.2.1, rfl, ?_⟩
            rw [List.append_assoc, ← hd]
        · exact Or.inl (escaped_ascii (hb b (List.mem_cons_self _ _)) hm)
      · exact ht x hx

theorem flatMap_enc_ascii : ∀ t : List Nat, (∀ x ∈ t, x < 0x80) → t.flatMap utf8Enc = t := by
  intro t
  induction t with
  | nil => intro _; rfl
  | cons x t ih =>
    intro h
    have hx := h x (List.mem_cons_self _ _)
    have : utf8Enc x = [x] := by unfold utf8Enc; rw [if_pos hx]
    rw [List.flatMap_cons, this, ih (fun y hy => h y (List.mem_cons_of_mem _ hy))]
    rfl

theorem sourceToken_runes {data t : List Nat} (h : sourceToken data t) :
    (∃ cs : List Nat, (∀ c ∈ cs, isScalar c ∧ c ≠ 0 ∧ c ≠ 0xFEFF) ∧ t = cs.flatMap utf8Enc) ∧
    0 ∉ t := by
  rcases h with h | ⟨c, _, _, hs, hc, hm, rfl, _⟩
  · refine ⟨⟨t, fun c hc => ?_, (flatMap_enc_ascii t (fun x hx => (h x hx).2)).symm⟩, ?_⟩
    · have := h c hc
      exact ⟨Or.inl (by omega), by omega, by omega⟩
    · intro h0; have := h 0 h0; omega
  · refine ⟨⟨[c], fun x hx => ?_, by simp⟩, ?_⟩
    · rw [List.mem_singleton.mp hx]; exact ⟨hs, by omega, hm⟩
    · intro h0; have := utf8Enc_mem h0; omega

theorem tokens_runes (data : List Nat) : ∀ toks : List (List Nat),
    (∀ t ∈ toks, sourceToken data t) →
    (∃ cs : List Nat, (∀ c ∈ cs, isScalar c ∧ c ≠ 0 ∧ c ≠ 0xFEFF) ∧
      toks.flatten = cs.flatMap utf8Enc) ∧ 0 ∉ toks.flatten := by
  intro toks
  induction toks with
  | nil => intro _; exact ⟨⟨[], by simp, rfl⟩, by simp⟩
  | cons t toks ih =>
    intro h
    obtain ⟨⟨cs1, h1, e1⟩, z1⟩ := sourceToken_runes (h t (List.mem_cons_self _ _))
    obtain ⟨⟨cs2, h2, e2⟩, z2⟩ := ih (fun x hx => h x (List.mem_cons_of_mem _ hx))
    refine ⟨⟨cs1 ++ cs2, ?_, ?_⟩, ?_⟩
    · intro c hc
      rcases List.mem_append.mp hc with hc | hc
      · exact h1 c hc
      · exact h2 c hc
    · rw [List.flatten_cons, List.flatMap_append, ← e1, ← e2]
    · rw [List.flatten_cons]
      intro h0
      rcases List.mem_append.mp h0 with h0 | h0
      · exact z1 h0
      · exact z2 h0

/-! ## Properties of the specification, C1 to C20 -/

/-- C1: for every byte sequence, the output of one `Write`, read as the
body of a Go interpreted string literal, is the byte sequence itself. -/
theorem C1_round_trip (B : List Nat) (h : isBytes B) : unquote (escape B) = some B :=
  unquote_escape_aux B.length B (Nat.le_refl _) h _ (Nat.le_refl _)

/-- An instance of C1 with escapes, pass-through runes and invalid bytes. -/
theorem C1_round_trip_witness :
    isBytes [0, 10, 0xFF, 0xE2, 0x82, 0xAC, 92, 34, 0xEF, 0xBB, 0xBF, 0xEF, 0xBF, 0xBD, 65] ∧
    unquote (escape [0, 10, 0xFF, 0xE2, 0x82, 0xAC, 92, 34, 0xEF, 0xBB, 0xBF, 0xEF, 0xBF, 0xBD, 65])
      = some [0, 10, 0xFF, 0xE2, 0x82, 0xAC, 92, 34, 0xEF, 0xBB, 0xBF, 0xEF, 0xBF, 0xBD, 65] :=
  ⟨by decide, C1_round_trip _ (by decide)⟩

/-- C2: into a sink that never fails, `escapeWriter.Write` returns
`(len(data), nil)` within its `len(data)` units of fuel; every iteration of
its loop advances by at least one byte, and the advances add up to
`len(data)`. -/
theorem C2_write_consumes_input {σ : Type} (W : Writer σ)
    (hW : ∀ s p, (W.write s p).2 = none) (s : σ) (data : List Nat) :
    (∃ s', escapeWriter.Write W s data = some (s', data.length, none)) ∧
    (∀ k ∈ advances W data.length ⟨s, data, none⟩, 1 ≤ k) ∧
    (advances W data.length ⟨s, data, none⟩).sum = data.length := by
  obtain ⟨⟨s', e⟩, h1, h2⟩ := loop_total W hW data.length data s (Nat.le_refl _)
  exact ⟨⟨s', by simp [escapeWriter.Write, e]⟩, h1, h2⟩

/-- An instance of C2: the appending sink never fails. -/
theorem C2_write_consumes_input_witness :
    (∀ s p, (bufWriter.write s p).2 = none) ∧
    (∃ s', escapeWriter.Write bufWriter [] [65, 0xC3, 0xA9, 0xFF] = some (s', 4, none)) ∧
    (∀ k ∈ advances bufWriter 4 ⟨[], [65, 0xC3, 0xA9, 0xFF], none⟩, 1 ≤ k) ∧
    (advances bufWriter 4 ⟨[], [65, 0xC3, 0xA9, 0xFF], none⟩).sum = 4 :=
  ⟨fun _ _ => rfl, C2_write_consumes_input bufWriter (fun _ _ => rfl) [] [65, 0xC3, 0xA9, 0xFF]⟩

/-- C3: the output of one `Write` is a concatenation of tokens, each one of
the escapes `\\`, `\"`, `\n`, `\xHH` or the bytes of a passed-through code
point that is none of backslash, double quote and newline; no token holds
the byte 0x0A, a token that holds a double quote is the escape `\"`, a
token that holds a backslash is one of the escapes; the byte 0x0A does not
occur in the output. -/
theorem C3_no_bare_special (data : List Nat) (h : isBytes data) :
    (∃ toks : List (List Nat), escape data = toks.flatten ∧
      ∀ t ∈ toks, (isEscapeToken t ∨ isPassToken t) ∧ 10 ∉ t ∧
        (34 ∈ t → t = lit "\\\"") ∧ (92 ∈ t → isEscapeToken t)) ∧
    10 ∉ escape data := by
  obtain ⟨toks, e, ht⟩ := escape_tokens data.length data (Nat.le_refl _) h
  have all : ∀ t ∈ toks, (isEscapeToken t ∨ isPassToken t) ∧ 10 ∉ t ∧
      (34 ∈ t → t = lit "\\\"") ∧ (92 ∈ t → isEscapeToken t) := by
    intro t hm
    rcases ht t hm with he | hp
    · exact ⟨Or.inl he, (escapeToken_bytes he).1, (escapeToken_bytes he).2, fun _ => he⟩
    · have := passToken_bytes hp
      exact ⟨Or.inr hp, this.1, fun h34 => absurd h34 this.2.1, fun h92 => absurd h92 this.2.2⟩
  refine ⟨⟨toks, e, all⟩, ?_⟩
  rw [e]
  intro hm
  obtain ⟨t, ht1, ht2⟩ := List.mem_flatten.mp hm
  exact (all t ht1).2.1 ht2

/-- An instance of C3 on an input holding every kind of step. -/
theorem C3_no_bare_special_witness :
    isBytes [92, 34, 10, 0, 0xC3, 0xA9, 0xC3, 65] ∧
    (∃ toks : List (List Nat), escape [92, 34, 10, 0, 0xC3, 0xA9, 0xC3, 65] = toks.flatten ∧
      ∀ t ∈ toks, (isEscapeToken t ∨ isPassToken t) ∧ 10 ∉ t ∧
        (34 ∈ t → t = lit "\\\"") ∧ (92 ∈ t → isEscapeToken t)) ∧
    10 ∉ escape [92, 34, 10, 0, 0xC3, 0xA9, 0xC3, 65] :=
  ⟨by decide, C3_no_bare_special _ (by decide)⟩

/-- C4: on input made of ASCII bytes only, the output of one `Write` is the
input with backslash, double quote, newline and NUL replaced by their
escapes and every other byte copied; `A"\` gives `A\"\\`. -/
theorem C4_ascii_output (data : List Nat) (h : ∀ b ∈ data, b < 0x80) :
    escape data = data.flatMap asciiRule ∧ escape (lit "A\"\\") = lit "A\\\"\\\\" := by
  have main : ∀ d : List Nat, (∀ b ∈ d, b < 0x80) → escape d = d.flatMap asciiRule := by
    intro d
    induction d with
    | nil => intro _; rw [escape_nil]; rfl
    | cons b t ih =>
      intro hd
      rw [escape_ascii_cons t (hd b (List.mem_cons_self _ _)), List.flatMap_cons,
        ih (fun x hx => hd x (List.mem_cons_of_mem _ hx))]
  exact ⟨main data h, by decide⟩

/-- An instance of C4 on ASCII bytes that include the four escaped ones. -/
theorem C4_ascii_output_witness :
    (∀ b ∈ [0, 9, 10, 34, 65, 92, 127], b < 0x80) ∧
    escape [0, 9, 10, 34, 65, 92, 127] = [0, 9, 10, 34, 65, 92, 127].flatMap asciiRule ∧
    escape (lit "A\"\\") = lit "A\\\"\\\\" :=
  ⟨by decide, C4_ascii_output [0, 9, 10, 34, 65, 92, 127] (by decide)⟩

/-- C5: a byte-order mark is hex-escaped byte by byte wherever it stands:
`a ++ EF BB BF ++ b` gives the output of `a`, then `\xef\xbb\xbf`, then the
output of `b`; each of the three steps advances by one byte. -/
theorem C5_byte_order_mark (a b : List Nat) :
    escape (a ++ [0xEF, 0xBB, 0xBF] ++ b) = escape a ++ lit "\\xef\\xbb\\xbf" ++ escape b ∧
    token ([0xEF, 0xBB, 0xBF] ++ b) = (lit "\\xef", 1) ∧
    token ([0xBB, 0xBF] ++ b) = (lit "\\xbb", 1) ∧
    token ([0xBF] ++ b) = (lit "\\xbf", 1) := by
  have t1 : token (0xEF :: 0xBB :: 0xBF :: b) = (fmtHex 0xEF, 1) := token_bom b
  have d2 : DecodeRune (0xBB :: 0xBF :: b) = (RuneError, 1) :=
    decode_invalid_lead _ (Or.inl (by decide))
  have d3 : DecodeRune (0xBF :: b) = (RuneError, 1) :=
    decode_invalid_lead _ (Or.inl (by decide))
  have t2 : token (0xBB :: 0xBF :: b) = (fmtHex 0xBB, 1) :=
    token_hex (by decide) (by decide) (by decide) (by decide) (Or.inl (by rw [d2]))
  have t3 : token (0xBF :: b) = (fmtHex 0xBF, 1) :=
    token_hex (by decide) (by decide) (by decide) (by decide) (Or.inl (by rw [d3]))
  refine ⟨?_, t1, t2, t3⟩
  rw [List.append_assoc, escape_append_of_noContinuation a ([0xEF, 0xBB, 0xBF] ++ b)
    (by simp [noContinuationHead])]
  show escape a ++ escape (0xEF :: 0xBB :: 0xBF :: b) = _
  rw [escape_cons, t1]
  show escape a ++ (fmtHex 0xEF ++ escape (0xBB :: 0xBF :: b)) = _
  rw [escape_cons, t2]
  show escape a ++ (fmtHex 0xEF ++ (fmtHex 0xBB ++ escape (0xBF :: b))) = _
  rw [escape_cons, t3]
  show escape a ++ (fmtHex 0xEF ++ (fmtHex 0xBB ++ (fmtHex 0xBF ++ escape b))) = _
  have e : lit "\\xef\\xbb\\xbf" = fmtHex 0xEF ++ (fmtHex 0xBB ++ fmtHex 0xBF) := by decide
  rw [e]; simp only [List.append_assoc]

/-- C6: where the byte at the current position does not start the UTF-8
encoding of any scalar value, the step emits `\x` and the two lowercase
hexadecimal digits of that byte and advances by exactly one byte. -/
theorem C6_invalid_byte_hex_escaped (b : Nat) (t : List Nat) (hb : b < 256)
    (h : ¬ startsValid (b :: t)) :
    token (b :: t) = (fmtHex b, 1) ∧
    escape (b :: t) = fmtHex b ++ escape t ∧
    ∃ hi lo, hi < 16 ∧ lo < 16 ∧ b = 16 * hi + lo ∧
      fmtHex b = lit "\\x" ++
        [(lit "0123456789abcdef").getD hi 0, (lit "0123456789abcdef").getD lo 0] := by
  have hn : ¬ b < 0x80 := fun hlt => h (startsValid_ascii t hlt)
  have hd : DecodeRune (b :: t) = (RuneError, 1) := by
    by_contra hne
    obtain ⟨hs, rest, e⟩ := decode_enc b t hne
    exact h ⟨_, rest, hs, e⟩
  have ht : token (b :: t) = (fmtHex b, 1) :=
    token_hex (by omega) (by omega) (by omega) (by omega) (Or.inl (by rw [hd]))
  refine ⟨ht, by rw [escape_cons, ht]; rfl, b / 16, b % 16, by omega, by omega, by omega, ?_⟩
  have h1 : b / 16 < 16 := by omega
  have h2 : b % 16 < 16 := by omega
  have key : ∀ d, d < 16 → hexDigit d = (lit "0123456789abcdef").getD d 0 := by
    intro d hd; interval_cases d <;> rfl
  simp only [fmtHex, key _ h1, key _ h2]
  rfl

/-- An instance of C6: a stray continuation byte `A9` before `A`. -/
theorem C6_invalid_byte_hex_escaped_witness :
    (0xA9 < 256 ∧ ¬ startsValid [0xA9, 0x41]) ∧
    token [0xA9, 0x41] = (fmtHex 0xA9, 1) ∧
    escape [0xA9, 0x41] = fmtHex 0xA9 ++ escape [0x41] ∧
    ∃ hi lo, hi < 16 ∧ lo < 16 ∧ 0xA9 = 16 * hi + lo ∧
      fmtHex 0xA9 = lit "\\x" ++
        [(lit "0123456789abcdef").getD hi 0, (lit "0123456789abcdef").getD lo 0] :=
  have hv : ¬ startsValid [0xA9, 0x41] :=
    not_startsValid_of_decode (decode_invalid_lead _ (Or.inl (by decide)))
  ⟨⟨by decide, hv⟩, C6_invalid_byte_hex_escaped 0xA9 [0x41] (by decide) hv⟩

/-- C7 fails as stated: the valid encoding `EF BF BD` of U+FFFD, a code
point that is none of backslash, double quote, newline, NUL and U+FEFF, is
not passed through but hex-escaped byte by byte. -/
theorem C7_counterexample :
    isScalar 0xFFFD ∧ 0xFFFD ∉ [92, 34, 10, 0, 0xFEFF] ∧
    utf8Enc 0xFFFD = [0xEF, 0xBF, 0xBD] ∧
    escape (utf8Enc 0xFFFD ++ []) = lit "\\xef\\xbf\\xbd" ∧
    escape (utf8Enc 0xFFFD ++ []) ≠ utf8Enc 0xFFFD ++ escape [] := by
  decide

/-- C7, amended: the encoding of a scalar value other than backslash,
double quote, newline, NUL, U+FEFF and U+FFFD is consumed in one step and
copied unchanged, and the rest is escaped after it; U+00E9 (`C3 A9`) comes
out as the same bytes.  The encoding `EF BF BD` of U+FFFD is hex-escaped
byte by byte, whatever follows it. -/
theorem C7_pass_through (c : Nat) (rest : List Nat) (hs : isScalar c)
    (h : c ∉ [92, 34, 10, 0, 0xFEFF, 0xFFFD]) :
    token (utf8Enc c ++ rest) = (utf8Enc c, (utf8Enc c).length) ∧
    escape (utf8Enc c ++ rest) = utf8Enc c ++ escape rest ∧
    escape (utf8Enc 0xE9) = utf8Enc 0xE9 ∧
    escape (utf8Enc 0xFFFD ++ rest) = lit "\\xef\\xbf\\xbd" ++ escape rest := by
  simp only [List.mem_cons, List.mem_singleton, not_or, List.not_mem_nil, not_false_eq_true,
    and_true] at h
  obtain ⟨c1, c2, c3, c4, c5, c6⟩ := h
  have hd := enc_decode c rest hs
  obtain ⟨p0, t, e1, f1, f2⟩ := utf8Enc_head c
  have hp : p0 ≠ 92 ∧ p0 ≠ 34 ∧ p0 ≠ 10 ∧ p0 ≠ 0 := by
    by_cases hc : c < 0x80
    · rw [f1 hc]; exact ⟨c1, c2, c3, c4⟩
    · have := f2 (by omega); omega
  have ht : token (utf8Enc c ++ rest) = (utf8Enc c, (utf8Enc c).length) := by
    rw [e1] at hd ⊢
    rw [List.cons_append] at hd ⊢
    rw [token_pass hp.1 hp.2.1 hp.2.2.1 hp.2.2.2 (by rw [hd]; exact c6) (by rw [hd]; exact c5),
      hd]
    simp only [Prod.mk.injEq, and_true]
    show List.take _ ((p0 :: t) ++ rest) = _
    rw [List.take_left']
    rfl
  refine ⟨ht, ?_, by decide, escape_replacement rest⟩
  have e2 : utf8Enc c ++ rest = p0 :: (t ++ rest) := by rw [e1]; rfl
  rw [e2, escape_cons, ← e2, ht]
  simp only [List.drop_left]

/-- An instance of C7: U+00E9 followed by `A`. -/
theorem C7_pass_through_witness :
    (isScalar 0xE9 ∧ 0xE9 ∉ [92, 34, 10, 0, 0xFEFF, 0xFFFD]) ∧
    token (utf8Enc 0xE9 ++ [0x41]) = (utf8Enc 0xE9, (utf8Enc 0xE9).length) ∧
    escape (utf8Enc 0xE9 ++ [0x41]) = utf8Enc 0xE9 ++ escape [0x41] ∧
    escape (utf8Enc 0xE9) = utf8Enc 0xE9 ∧
    escape (utf8Enc 0xFFFD ++ [0x41]) = lit "\\xef\\xbf\\xbd" ++ escape [0x41] :=
  ⟨by decide, C7_pass_through 0xE9 [0x41] (by decide) (by decide)⟩

/-- C8 fails as stated: cut between the two bytes of U+00E9 (`C3 A9`), the
two `Write` calls emit `\xc3` and `\xa9`, eight bytes, where one call on
the whole stream passes the two bytes through. -/
theorem C8_counterexample :
    escape [0xC3] ++ escape [0xA9] ≠ escape ([0xC3] ++ [0xA9]) ∧
    (escapeWriter.Write bufWriter [] [0xC3]).bind
        (fun r => escapeWriter.Write bufWriter r.1 [0xA9])
      = some (lit "\\xc3\\xa9", 1, none) ∧
    escapeWriter.Write bufWriter [] ([0xC3] ++ [0xA9]) = some ([0xC3, 0xA9], 2, none) := by
  decide

/-- C8, amended: the outputs of two successive `Write` calls on `a` and on
`b` concatenate to the output of one call on `a ++ b` exactly when the cut
is a position that the loop of the one call reaches (after some number of
iterations exactly `b` is left), that is, when the cut does not fall inside
a code point that the one call passes through. -/
theorem C8_concat_iff_step_boundary (a b : List Nat) :
    escape a ++ escape b = escape (a ++ b) ↔
      ∃ k, ((loopBody bufWriter)^[k] ⟨[], a ++ b, none⟩).data = b := by
  constructor
  · intro e
    by_contra hn
    refine escape_append_ne b a.length a (Nat.le_refl _) ?_ e
    intro s k hk
    exact hn ⟨k, by rw [iterate_data_indep k [] s]; exact hk⟩
  · rintro ⟨k, hk⟩
    exact (escape_append_of_boundary b k a [] hk).symm

/-- C9 fails as stated: for a file of 4095 bytes `A` followed by U+00E9
(`C3 A9`), handed to `Write` in slices of 4096 bytes, `embedSingleFile`
writes `\xc3\xa9` after the run of `A`, not the two bytes that one `Write`
on the whole content emits. -/
theorem C9_counterexample :
    [List.replicate 4095 65 ++ [0xC3], [0xA9]].flatten = List.replicate 4095 65 ++ [0xC3, 0xA9] ∧
    embedSingleFile bufWriter splitFile (sampleConfig false true [lit "f"]) []
      = some (lit "var v = \"" ++ List.replicate 4095 65 ++ lit "\\xc3\\xa9" ++ lit "\"\n", none) ∧
    embedSingleFile bufWriter splitFile (sampleConfig false true [lit "f"]) []
      ≠ some (lit "var v = " ++ lit "\"" ++ escape (List.replicate 4095 65 ++ [0xC3, 0xA9])
          ++ lit "\"\n", none) := by
  have h := embedSingleFile_buf splitFile (sampleConfig false true [lit "f"]) [] (lit "f") [] rfl ⟨_, rfl⟩
  rw [payload_split] at h
  rw [h, escape_whole_split]
  have hb : dataBegin (sampleConfig false true [lit "f"]) = lit "\"" := rfl
  have he : dataEnd (sampleConfig false true [lit "f"]) = lit "\"\n" := rfl
  have hv : lit "var " ++ (sampleConfig false true [lit "f"]).Var ++ lit " = " = lit "var v = " := rfl
  rw [hb, he, hv]
  generalize List.replicate 4095 65 = A
  refine ⟨by simp, ?_, ?_⟩
  · have e : lit "var v = \"" = lit "var v = " ++ lit "\"" := rfl
    rw [e]; simp only [List.nil_append, List.append_assoc]
  · intro e
    simp only [List.nil_append, List.append_assoc, Option.some.injEq, Prod.mk.injEq,
      and_true] at e
    have e2 := List.append_cancel_left (List.append_cancel_left (List.append_cancel_left e))
    exact absurd e2 (by decide)

/-- C9, amended: with exactly one source, which opens and reads without
error, `embedSingleFile` writes exactly `var <name> = `, the opening
wrapper, the outputs of the `Write` calls that `io.Copy` makes (one per
chunk of the content), and the closing wrapper; the wrapper is `"` and `"`
newline when `strData` is set, `[]byte("` and `")` newline otherwise.  The
outputs of the calls are the output of one `Write` on the whole content when
every cut between chunks is a position that the loop of that `Write`
reaches, in particular when the content comes in one chunk. -/
theorem C9_single_file_output (fs : FileSystem) (c : configuration) (s : List Nat)
    (f : GoString) (chunks : List (List Nat)) (hsrc : c.Sources = [f])
    (hf : fs f = .ok ⟨chunks, none⟩) :
    embedSingleFile bufWriter fs c s =
      some (s ++ (lit "var " ++ c.Var ++ lit " = "
        ++ (if c.strData then lit "\"" else lit "[]byte(\"")
        ++ (chunks.map escape).flatten
        ++ (if c.strData then lit "\"\n" else lit "\")\n")), none) ∧
    (chunksAligned chunks → (chunks.map escape).flatten = escape chunks.flatten) ∧
    (∀ B, chunks = [B] → (chunks.map escape).flatten = escape B) := by
  refine ⟨?_, escape_chunks chunks, ?_⟩
  · rw [embedSingleFile_buf fs c s f [] hsrc ⟨chunks, hf⟩, dataBegin_eq, dataEnd_eq]
    simp only [payload, hf]
  · rintro B rfl; simp

/-- An instance of C9: a file that arrives in two chunks, raw-bytes wrapper. -/
theorem C9_single_file_output_witness :
    ((sampleConfig false false [lit "f"]).Sources = [lit "f"] ∧
      (fun _ => .ok ⟨[[65, 34], [0xC3, 0xA9]], none⟩ : FileSystem) (lit "f")
        = .ok ⟨[[65, 34], [0xC3, 0xA9]], none⟩) ∧
    embedSingleFile bufWriter (fun _ => .ok ⟨[[65, 34], [0xC3, 0xA9]], none⟩) (sampleConfig false false [lit "f"]) []
      = some ([] ++ (lit "var " ++ (sampleConfig false false [lit "f"]).Var ++ lit " = "
        ++ (if (sampleConfig false false [lit "f"]).strData then lit "\"" else lit "[]byte(\"")
        ++ ([[65, 34], [0xC3, 0xA9]].map escape).flatten
        ++ (if (sampleConfig false false [lit "f"]).strData then lit "\"\n" else lit "\")\n")), none) ∧
    (chunksAligned [[65, 34], [0xC3, 0xA9]] →
      ([[65, 34], [0xC3, 0xA9]].map escape).flatten = escape [[65, 34], [0xC3, 0xA9]].flatten) ∧
    (∀ B, [[65, 34], [0xC3, 0xA9]] = [B] →
      ([[65, 34], [0xC3, 0xA9]].map escape).flatten = escape B) :=
  ⟨⟨rfl, rfl⟩, C9_single_file_output (fun _ => .ok ⟨[[65, 34], [0xC3, 0xA9]], none⟩)
    (sampleConfig false false [lit "f"]) [] (lit "f") [[65, 34], [0xC3, 0xA9]] rfl rfl⟩

/-- C10 fails as stated: for the one source of 4095 bytes `A` followed by
U+00E9 (`C3 A9`), handed to `Write` in slices of 4096 bytes,
`embedMultipleFiles` writes `\\xc3\\xa9` after the run of `A`, not the two
bytes that one `Write` on the whole content emits. -/
theorem C10_counterexample :
    embedMultipleFiles bufWriter splitFile (sampleConfig true true [lit "f"]) []
      = some (lit "var (\n\tv_0 = \"" ++ List.replicate 4095 65 ++ lit "\\xc3\\xa9"
          ++ lit "\"\n)\n", none) ∧
    embedMultipleFiles bufWriter splitFile (sampleConfig true true [lit "f"]) []
      ≠ some (lit "var (\n" ++ (lit "\t" ++ lit "v_0 = " ++ lit "\""
          ++ escape (List.replicate 4095 65 ++ [0xC3, 0xA9]) ++ lit "\"\n") ++ lit ")\n", none) := by
  have h := embedMultipleFiles_buf splitFile (sampleConfig true true [lit "f"]) []
    (by decide) (fun f _ => ⟨_, rfl⟩)
  have hs : (sampleConfig true true [lit "f"]).Sources.enum = [(0, lit "f")] := rfl
  rw [hs, List.map_cons, List.map_nil, List.flatten_cons, List.flatten_nil, payload_split] at h
  rw [h, escape_whole_split]
  have hb : dataBegin (sampleConfig true true [lit "f"]) = lit "\"" := rfl
  have he : dataEnd (sampleConfig true true [lit "f"]) = lit "\"\n" := rfl
  have hv : lit "\t" ++ (sampleConfig true true [lit "f"]).Var ++ lit "_" ++ fmtInt 0 ++ lit " = "
      = lit "\tv_0 = " := rfl
  simp only [hb, he, hv]
  generalize List.replicate 4095 65 = A
  constructor
  · have e : lit "var (\n\tv_0 = \"" = lit "var (\n" ++ (lit "\tv_0 = " ++ lit "\"") := rfl
    have e2 : lit "\"\n)\n" = lit "\"\n" ++ lit ")\n" := rfl
    rw [e, e2]; simp only [List.nil_append, List.append_assoc, List.append_nil]
  · intro e
    have e3 : lit "\t" ++ lit "v_0 = " = lit "\tv_0 = " := rfl
    rw [e3] at e
    simp only [List.nil_append, List.append_assoc, List.append_nil, Option.some.injEq,
      Prod.mk.injEq, and_true] at e
    have e2 := List.append_cancel_left (List.append_cancel_left (List.append_cancel_left
      (List.append_cancel_left e)))
    exact absurd e2 (by decide)

/-- C10, amended: with at least one source, all of which open and read
without error, `embedMultipleFiles` writes exactly `var (` newline, then for
each source in the given order one line: a tab, `<name>_<i> = ` with `i` the
position in decimal, the opening wrapper, the outputs of the `Write` calls
that `io.Copy` makes for that file (one per chunk), the closing wrapper (the
same wrapper as in single mode); then `)` newline.  The payload of a file
is the output of one `Write` on its whole content when every cut between
its chunks is a position that the loop of that `Write` reaches. -/
theorem C10_multi_file_output (fs : FileSystem) (c : configuration) (s : List Nat)
    (hne : c.Sources ≠ []) (hr : ∀ f ∈ c.Sources, readable fs f) :
    embedMultipleFiles bufWriter fs c s =
      some (s ++ (lit "var (\n" ++ (c.Sources.enum.map fun p =>
        lit "\t" ++ c.Var ++ lit "_" ++ lit (toString p.1) ++ lit " = "
          ++ (if c.strData then lit "\"" else lit "[]byte(\"")
          ++ payload fs p.2
          ++ (if c.strData then lit "\"\n" else lit "\")\n")).flatten ++ lit ")\n"), none) ∧
    (c.Sources.enum.map fun p => p.1) = List.range c.Sources.length ∧
    (∀ f ∈ c.Sources, ∀ chunks, fs f = .ok ⟨chunks, none⟩ →
      payload fs f = (chunks.map escape).flatten ∧
      (chunksAligned chunks → payload fs f = escape chunks.flatten)) := by
  refine ⟨?_, ?_, ?_⟩
  · rw [embedMultipleFiles_buf fs c s hne hr, dataBegin_eq, dataEnd_eq]; rfl
  · rw [List.enum_map_fst]
  · intro f _ chunks hf
    have e : payload fs f = (chunks.map escape).flatten := by simp only [payload, hf]
    exact ⟨e, fun ha => by rw [e, escape_chunks chunks ha]⟩

/-- An instance of C10: two sources, raw-bytes wrapper. -/
theorem C10_multi_file_output_witness :
    ((sampleConfig true false [lit "a", lit "b"]).Sources ≠ [] ∧
      ∀ f ∈ (sampleConfig true false [lit "a", lit "b"]).Sources,
        readable (fun _ => .ok ⟨[[65, 34], [0xC3, 0xA9]], none⟩) f) ∧
    embedMultipleFiles bufWriter (fun _ => .ok ⟨[[65, 34], [0xC3, 0xA9]], none⟩)
        (sampleConfig true false [lit "a", lit "b"]) []
      = some (lit "var (\n\tv_0 = []byte(\"A\\\"" ++ [0xC3, 0xA9]
          ++ lit "\")\n\tv_1 = []byte(\"A\\\"" ++ [0xC3, 0xA9] ++ lit "\")\n)\n", none) :=
  ⟨⟨by decide, fun _ _ => ⟨_, rfl⟩⟩,
    (C10_multi_file_output (fun _ => .ok ⟨[[65, 34], [0xC3, 0xA9]], none⟩)
      (sampleConfig true false [lit "a", lit "b"]) [] (by decide)
      (fun _ _ => ⟨_, rfl⟩)).1.trans (by decide)⟩

/-- C11: with `/` as the separator and flatten off, `Key(f)` is the quoted
literal of what follows the prefix `external/<ws>/` when `f` starts with it
(the prefix is removed once) and of `f` itself otherwise; with workspace
`ws`, `external/ws/a/b.txt` gives `"a/b.txt"` and `external/ws/c.txt` gives
`"c.txt"`. -/
theorem C11_key_flatten_off (h : Host) (c : configuration) (f : GoString)
    (hs : h.separator = 47) (hf : c.flatten = false) :
    (∀ rest, f = lit "external/" ++ c.workspace ++ lit "/" ++ rest →
      c.Key h f = Quote h rest) ∧
    ((¬ ∃ rest, f = lit "external/" ++ c.workspace ++ lit "/" ++ rest) →
      c.Key h f = Quote h f) ∧
    (c.workspace = lit "ws" →
      c.Key h (lit "external/ws/a/b.txt") = lit "\"a/b.txt\"" ∧
      c.Key h (lit "external/ws/c.txt") = lit "\"c.txt\"") := by
  refine ⟨?_, ?_, ?_⟩
  · rintro rest rfl
    rw [Key_flatten_off h c _ hs hf, TrimPrefix_append]
  · intro hn
    rw [Key_flatten_off h c _ hs hf, TrimPrefix_of_not hn]
  · intro hw
    rw [Key_flatten_off h c _ hs hf, Key_flatten_off h c _ hs hf, hw]
    have e1 : TrimPrefix (lit "external/ws/a/b.txt") (lit "external/" ++ lit "ws" ++ lit "/")
        = lit "a/b.txt" := by decide
    have e2 : TrimPrefix (lit "external/ws/c.txt") (lit "external/" ++ lit "ws" ++ lit "/")
        = lit "c.txt" := by decide
    rw [e1, e2, Quote_plain h _ (by decide), Quote_plain h _ (by decide)]
    exact ⟨by decide, by decide⟩

/-- An instance of C11: `external/ws/a/b.txt` under workspace `ws`. -/
theorem C11_key_flatten_off_witness :
    (slashHost.separator = 47 ∧ (wsConfig false []).flatten = false) ∧
    (∀ rest, lit "external/ws/a/b.txt"
        = lit "external/" ++ (wsConfig false []).workspace ++ lit "/" ++ rest →
      (wsConfig false []).Key slashHost (lit "external/ws/a/b.txt") = Quote slashHost rest) ∧
    (wsConfig false []).Key slashHost (lit "external/ws/a/b.txt") = lit "\"a/b.txt\"" :=
  ⟨⟨rfl, rfl⟩,
    (C11_key_flatten_off slashHost (wsConfig false []) (lit "external/ws/a/b.txt") rfl rfl).1,
    by decide⟩

/-- C12 fails as stated: with workspace `ws` and flatten on, the file name
`external/ws/` gives the key `"ws"`, the base name of the file name itself;
the path left after stripping the prefix is empty and its base name is `.`. -/
theorem C12_counterexample :
    (wsConfig true []).Key slashHost (lit "external/ws/") = lit "\"ws\"" ∧
    TrimPrefix (lit "external/ws/") (lit "external/" ++ (wsConfig true []).workspace ++ lit "/")
      = [] ∧
    (wsConfig true []).Key slashHost (lit "external/ws/")
      ≠ Quote slashHost (Base (TrimPrefix (lit "external/ws/")
          (lit "external/" ++ (wsConfig true []).workspace ++ lit "/"))) := by
  decide

/-- C12, amended: with flatten on, `Key(f)` is the quoted literal of the
base name of `f` itself (`path.Base(filename)`); this is the base name of
the path that remains after the prefix `external/<ws>/` has been stripped
whenever that path has a byte other than `/`.  With workspace `ws`,
`external/ws/a/b.txt` gives `"b.txt"` and `external/ws/c.txt` gives
`"c.txt"`. -/
theorem C12_key_flatten_on (h : Host) (c : configuration) (f : GoString)
    (hf : c.flatten = true) :
    c.Key h f = Quote h (Base f) ∧
    ((∃ b ∈ TrimPrefix f (lit "external/" ++ c.workspace ++ lit "/"), b ≠ 47) →
      c.Key h f = Quote h (Base (TrimPrefix f (lit "external/" ++ c.workspace ++ lit "/")))) ∧
    (c.workspace = lit "ws" →
      c.Key h (lit "external/ws/a/b.txt") = lit "\"b.txt\"" ∧
      c.Key h (lit "external/ws/c.txt") = lit "\"c.txt\"") := by
  refine ⟨Key_flatten_on h c f hf, ?_, ?_⟩
  · intro hb
    rw [Key_flatten_on h c f hf]
    by_cases hp : ∃ rest, f = lit "external/" ++ c.workspace ++ lit "/" ++ rest
    · obtain ⟨rest, rfl⟩ := hp
      rw [TrimPrefix_append] at hb ⊢
      have e : lit "external/" ++ c.workspace ++ lit "/" ++ rest
          = (lit "external/" ++ c.workspace) ++ [47] ++ rest := rfl
      rw [e, Base_append_slash _ _ hb]
    · rw [TrimPrefix_of_not hp]
  · intro hw
    rw [Key_flatten_on h c _ hf, Key_flatten_on h c _ hf]
    have e1 : Base (lit "external/ws/a/b.txt") = lit "b.txt" := by decide
    have e2 : Base (lit "external/ws/c.txt") = lit "c.txt" := by decide
    rw [e1, e2, Quote_plain h _ (by decide), Quote_plain h _ (by decide)]
    exact ⟨by decide, by decide⟩

/-- An instance of C12: `external/ws/a/b.txt` under workspace `ws`. -/
theorem C12_key_flatten_on_witness :
    (wsConfig true []).flatten = true ∧
    (wsConfig true []).Key slashHost (lit "external/ws/a/b.txt")
      = Quote slashHost (Base (lit "external/ws/a/b.txt")) ∧
    (wsConfig true []).Key slashHost (lit "external/ws/a/b.txt") = lit "\"b.txt\"" :=
  ⟨rfl, (C12_key_flatten_on slashHost (wsConfig true []) (lit "external/ws/a/b.txt") rfl).1,
    by decide⟩

/-- C13 fails as stated: in single mode with two source paths and no
`-label`, the error that `newConfiguration` returns is the one of the label
check; it does not report the count. -/
theorem C13_counterexample :
    noLabelConfig.Multi = false ∧ [lit "a", lit "b"].length ≠ 1 ∧
    newConfiguration (fixedParser noLabelConfig [lit "a", lit "b"])
        [lit "embed", lit "a", lit "b"]
      = some (.error "error: -label option not provided") ∧
    newConfiguration (fixedParser noLabelConfig [lit "a", lit "b"])
        [lit "embed", lit "a", lit "b"]
      ≠ some (.error (countError 2)) := by
  have h : newConfiguration (fixedParser noLabelConfig [lit "a", lit "b"])
      [lit "embed", lit "a", lit "b"] = some (.error "error: -label option not provided") :=
    newConfiguration_label
      (show fixedParser noLabelConfig [lit "a", lit "b"]
        ([lit "embed", lit "a", lit "b"].drop 1) = some (noLabelConfig, [lit "a", lit "b"])
        from rfl) rfl
  refine ⟨rfl, by decide, h, ?_⟩
  rw [h]
  intro e
  injection e with e
  injection e with e
  exact absurd e (by decide)

/-- C13, amended: when `-multi` is not given and the number of source paths
is not one, `newConfiguration` returns an error and `run` returns that error
without creating the output file (whatever `os.Create` would do) and without
writing anything; the error reports the count received when the five
required options are all given, and is otherwise the error of the first
missing option in the order label, package, var, out, workspace. -/
theorem C13_single_mode_source_count {σ : Type} (h : Host) (parse : FlagParser)
    (create : GoString → Except Err σ) (W : Writer σ) (fs : FileSystem)
    (args : List GoString) (c : configuration) (rest : List GoString)
    (hp : parse (args.drop 1) = some (c, rest)) (hm : c.Multi = false)
    (hn : rest.length ≠ 1) :
    ∃ e, newConfiguration parse args = some (.error e) ∧
      run h parse create W fs args = some ⟨none, some e⟩ ∧
      (requiredGiven c → e = countError rest.length) ∧
      (c.Label = [] → e = "error: -label option not provided") ∧
      (c.Label ≠ [] → c.Package = [] → e = "error: -package option not provided") ∧
      (c.Label ≠ [] → c.Package ≠ [] → c.Var = [] →
        e = "error: -var option not provided") ∧
      (c.Label ≠ [] → c.Package ≠ [] → c.Var ≠ [] → c.out = [] →
        e = "error: -out option not provided") ∧
      (c.Label ≠ [] → c.Package ≠ [] → c.Var ≠ [] → c.out ≠ [] → c.workspace = [] →
        e = "error: -workspace option not provided") := by
  by_cases h1 : c.Label = []
  · have he := newConfiguration_label hp h1
    exact ⟨_, he, run_of_config_error h parse create W fs args _ he,
      fun hr => absurd h1 hr.1, fun _ => rfl, fun g => absurd h1 g, fun g => absurd h1 g,
      fun g => absurd h1 g, fun g => absurd h1 g⟩
  by_cases h2 : c.Package = []
  · have he := newConfiguration_package hp h1 h2
    exact ⟨_, he, run_of_config_error h parse create W fs args _ he,
      fun hr => absurd h2 hr.2.1, fun g => absurd g h1, fun _ _ => rfl,
      fun _ g => absurd h2 g, fun _ g => absurd h2 g, fun _ g => absurd h2 g⟩
  by_cases h3 : c.Var = []
  · have he := newConfiguration_var hp h1 h2 h3
    exact ⟨_, he, run_of_config_error h parse create W fs args _ he,
      fun hr => absurd h3 hr.2.2.1, fun g => absurd g h1, fun _ g => absurd g h2,
      fun _ _ _ => rfl, fun _ _ g => absurd h3 g, fun _ _ g => absurd h3 g⟩
  by_cases h4 : c.out = []
  · have he := newConfiguration_out hp h1 h2 h3 h4
    exact ⟨_, he, run_of_config_error h parse create W fs args _ he,
      fun hr => absurd h4 hr.2.2.2.1, fun g => absurd g h1, fun _ g => absurd g h2,
      fun _ _ g => absurd g h3, fun _ _ _ _ => rfl, fun _ _ _ g => absurd h4 g⟩
  by_cases h5 : c.workspace = []
  · have he := newConfiguration_workspace hp h1 h2 h3 h4 h5
    exact ⟨_, he, run_of_config_error h parse create W fs args _ he,
      fun hr => absurd h5 hr.2.2.2.2, fun g => absurd g h1, fun _ g => absurd g h2,
      fun _ _ g => absurd g h3, fun _ _ _ g => absurd g h4, fun _ _ _ _ _ => rfl⟩
  · have he := newConfiguration_count hp ⟨h1, h2, h3, h4, h5⟩ hm hn
    exact ⟨_, he, run_of_config_error h parse create W fs args _ he,
      fun _ => rfl, fun g => absurd g h1, fun _ g => absurd g h2,
      fun _ _ g => absurd g h3, fun _ _ _ g => absurd g h4, fun _ _ _ _ g => absurd g h5⟩

/-- An instance of C13: single mode with two source paths, the label given
and no package; the error is the one of the package check. -/
theorem C13_single_mode_source_count_witness :
    (fixedParser noPackageConfig [lit "a", lit "b"] ([lit "embed", lit "a", lit "b"].drop 1)
      = some (noPackageConfig, [lit "a", lit "b"]) ∧
      noPackageConfig.Multi = false ∧ [lit "a", lit "b"].length ≠ 1) ∧
    noPackageConfig.Label ≠ [] ∧ noPackageConfig.Package = [] ∧
    ∃ e, newConfiguration (fixedParser noPackageConfig [lit "a", lit "b"])
        [lit "embed", lit "a", lit "b"] = some (.error e) ∧
      run slashHost (fixedParser noPackageConfig [lit "a", lit "b"])
        (fun _ => .ok []) bufWriter splitFile [lit "embed", lit "a", lit "b"]
        = some ⟨none, some e⟩ ∧
      (requiredGiven noPackageConfig → e = countError 2) ∧
      (noPackageConfig.Label = [] → e = "error: -label option not provided") ∧
      (noPackageConfig.Label ≠ [] → noPackageConfig.Package = [] →
        e = "error: -package option not provided") ∧
      (noPackageConfig.Label ≠ [] → noPackageConfig.Package ≠ [] →
        noPackageConfig.Var = [] → e = "error: -var option not provided") ∧
      (noPackageConfig.Label ≠ [] → noPackageConfig.Package ≠ [] →
        noPackageConfig.Var ≠ [] → noPackageConfig.out = [] →
        e = "error: -out option not provided") ∧
      (noPackageConfig.Label ≠ [] → noPackageConfig.Package ≠ [] →
        noPackageConfig.Var ≠ [] → noPackageConfig.out ≠ [] →
        noPackageConfig.workspace = [] → e = "error: -workspace option not provided") :=
  ⟨⟨rfl, rfl, by decide⟩, by decide, rfl,
    C13_single_mode_source_count slashHost
      (fixedParser noPackageConfig [lit "a", lit "b"]) (fun _ => .ok []) bufWriter
      splitFile [lit "embed", lit "a", lit "b"] noPackageConfig [lit "a", lit "b"]
      rfl rfl (by decide)⟩

/-- C14: over the parsed option values, `newConfiguration` returns an error
exactly when one of label, package, var, out, workspace is empty or `-multi`
is false and the number of sources is not one; otherwise it returns the
configuration with the same options and the sources in the order given; the
error is that of the first failing check in the order label, package, var,
out, workspace, source count. -/
theorem C14_validation (parse : FlagParser) (args : List GoString) (c : configuration)
    (rest : List GoString) (hp : parse (args.drop 1) = some (c, rest)) :
    ((∃ e, newConfiguration parse args = some (.error e)) ↔
      (c.Label = [] ∨ c.Package = [] ∨ c.Var = [] ∨ c.out = [] ∨ c.workspace = [] ∨
        (c.Multi = false ∧ rest.length ≠ 1))) ∧
    (¬ (c.Label = [] ∨ c.Package = [] ∨ c.Var = [] ∨ c.out = [] ∨ c.workspace = [] ∨
        (c.Multi = false ∧ rest.length ≠ 1)) →
      newConfiguration parse args = some (.ok { c with Sources := rest })) ∧
    (c.Label = [] →
      newConfiguration parse args = some (.error "error: -label option not provided")) ∧
    (c.Label ≠ [] → c.Package = [] →
      newConfiguration parse args = some (.error "error: -package option not provided")) ∧
    (c.Label ≠ [] → c.Package ≠ [] → c.Var = [] →
      newConfiguration parse args = some (.error "error: -var option not provided")) ∧
    (c.Label ≠ [] → c.Package ≠ [] → c.Var ≠ [] → c.out = [] →
      newConfiguration parse args = some (.error "error: -out option not provided")) ∧
    (c.Label ≠ [] → c.Package ≠ [] → c.Var ≠ [] → c.out ≠ [] → c.workspace = [] →
      newConfiguration parse args
        = some (.error "error: -workspace option not provided")) ∧
    (c.Label ≠ [] → c.Package ≠ [] → c.Var ≠ [] → c.out ≠ [] → c.workspace ≠ [] →
      c.Multi = false → rest.length ≠ 1 →
      newConfiguration parse args = some (.error
        ("error: -multi flag not given, so want exactly one source; got "
          ++ toString rest.length))) := by
  have ok : ¬ (c.Label = [] ∨ c.Package = [] ∨ c.Var = [] ∨ c.out = [] ∨ c.workspace = [] ∨
      (c.Multi = false ∧ rest.length ≠ 1)) →
      newConfiguration parse args = some (.ok { c with Sources := rest }) := by
    intro hn
    simp only [not_or, not_and] at hn
    obtain ⟨h1, h2, h3, h4, h5, h6⟩ := hn
    refine newConfiguration_ok hp ⟨h1, h2, h3, h4, h5⟩ ?_
    by_cases hm : c.Multi = true
    · exact Or.inl hm
    · exact Or.inr (by
        have := h6 (by simpa using hm)
        exact not_not.mp this)
  refine ⟨⟨?_, ?_⟩, ok, fun h1 => newConfiguration_label hp h1,
    fun h1 h2 => newConfiguration_package hp h1 h2,
    fun h1 h2 h3 => newConfiguration_var hp h1 h2 h3,
    fun h1 h2 h3 h4 => newConfiguration_out hp h1 h2 h3 h4,
    fun h1 h2 h3 h4 h5 => newConfiguration_workspace hp h1 h2 h3 h4 h5,
    fun h1 h2 h3 h4 h5 hm hn => newConfiguration_count hp ⟨h1, h2, h3, h4, h5⟩ hm hn⟩
  · rintro ⟨e, he⟩
    by_contra hn
    rw [ok hn] at he
    injection he with he
    injection he
  · intro hc
    by_cases h1 : c.Label = []
    · exact ⟨_, newConfiguration_label hp h1⟩
    by_cases h2 : c.Package = []
    · exact ⟨_, newConfiguration_package hp h1 h2⟩
    by_cases h3 : c.Var = []
    · exact ⟨_, newConfiguration_var hp h1 h2 h3⟩
    by_cases h4 : c.out = []
    · exact ⟨_, newConfiguration_out hp h1 h2 h3 h4⟩
    by_cases h5 : c.workspace = []
    · exact ⟨_, newConfiguration_workspace hp h1 h2 h3 h4 h5⟩
    · have h6 : c.Multi = false ∧ rest.length ≠ 1 := by tauto
      exact ⟨_, newConfiguration_count hp ⟨h1, h2, h3, h4, h5⟩ h6.1 h6.2⟩

/-- An instance of C14: multi mode with no source is accepted. -/
theorem C14_validation_witness :
    fixedParser (sampleConfig true true []) [] ([lit "embed"].drop 1)
      = some (sampleConfig true true [], []) ∧
    newConfiguration (fixedParser (sampleConfig true true []) []) [lit "embed"]
      = some (.ok { sampleConfig true true [] with Sources := [] }) :=
  ⟨rfl, (C14_validation (fixedParser (sampleConfig true true []) []) [lit "embed"]
    (sampleConfig true true []) [] rfl).2.1 (by decide)⟩

/-- C15: with a sink that records every write and fails as an arbitrary
function of the record, `escapeWriter.Write` issues the writes of its steps
in order up to and including the first one that fails and no other, returns
the error of that write, and returns as count the bytes covered by the steps
issued (the failed one included), at most `len(data)`; `embedSingleFile` and
`embedMultipleFiles` (sources readable) likewise issue their writes up to
and including the first one that fails and return its error. -/
theorem C15_sink_errors_propagate (fail : List (List Nat) → Option Err)
    (log : List (List Nat)) :
    (∀ data : List Nat, ∃ j e, stopsAt fail log ((stepsOf data).map Prod.fst) j e ∧
      escapeWriter.Write (logWriter fail) log data =
        some (log ++ ((stepsOf data).map Prod.fst).take j,
          (((stepsOf data).take j).map Prod.snd).sum, e) ∧
      (((stepsOf data).take j).map Prod.snd).sum ≤ data.length ∧
      ((stepsOf data).map Prod.fst).flatten = escape data) ∧
    (∀ (fs : FileSystem) (c : configuration) (f : GoString), c.Sources = [f] →
      readable fs f → ∃ j e, stopsAt fail log (singleWrites fs c f) j e ∧
        embedSingleFile (logWriter fail) fs c log
          = some (log ++ (singleWrites fs c f).take j, e)) ∧
    (∀ (fs : FileSystem) (c : configuration), c.Sources ≠ [] →
      (∀ f ∈ c.Sources, readable fs f) → ∃ j e, stopsAt fail log (multiWrites fs c) j e ∧
        embedMultipleFiles (logWriter fail) fs c log
          = some (log ++ (multiWrites fs c).take j, e)) := by
  refine ⟨?_, ?_, ?_⟩
  · intro data
    obtain ⟨j, e, h, hq⟩ := writeAll_log fail ((stepsOf data).map Prod.fst) log
    refine ⟨j, e, h, ?_, consumed_le data j, stepsOf_flatten data⟩
    rw [Write_writeAll, hq]
  · intro fs c f hsrc hr
    obtain ⟨j, e, h, hq⟩ := writeSeq_log fail (singleWrites fs c f) log
    exact ⟨j, e, h, by rw [embedSingleFile_writeSeq _ fs c log f [] hsrc hr, hq]⟩
  · intro fs c hne hr
    obtain ⟨j, e, h, hq⟩ := writeSeq_log fail (multiWrites fs c) log
    exact ⟨j, e, h, by rw [embedMultipleFiles_writeSeq _ fs c log hne hr, hq]⟩

/-- An instance of C15: the second write fails. -/
theorem C15_sink_errors_propagate_witness :
    (∃ j e, stopsAt (failAt 2) [] ((stepsOf [65, 34, 66]).map Prod.fst) j e ∧
      escapeWriter.Write (logWriter (failAt 2)) [] [65, 34, 66] =
        some ([] ++ ((stepsOf [65, 34, 66]).map Prod.fst).take j,
          (((stepsOf [65, 34, 66]).take j).map Prod.snd).sum, e) ∧
      (((stepsOf [65, 34, 66]).take j).map Prod.snd).sum ≤ [65, 34, 66].length ∧
      ((stepsOf [65, 34, 66]).map Prod.fst).flatten = escape [65, 34, 66]) ∧
    escapeWriter.Write (logWriter (failAt 2)) [] [65, 34, 66]
      = some ([[65], lit "\\\""], 2, some "disk full") ∧
    embedSingleFile (logWriter (failAt 2)) (fun _ => .ok ⟨[[65, 34, 66]], none⟩)
        (sampleConfig false true [lit "f"]) []
      = some ([lit "var v = \"", [65]], some "disk full") ∧
    embedMultipleFiles (logWriter (failAt 4)) (fun _ => .ok ⟨[[65]], none⟩)
        (sampleConfig true true [lit "f", lit "g"]) []
      = some ([lit "var (\n", lit "\tv_0 = \"", [65], lit "\"\n"], some "disk full") :=
  ⟨(C15_sink_errors_propagate (failAt 2) []).1 [65, 34, 66], by decide, by decide, by decide⟩

/-- C16 fails as stated: with no source `embedMultipleFiles` writes nothing,
so what it emits holds no declaration group `var (` ... `)` at all. -/
theorem C16_counterexample :
    embedMultipleFiles bufWriter splitFile (sampleConfig true true []) [] = some ([], none) ∧
    ¬ ∃ body, ([] : List Nat) = lit "var (" ++ body ++ lit ")\n" := by
  refine ⟨by decide, ?_⟩
  rintro ⟨body, e⟩
  have := congrArg List.length e
  simp [lit] at this

/-- C16, amended: in multi mode with no source, `embedMultipleFiles` returns
no error and issues no write at all (the sink is left as it was, no
declaration group is emitted), and the mapping literal of the header has no
entry: `var <name> = map[string]<type>` followed by an opening brace, a
newline and a closing brace. -/
theorem C16_multi_zero_sources {σ : Type} (h : Host) (W : Writer σ) (fs : FileSystem)
    (c : configuration) (s : σ) (hs : c.Sources = []) (hm : c.Multi = true) :
    embedMultipleFiles W fs c s = some (s, none) ∧
    (headerTpl h c).flatten =
      lit "// Generated by go_embed_data for " ++ c.Label
        ++ lit ". DO NOT EDIT.\n\npackage " ++ c.Package ++ lit "\n\n"
        ++ (lit "\nvar " ++ c.Var ++ lit " = map[string]" ++ c.TypeName ++ lit "\x7b"
          ++ lit "\n\x7d\n")
        ++ lit "\n\n" := by
  refine ⟨embedMultipleFiles_nil W fs c s hs, ?_⟩
  rw [headerTpl_multi h c hm, hs]
  simp [List.enum]

/-- An instance of C16: the header of a multi-mode run without sources. -/
theorem C16_multi_zero_sources_witness :
    ((sampleConfig true true []).Sources = [] ∧ (sampleConfig true true []).Multi = true) ∧
    embedMultipleFiles bufWriter splitFile (sampleConfig true true []) (lit "x")
      = some (lit "x", none) ∧
    (headerTpl slashHost (sampleConfig true true [])).flatten =
      lit ("// Generated by go_embed_data for //l. DO NOT EDIT.\n\npackage p\n\n"
        ++ "\nvar v = map[string]string\x7b\n\x7d\n\n\n") :=
  ⟨⟨rfl, rfl⟩,
    (C16_multi_zero_sources slashHost bufWriter splitFile (sampleConfig true true [])
      (lit "x") rfl rfl).1, by decide⟩

/-- C17: in multi mode the mapping literal of the header has one entry per
source, in source order, the entry at position `i` pairing `Key(source_i)`
with the binding `<name>_<i>`; its value type is `string` with the bare
quoted wrapper and `[]byte` with the `[]byte(...)` wrapper; the bindings
that `embedMultipleFiles` declares (all sources readable) are the same names
in the same order, and the names are pairwise distinct. -/
theorem C17_mapping_matches_bindings (h : Host) (fs : FileSystem) (c : configuration)
    (s : List Nat) (hm : c.Multi = true) (hr : ∀ f ∈ c.Sources, readable fs f) :
    (headerTpl h c).flatten =
      lit "// Generated by go_embed_data for " ++ c.Label
        ++ lit ". DO NOT EDIT.\n\npackage " ++ c.Package ++ lit "\n\n"
        ++ (lit "\nvar " ++ c.Var ++ lit " = map[string]" ++ c.TypeName ++ lit "\x7b"
          ++ (c.Sources.enum.map fun p =>
                lit "\n\t" ++ c.Key h p.2 ++ lit ": " ++ (c.Var ++ lit "_" ++ fmtInt p.1)
                  ++ lit ",").flatten
          ++ lit "\n\x7d\n")
        ++ lit "\n\n" ∧
    (c.Sources.enum.map fun p =>
        lit "\n\t" ++ c.Key h p.2 ++ lit ": " ++ (c.Var ++ lit "_" ++ fmtInt p.1)
          ++ lit ",").length = c.Sources.length ∧
    (c.Sources.enum.map fun p => p.1) = List.range c.Sources.length ∧
    (c.Sources.enum.map fun p => p.2) = c.Sources ∧
    (c.strData = true →
      c.TypeName = lit "string" ∧ dataBegin c = lit "\"" ∧ dataEnd c = lit "\"\n") ∧
    (c.strData = false →
      c.TypeName = lit "[]byte" ∧ dataBegin c = lit "[]byte(\"" ∧ dataEnd c = lit "\")\n") ∧
    embedMultipleFiles bufWriter fs c s =
      some (s ++ (if c.Sources = [] then [] else
        lit "var (\n" ++ (c.Sources.enum.map fun p =>
          lit "\t" ++ (c.Var ++ lit "_" ++ fmtInt p.1) ++ lit " = " ++ dataBegin c
            ++ payload fs p.2 ++ dataEnd c).flatten ++ lit ")\n"), none) ∧
    (c.Sources.enum.map fun p => c.Var ++ lit "_" ++ fmtInt p.1).Nodup := by
  refine ⟨headerTpl_multi h c hm, by simp, List.enum_map_fst _, List.enum_map_snd _, ?_, ?_, ?_,
    bindingNames_nodup _ _⟩
  · intro hd; simp [configuration.TypeName, dataBegin, dataEnd, hd]
  · intro hd; simp [configuration.TypeName, dataBegin, dataEnd, hd]
  · by_cases hs : c.Sources = []
    · rw [embedMultipleFiles_nil bufWriter fs c s hs, if_pos hs]; simp
    · rw [embedMultipleFiles_buf fs c s hs hr, if_neg hs]
      simp only [List.append_assoc]

/-- An instance of C17: two sources under workspace `ws`. -/
theorem C17_mapping_matches_bindings_witness :
    ((wsConfig false [lit "external/ws/a/b.txt", lit "external/ws/c.txt"]).Multi = true ∧
      ∀ f ∈ (wsConfig false [lit "external/ws/a/b.txt", lit "external/ws/c.txt"]).Sources,
        readable (fun _ => .ok ⟨[[65]], none⟩) f) ∧
    (headerTpl slashHost
        (wsConfig false [lit "external/ws/a/b.txt", lit "external/ws/c.txt"])).flatten =
      lit ("// Generated by go_embed_data for //l. DO NOT EDIT.\n\npackage p\n\n"
        ++ "\nvar v = map[string]string\x7b\n\t\"a/b.txt\": v_0,\n\t\"c.txt\": v_1,\n\x7d\n\n\n") ∧
    embedMultipleFiles bufWriter (fun _ => .ok ⟨[[65]], none⟩)
        (wsConfig false [lit "external/ws/a/b.txt", lit "external/ws/c.txt"]) []
      = some (lit "var (\n\tv_0 = \"A\"\n\tv_1 = \"A\"\n)\n", none) :=
  ⟨⟨rfl, fun _ _ => ⟨_, rfl⟩⟩,
    (C17_mapping_matches_bindings slashHost (fun _ => .ok ⟨[[65]], none⟩)
      (wsConfig false [lit "external/ws/a/b.txt", lit "external/ws/c.txt"]) [] rfl
      (fun _ _ => ⟨_, rfl⟩)).1.trans (by decide),
    by decide⟩

/-- C18: the output of one `Write` equals the input exactly when the input
is valid UTF-8 without backslash, double quote, newline, NUL, U+FEFF and
U+FFFD; otherwise it is strictly longer; it is never shorter than the input
and never longer than four times the input. -/
theorem C18_identity_case (data : List Nat) :
    (escape data = data ↔ plainText data) ∧
    (¬ plainText data → data.length < (escape data).length) ∧
    data.length ≤ (escape data).length ∧
    (escape data).length ≤ 4 * data.length := by
  have hl := escape_length data.length data (Nat.le_refl _)
  have hgt := escape_longer data.length data (Nat.le_refl _)
  refine ⟨⟨?_, escape_plain⟩, hgt, hl.1, hl.2⟩
  intro e
  by_contra hn
  have := hgt hn
  rw [e] at this
  omega

/-- C19: for every way of handing a byte sequence to successive `Write`
calls in consecutive chunks, the concatenation of the outputs, read as the
body of a Go interpreted string literal, is the byte sequence. -/
theorem C19_round_trip_chunked (chunks : List (List Nat)) (h : ∀ c ∈ chunks, isBytes c)
    (s : List Nat) :
    ioCopy bufWriter s chunks none = some (s ++ (chunks.map escape).flatten, none) ∧
    unquote ((chunks.map escape).flatten) = some chunks.flatten :=
  ⟨ioCopy_buf none chunks s, unquote_chunks chunks h _ (Nat.le_refl _)⟩

/-- An instance of C19: a cut inside U+00E9 and a cut inside U+20AC. -/
theorem C19_round_trip_chunked_witness :
    (∀ c ∈ [[65, 0xC3], [0xA9, 34, 0xE2, 0x82], [0xAC, 0]], isBytes c) ∧
    ioCopy bufWriter [] [[65, 0xC3], [0xA9, 34, 0xE2, 0x82], [0xAC, 0]] none
      = some ([] ++ ([[65, 0xC3], [0xA9, 34, 0xE2, 0x82], [0xAC, 0]].map escape).flatten, none) ∧
    unquote (([[65, 0xC3], [0xA9, 34, 0xE2, 0x82], [0xAC, 0]].map escape).flatten)
      = some [[65, 0xC3], [0xA9, 34, 0xE2, 0x82], [0xAC, 0]].flatten :=
  ⟨by decide, C19_round_trip_chunked [[65, 0xC3], [0xA9, 34, 0xE2, 0x82], [0xAC, 0]]
    (by decide) []⟩

/-- C20: the output of one `Write` is valid UTF-8, the concatenation of the
encodings of scalar values none of which is NUL or U+FEFF; it holds no NUL
byte; and it splits into tokens that are ASCII bytes or the encoding of one
scalar value from U+0080 up that stands in the input as it stands in the
output, so every byte from 0x80 up in the output belongs to such a copy. -/
theorem C20_output_is_source_text (data : List Nat) (h : isBytes data) :
    (∃ cs : List Nat, (∀ c ∈ cs, isScalar c ∧ c ≠ 0 ∧ c ≠ 0xFEFF) ∧
      escape data = cs.flatMap utf8Enc) ∧
    0 ∉ escape data ∧
    (∃ toks : List (List Nat), escape data = toks.flatten ∧
      (∀ t ∈ toks, sourceToken data t) ∧
      ∀ x ∈ escape data, 0x80 ≤ x → ∃ t ∈ toks, x ∈ t ∧
        ∃ c pre post, isScalar c ∧ 0x80 ≤ c ∧ t = utf8Enc c ∧ data = pre ++ t ++ post) := by
  obtain ⟨toks, e, ht⟩ := escape_sourceTokens data.length data [] (Nat.le_refl _) h
  simp only [List.nil_append] at ht
  obtain ⟨hcs, hz⟩ := tokens_runes data toks ht
  rw [← e] at hcs hz
  refine ⟨hcs, hz, toks, e, ht, ?_⟩
  intro x hx hge
  rw [e] at hx
  obtain ⟨t, ht1, ht2⟩ := List.mem_flatten.mp hx
  rcases ht t ht1 with ha | ⟨c, pre, post, hs, hc, _, et, ed⟩
  · have := (ha x ht2).2; omega
  · exact ⟨t, ht1, ht2, c, pre, post, hs, hc, et, ed⟩

/-- An instance of C20 on binary input with a byte-order mark. -/
theorem C20_output_is_source_text_witness :
    isBytes [0, 0xFF, 0xEF, 0xBB, 0xBF, 0xC3, 0xA9, 10] ∧
    0 ∉ escape [0, 0xFF, 0xEF, 0xBB, 0xBF, 0xC3, 0xA9, 10] ∧
    escape [0, 0xFF, 0xEF, 0xBB, 0xBF, 0xC3, 0xA9, 10]
      = lit "\\x00\\xff\\xef\\xbb\\xbf" ++ [0xC3, 0xA9] ++ lit "\\n" :=
  ⟨by decide, (C20_output_is_source_text _ (by decide)).2.1, by decide⟩

end Embed
